import Mathlib

/-!
# Butterfly-structured bitonic sort (`bitonic.c`, `qsort.c`)

A shallow embedding of the sorting core of `bitonic.c`:

* `Merge_inc`, `Merge_dec`: the two merge routines, loop by loop, on arrays
  modelled as `List Int` with bounds-checked accesses (an access outside the
  array makes the routine return `none`);
* `Swap_list`, `cmpfunc`, and the loop nest of `Thread_work`, a round of all
  threads being their merge-or-idle steps followed by one `Swap_list`;
* the block bounds `rank * (n / thread_count)` and
  `((rank + 1) * n) / thread_count - 1`, computed in C `int` arithmetic
  (32 bits, wrap-around) or over unbounded integers;
* the barrier that ends a round, as a step function on the places of the
  threads.

Two library routines are not code of the program and are modelled after their
standards: `qsort` as a comparison sort driven by the sign of the comparison
function, and the `pthread` calls of the barrier after POSIX.

The globals `thread_count` and `n` and the ranks are natural numbers here:
negative values are outside what the program is run with.
-/

set_option linter.unusedVariables false

namespace Bitonic

/-! ## Machine arithmetic -/

/-- The value a C `int` (32 bits, two's complement) holds after an operation
whose mathematical result is `v`. -/
def wrap32 (v : Int) : Int := (v + 2147483648) % 4294967296 - 2147483648

/-- Index of the first element of a rank's block, `rank * (n / thread_count)`
(`bitonic.c` lines 194, 196, 242, 244). `w` is what the arithmetic does to
each intermediate result: `wrap32` for C `int`, `id` for unbounded integers.
C's `/` truncates towards zero. -/
def first_index (w : Int → Int) (thread_count n rank : Nat) : Int :=
  w ((rank : Int) * Int.tdiv (n : Int) (thread_count : Int))

/-- Index of the last element of a rank's block,
`(((rank + 1) * n) / (thread_count)) - 1` (`bitonic.c` lines 195, 197, 241,
243), with the same convention for `w`. -/
def last_index (w : Int → Int) (thread_count n rank : Nat) : Int :=
  w (Int.tdiv (w (w ((rank : Int) + 1) * (n : Int))) (thread_count : Int) - 1)

/-- The comparison function handed to `qsort`: `*(int*)a - *(int*)b`, an `int`
subtraction. -/
def cmpfunc (a b : Int) : Int := wrap32 (a - b)

/-! ## Arrays -/

/-- Read `a[k]`; `none` when `k` is not an index of `a`. -/
def arr_get (a : List Int) (k : Int) : Option Int :=
  if 0 ≤ k then a[k.toNat]? else none

/-- Write `a[k] = v`; `none` when `k` is not an index of `a`. -/
def arr_set (a : List Int) (k : Int) (v : Int) : Option (List Int) :=
  if 0 ≤ k ∧ k.toNat < a.length then some (a.set k.toNat v) else none

/-! ## The merge routines -/

/-- The variables of a running `Merge_inc` or `Merge_dec`: the two arrays, the
four cursors, and two ghost logs (most recent first) of the indices of `A`
that were read and of the indices of `B` that were written. A cursor is moved
by one only after an access at its value, an index of the array, so its `++`
and `--` never wrap. -/
structure MergeState where
  A : List Int
  B : List Int
  my_first : Int
  p_first : Int
  i : Int
  j : Int
  reads : List Int
  writes : List Int
deriving DecidableEq, Repr

/-- The assignment `B[k] = A[src]`. -/
def assign (s : MergeState) (k src : Int) : Option MergeState :=
  match arr_get s.A src with
  | none => none
  | some v =>
    match arr_set s.B k v with
    | none => none
    | some B1 => some { s with B := B1, reads := src :: s.reads, writes := k :: s.writes }

/-- The test `A[my_first] <= A[p_first]` of `Merge_inc`. -/
def test_le (s : MergeState) : Option (Bool × MergeState) :=
  match arr_get s.A s.my_first, arr_get s.A s.p_first with
  | some a, some b =>
    some (decide (a ≤ b), { s with reads := s.p_first :: s.my_first :: s.reads })
  | _, _ => none

/-- The test `A[my_first] >= A[p_first]` of `Merge_dec`. -/
def test_ge (s : MergeState) : Option (Bool × MergeState) :=
  match arr_get s.A s.my_first, arr_get s.A s.p_first with
  | some a, some b =>
    some (decide (a ≥ b), { s with reads := s.p_first :: s.my_first :: s.reads })
  | _, _ => none

/-- First loop of `Merge_inc` (lines 203-211): `while (i <= my_last)`, no
bound check on `my_first` or `p_first`. Returns `none` when an access is out
of bounds or the fuel runs out with the guard still true. -/
def Merge_inc_loop1 (my_last : Int) : Nat → MergeState → Option MergeState
  | 0, s => if s.i ≤ my_last then none else some s
  | fuel + 1, s =>
    if s.i ≤ my_last then
      match test_le s with
      | none => none
      | some (true, s1) =>
        match assign s1 s1.i s1.my_first with
        | none => none
        | some s2 =>
          Merge_inc_loop1 my_last fuel { s2 with i := s2.i + 1, my_first := s2.my_first + 1 }
      | some (false, s1) =>
        match assign s1 s1.i s1.p_first with
        | none => none
        | some s2 =>
          Merge_inc_loop1 my_last fuel { s2 with i := s2.i + 1, p_first := s2.p_first + 1 }
    else some s

/-- Second loop of `Merge_inc` (lines 213-221):
`while (j <= p_last && my_first <= my_last && p_first <= p_last)`. -/
def Merge_inc_loop2 (my_last p_last : Int) : Nat → MergeState → Option MergeState
  | 0, s =>
    if s.j ≤ p_last ∧ s.my_first ≤ my_last ∧ s.p_first ≤ p_last then none else some s
  | fuel + 1, s =>
    if s.j ≤ p_last ∧ s.my_first ≤ my_last ∧ s.p_first ≤ p_last then
      match test_le s with
      | none => none
      | some (true, s1) =>
        match assign s1 s1.j s1.my_first with
        | none => none
        | some s2 =>
          Merge_inc_loop2 my_last p_last fuel
            { s2 with j := s2.j + 1, my_first := s2.my_first + 1 }
      | some (false, s1) =>
        match assign s1 s1.j s1.p_first with
        | none => none
        | some s2 =>
          Merge_inc_loop2 my_last p_last fuel
            { s2 with j := s2.j + 1, p_first := s2.p_first + 1 }
    else some s

/-- The loop `for (; j <= p_last; j ++, p_first ++) B[j] = A[p_first];` of
`Merge_inc` (lines 224-225). -/
def Merge_inc_rest_p (p_last : Int) : Nat → MergeState → Option MergeState
  | 0, s => if s.j ≤ p_last then none else some s
  | fuel + 1, s =>
    if s.j ≤ p_last then
      match assign s s.j s.p_first with
      | none => none
      | some s1 =>
        Merge_inc_rest_p p_last fuel { s1 with j := s1.j + 1, p_first := s1.p_first + 1 }
    else some s

/-- The loop `for (; j <= p_last; j ++, my_first ++) B[j] = A[my_first];` of
`Merge_inc` (lines 227-228). -/
def Merge_inc_rest_my (p_last : Int) : Nat → MergeState → Option MergeState
  | 0, s => if s.j ≤ p_last then none else some s
  | fuel + 1, s =>
    if s.j ≤ p_last then
      match assign s s.j s.my_first with
      | none => none
      | some s1 =>
        Merge_inc_rest_my p_last fuel { s1 with j := s1.j + 1, my_first := s1.my_first + 1 }
    else some s

/-- The three loops of `Merge_inc` (lines 198-228), run from the values the
four bounds were given. Each loop gets as fuel the number of values its
counter can still take. -/
def Merge_inc_loops (my_first my_last p_first p_last : Int) (A B : List Int) :
    Option MergeState :=
  let s0 : MergeState :=
    { A := A, B := B, my_first := my_first, p_first := p_first,
      i := my_first, j := p_first, reads := [], writes := [] }
  match Merge_inc_loop1 my_last (my_last + 1 - s0.i).toNat s0 with
  | none => none
  | some s1 =>
    match Merge_inc_loop2 my_last p_last (p_last + 1 - s1.j).toNat s1 with
    | none => none
    | some s2 =>
      if s2.my_first > my_last then
        Merge_inc_rest_p p_last (p_last + 1 - s2.j).toNat s2
      else
        Merge_inc_rest_my p_last (p_last + 1 - s2.j).toNat s2

/-- `Merge_inc(A, B, rank, partner)` (lines 193-229): the four bounds computed
in `int` arithmetic (lines 194-197), then the loops. -/
def Merge_inc (thread_count n : Nat) (A B : List Int) (rank partner : Nat) :
    Option MergeState :=
  Merge_inc_loops (first_index wrap32 thread_count n rank)
    (last_index wrap32 thread_count n rank)
    (first_index wrap32 thread_count n partner)
    (last_index wrap32 thread_count n partner) A B

/-- First loop of `Merge_dec` (lines 250-258): `while (i >= my_last)`. -/
def Merge_dec_loop1 (my_last : Int) : Nat → MergeState → Option MergeState
  | 0, s => if s.i ≥ my_last then none else some s
  | fuel + 1, s =>
    if s.i ≥ my_last then
      match test_ge s with
      | none => none
      | some (true, s1) =>
        match assign s1 s1.i s1.my_first with
        | none => none
        | some s2 =>
          Merge_dec_loop1 my_last fuel { s2 with i := s2.i - 1, my_first := s2.my_first - 1 }
      | some (false, s1) =>
        match assign s1 s1.i s1.p_first with
        | none => none
        | some s2 =>
          Merge_dec_loop1 my_last fuel { s2 with i := s2.i - 1, p_first := s2.p_first - 1 }
    else some s

/-- Second loop of `Merge_dec` (lines 260-268):
`while (j >= p_last && my_first >= my_last && p_first >= p_last)`. -/
def Merge_dec_loop2 (my_last p_last : Int) : Nat → MergeState → Option MergeState
  | 0, s =>
    if s.j ≥ p_last ∧ s.my_first ≥ my_last ∧ s.p_first ≥ p_last then none else some s
  | fuel + 1, s =>
    if s.j ≥ p_last ∧ s.my_first ≥ my_last ∧ s.p_first ≥ p_last then
      match test_ge s with
      | none => none
      | some (true, s1) =>
        match assign s1 s1.j s1.my_first with
        | none => none
        | some s2 =>
          Merge_dec_loop2 my_last p_last fuel
            { s2 with j := s2.j - 1, my_first := s2.my_first - 1 }
      | some (false, s1) =>
        match assign s1 s1.j s1.p_first with
        | none => none
        | some s2 =>
          Merge_dec_loop2 my_last p_last fuel
            { s2 with j := s2.j - 1, p_first := s2.p_first - 1 }
    else some s

/-- The loop `for (; j >= p_last; j --, p_first --) B[j] = A[p_first];` of
`Merge_dec` (lines 271-272). -/
def Merge_dec_rest_p (p_last : Int) : Nat → MergeState → Option MergeState
  | 0, s => if s.j ≥ p_last then none else some s
  | fuel + 1, s =>
    if s.j ≥ p_last then
      match assign s s.j s.p_first with
      | none => none
      | some s1 =>
        Merge_dec_rest_p p_last fuel { s1 with j := s1.j - 1, p_first := s1.p_first - 1 }
    else some s

/-- The loop `for (; j >= p_last; j --, my_first --) B[j] = A[my_first];` of
`Merge_dec` (lines 274-275). -/
def Merge_dec_rest_my (p_last : Int) : Nat → MergeState → Option MergeState
  | 0, s => if s.j ≥ p_last then none else some s
  | fuel + 1, s =>
    if s.j ≥ p_last then
      match assign s s.j s.my_first with
      | none => none
      | some s1 =>
        Merge_dec_rest_my p_last fuel { s1 with j := s1.j - 1, my_first := s1.my_first - 1 }
    else some s

/-- The three loops of `Merge_dec` (lines 245-275), run from the values the
four bounds were given: here `my_first` and `p_first` start at the last index
of a block and `my_last`, `p_last` are the first index. -/
def Merge_dec_loops (my_first my_last p_first p_last : Int) (A B : List Int) :
    Option MergeState :=
  let s0 : MergeState :=
    { A := A, B := B, my_first := my_first, p_first := p_first,
      i := my_first, j := p_first, reads := [], writes := [] }
  match Merge_dec_loop1 my_last (s0.i + 1 - my_last).toNat s0 with
  | none => none
  | some s1 =>
    match Merge_dec_loop2 my_last p_last (s1.j + 1 - p_last).toNat s1 with
    | none => none
    | some s2 =>
      if s2.my_first < my_last then
        Merge_dec_rest_p p_last (s2.j + 1 - p_last).toNat s2
      else
        Merge_dec_rest_my p_last (s2.j + 1 - p_last).toNat s2

/-- `Merge_dec(A, B, rank, partner)` (lines 240-276): the four bounds computed
in `int` arithmetic (lines 241-244), then the loops. -/
def Merge_dec (thread_count n : Nat) (A B : List Int) (rank partner : Nat) :
    Option MergeState :=
  Merge_dec_loops (last_index wrap32 thread_count n rank)
    (first_index wrap32 thread_count n rank)
    (last_index wrap32 thread_count n partner)
    (first_index wrap32 thread_count n partner) A B

/-! ## The shared buffers and `Thread_work` -/

/-- The two global array pointers `x` (current) and `temp` (scratch), each
given by the contents of the array it points to. -/
structure Shared where
  x : List Int
  temp : List Int
deriving DecidableEq, Repr

/-- `Swap_list(&x, &temp)` (lines 285-291): the two pointers are exchanged. -/
def Swap_list (s : Shared) : Shared := { x := s.temp, temp := s.x }

/-- The memory `Swap_list` works on: the value of every `int*` variable, by
the address of the variable, and the contents of every array, by the address
of the array. -/
structure Memory where
  ptr : Nat → Nat
  arr : Nat → List Int

/-- `Swap_list(curr_arr, temp_arr)` (lines 285-291) statement by statement:
`c = *curr_arr; t = *temp_arr; *curr_arr = t; *temp_arr = c;`. -/
def Swap_list_ptr (curr_arr temp_arr : Nat) (m : Memory) : Memory :=
  let c := m.ptr curr_arr
  let t := m.ptr temp_arr
  let m1 : Memory := { m with ptr := Function.update m.ptr curr_arr t }
  { m1 with ptr := Function.update m1.ptr temp_arr c }

/-- The two arrays that the pointer variables at `curr_arr` and `temp_arr`
point to. -/
def Memory.shared (m : Memory) (curr_arr temp_arr : Nat) : Shared :=
  { x := m.arr (m.ptr curr_arr), temp := m.arr (m.ptr temp_arr) }

/-- Insertion of `v` into a list, as the comparison function orders it. -/
def qsort_insert (compar : Int → Int → Int) (v : Int) : List Int → List Int
  | [] => [v]
  | u :: rest =>
    if compar v u ≤ 0 then v :: u :: rest else u :: qsort_insert compar v rest

/-- Sorting a list by the comparison function alone. -/
def qsort_list (compar : Int → Int → Int) : List Int → List Int
  | [] => []
  | v :: rest => qsort_insert compar v (qsort_list compar rest)

/-- The C library's `qsort(&x[base], nmemb, sizeof(int), compar)`. It is not
code of the repository: it is modelled after the C standard as a comparison
sort of the `nmemb` elements from index `base`, one that learns the order of
two elements only from the sign of `compar` (here an insertion sort). -/
def qsort (x : List Int) (base nmemb : Nat) (compar : Int → Int → Int) :
    Option (List Int) :=
  if base + nmemb ≤ x.length then
    some (x.take base ++ qsort_list compar ((x.drop base).take nmemb) ++ x.drop (base + nmemb))
  else none

/-- The local sort of one thread (lines 309-310):
`qsort(&x[my_rank * (n / thread_count)], n / thread_count, sizeof(int), cmpfunc)`;
`my_rank` is a `long`, so this product does not wrap. -/
def Thread_work_sort (thread_count n : Nat) (x : List Int) (my_rank : Nat) :
    Option (List Int) :=
  qsort x (my_rank * (n / thread_count)) (n / thread_count) cmpfunc

/-- The partner of a thread in a round, `partner = my_rank ^ bitmask2`
(line 333). -/
def partner (my_rank bitmask2 : Nat) : Nat := my_rank ^^^ bitmask2

/-- The merge-or-idle step of one thread in one round (lines 333-339). -/
def Thread_work_merge (thread_count n bitmask2 and_bit : Nat) (s : Shared)
    (my_rank : Nat) : Option Shared :=
  let p := partner my_rank bitmask2
  if my_rank < p then
    if my_rank &&& and_bit = 0 then
      (Merge_inc thread_count n s.x s.temp my_rank p).map
        fun m => { x := m.A, temp := m.B }
    else
      (Merge_dec thread_count n s.x s.temp my_rank p).map
        fun m => { x := m.A, temp := m.B }
  else some s

/-- The indices of the scratch array that one thread assigns to in its
merge-or-idle step of one round (lines 333-339), most recent first: the write
log of the merge it runs, and nothing when it idles. -/
def Thread_work_writes (thread_count n bitmask2 and_bit : Nat) (s : Shared)
    (my_rank : Nat) : Option (List Int) :=
  let p := partner my_rank bitmask2
  if my_rank < p then
    if my_rank &&& and_bit = 0 then
      (Merge_inc thread_count n s.x s.temp my_rank p).map fun m => m.writes
    else
      (Merge_dec thread_count n s.x s.temp my_rank p).map fun m => m.writes
  else some []

/-- One body of the inner loop for all threads (lines 333-358). The barrier
lets no thread start the next round before all have finished this one, so the
round is modelled as the ranks taking their merge-or-idle step one after
another, followed by the one `Swap_list` of the thread that arrives last. -/
def exchange_round (thread_count n bitmask2 and_bit : Nat) (s : Shared) :
    Option Shared :=
  ((List.range thread_count).foldlM (Thread_work_merge thread_count n bitmask2 and_bit) s).map
    Swap_list

/-- The inner loop of `Thread_work` (lines 332-360),
`while (bitmask2 > 0) { body; bitmask2 >>= 1; }`, for any loop body. -/
def inner_loop {σ : Type} (body : Nat → Nat → σ → Option σ) (and_bit : Nat) :
    Nat → Nat → σ → Option σ
  | 0, bitmask2, s => if bitmask2 > 0 then none else some s
  | fuel + 1, bitmask2, s =>
    if bitmask2 > 0 then
      match body bitmask2 and_bit s with
      | none => none
      | some s1 => inner_loop body and_bit fuel (bitmask2 >>> 1) s1
    else some s

/-- The outer loop of `Thread_work` (lines 327-363),
`while (bitmask < thread_count) { bitmask2 = bitmask; inner loop; bitmask <<= 1; and_bit <<= 1; }`
on `unsigned` (32-bit) variables. A 32-bit value halves to 0 in at most 32
steps, which is the inner loop's fuel. -/
def outer_loop {σ : Type} (body : Nat → Nat → σ → Option σ) (thread_count : Nat) :
    Nat → Nat → Nat → σ → Option σ
  | 0, bitmask, _, s => if bitmask < thread_count then none else some s
  | fuel + 1, bitmask, and_bit, s =>
    if bitmask < thread_count then
      match inner_loop body and_bit 32 bitmask s with
      | none => none
      | some s1 =>
        outer_loop body thread_count fuel ((bitmask <<< 1) % 4294967296)
          ((and_bit <<< 1) % 4294967296) s1
    else some s

/-- The local sorts of all threads (lines 309-310), up to the first barrier. -/
def local_sorts (thread_count n : Nat) (x : List Int) : Option (List Int) :=
  (List.range thread_count).foldlM (Thread_work_sort thread_count n) x

/-- The run of all `thread_count` threads of `Thread_work` (lines 301-366) on
the global arrays: the local sorts, then the loop nest with `bitmask = 1`,
`and_bit = 2`, every round being `exchange_round`. The result holds the final
`x` and `temp`. -/
def Thread_work (thread_count n : Nat) (s : Shared) : Option Shared :=
  match local_sorts thread_count n s.x with
  | none => none
  | some x1 =>
    outer_loop (exchange_round thread_count n) thread_count 32 1 2 { x := x1, temp := s.temp }

/-- The run of all threads of `Thread_work` (lines 301-366) with a ghost
counter of the executions of the body of the inner loop (lines 333-359): the
body is the round `exchange_round` of the run, and each execution adds one to
the counter. -/
def Thread_work_counted (thread_count n : Nat) (s : Shared) : Option (Shared × Nat) :=
  match local_sorts thread_count n s.x with
  | none => none
  | some x1 =>
    outer_loop
      (fun bitmask2 and_bit (st : Shared × Nat) =>
        (exchange_round thread_count n bitmask2 and_bit st.1).map fun s1 => (s1, st.2 + 1))
      thread_count 32 1 2 ({ x := x1, temp := s.temp }, 0)

/-! ## Vocabulary of the statements -/

/-- The elements of `a` at the indices `lo, ..., hi - 1`. -/
def slice (a : List Int) (lo hi : Nat) : List Int := (a.drop lo).take (hi - lo)

/-- The order `Merge_inc` merges by. -/
def le_dec (a b : Int) : Bool := decide (a ≤ b)

/-- What a run of consecutive assignments `B[lo] = L[0], B[lo + 1] = L[1], ...,
B[hi - 1] = ...` has done between the states `s` and `s1`. -/
structure WroteUp (s s1 : MergeState) (lo hi : Nat) (L : List Int) : Prop where
  A_eq : s1.A = s.A
  len_eq : s1.B.length = s.B.length
  B_eq : ∀ idx : Nat, s1.B[idx]? = if lo ≤ idx ∧ idx < hi then L[idx - lo]? else s.B[idx]?
  writes_eq : ∀ w : Int, w ∈ s1.writes ↔ (w ∈ s.writes ∨ ((lo : Int) ≤ w ∧ w < (hi : Int)))

/-- The outcome of a merge of the blocks `[a0, a0 + m)` and `[p0, p0 + m)` of
`A` into `B`: `A` is as it was, and `B` has changed on the two blocks only,
which hold the list `L`. -/
structure MergedInto (A B : List Int) (a0 p0 m : Nat) (L : List Int) (s : MergeState) :
    Prop where
  A_eq : s.A = A
  len_eq : s.B.length = B.length
  B_eq : ∀ idx : Nat, s.B[idx]? =
    if a0 ≤ idx ∧ idx < a0 + m then L[idx - a0]?
    else if p0 ≤ idx ∧ idx < p0 + m then L[m + (idx - p0)]? else B[idx]?
  writes_eq : ∀ w : Int, w ∈ s.writes ↔
    (((a0 : Int) ≤ w ∧ w < ((a0 + m : Nat) : Int)) ∨
     ((p0 : Int) ≤ w ∧ w < ((p0 + m : Nat) : Int)))

/-- The order `Merge_dec` merges by. -/
def ge_dec (a b : Int) : Bool := decide (a ≥ b)

/-- What a run of consecutive assignments `B[hi - 1] = L[0], B[hi - 2] = L[1],
..., B[lo] = ...` has done between the states `s` and `s1`. -/
structure WroteDown (s s1 : MergeState) (lo hi : Nat) (L : List Int) : Prop where
  A_eq : s1.A = s.A
  len_eq : s1.B.length = s.B.length
  B_eq : ∀ idx : Nat, s1.B[idx]? =
    if lo ≤ idx ∧ idx < hi then L[hi - 1 - idx]? else s.B[idx]?
  writes_eq : ∀ w : Int, w ∈ s1.writes ↔ (w ∈ s.writes ∨ ((lo : Int) ≤ w ∧ w < (hi : Int)))

/-- The outcome of a right-to-left merge of the blocks `[a0, a0 + m)` and
`[p0, p0 + m)` of `A` into `B`: `A` is as it was, and `B` has changed on the
two blocks only; read from its last index down to its first, the first block
holds the first `m` elements of `L` and the second block the rest. -/
structure MergedDown (A B : List Int) (a0 p0 m : Nat) (L : List Int) (s : MergeState) :
    Prop where
  A_eq : s.A = A
  len_eq : s.B.length = B.length
  B_eq : ∀ idx : Nat, s.B[idx]? =
    if a0 ≤ idx ∧ idx < a0 + m then L[a0 + m - 1 - idx]?
    else if p0 ≤ idx ∧ idx < p0 + m then L[m + (p0 + m - 1 - idx)]? else B[idx]?
  writes_eq : ∀ w : Int, w ∈ s.writes ↔
    (((a0 : Int) ≤ w ∧ w < ((a0 + m : Nat) : Int)) ∨
     ((p0 : Int) ≤ w ∧ w < ((p0 + m : Nat) : Int)))

/-- The elements of `a` at the indices `hi - 1, hi - 2, ..., lo`, in this order. -/
def rslice (a : List Int) (lo hi : Nat) : List Int := (slice a lo hi).reverse

/-- Between the states `s` and `s1` the array `A` was left alone and `B` was
assigned to only at indices that satisfy `P`. -/
structure Touched (P : Int → Prop) (s s1 : MergeState) : Prop where
  A_eq : s1.A = s.A
  len_eq : s1.B.length = s.B.length
  B_out : ∀ idx : Nat, ¬ P (idx : Int) → s1.B[idx]? = s.B[idx]?
  writes_in : ∀ w : Int, w ∈ s1.writes → (w ∈ s.writes ∨ P w)

/-! ## The barrier of a round -/

/-- Where a thread stands in the barrier that ends a round (lines 341-358):
`merging` before `pthread_mutex_lock`, `locked` with the mutex held before
`barrier_thread_count++`, `waiting` blocked inside `pthread_cond_wait` with the
mutex given up, `woken` unblocked inside `pthread_cond_wait` and yet to take
the mutex back, `leaving` with the mutex held before `pthread_mutex_unlock`,
`released` past the barrier. -/
inductive Place where
  | merging
  | locked
  | waiting
  | woken
  | leaving
  | released
deriving DecidableEq, Repr

/-- The steps of a thread `t` in the barrier. `lock`: `pthread_mutex_lock`
returns (line 341). `arrive`: lines 342-353, done with the mutex held, the
increment and then either the reset, `Swap_list` and the broadcast, or the
entry into `pthread_cond_wait`. `wake`: a blocked thread is unblocked with no
broadcast, a spurious wakeup, which POSIX allows `pthread_cond_wait` to have.
`resume`: `pthread_cond_wait` takes the mutex back and returns 0, which ends
the loop `while (pthread_cond_wait(...) != 0);` (lines 354-355). `unlock`:
`pthread_mutex_unlock` (line 358). -/
inductive Event where
  | lock (t : Nat)
  | arrive (t : Nat)
  | wake (t : Nat)
  | resume (t : Nat)
  | unlock (t : Nat)
deriving DecidableEq, Repr

/-- The state of the barrier of one round: the place of every thread, the
counter `barrier_thread_count`, the holder of `barrier_mutex` if any, and the
number of times the branch that resets the counter and calls `Swap_list` was
taken. -/
structure Barrier where
  place : List Place
  barrier_thread_count : Nat
  barrier_mutex : Option Nat
  swaps : Nat
deriving DecidableEq, Repr

/-- All threads still merge, the counter is 0 and the mutex free. -/
def Barrier.start (thread_count : Nat) : Barrier :=
  { place := List.replicate thread_count Place.merging, barrier_thread_count := 0,
    barrier_mutex := none, swaps := 0 }

/-- One step of one thread; `none` when the thread cannot take the step. -/
def Barrier.step (thread_count : Nat) (b : Barrier) : Event → Option Barrier
  | Event.lock t =>
    if b.place[t]? = some Place.merging ∧ b.barrier_mutex = none then
      some { b with place := b.place.set t Place.locked, barrier_mutex := some t }
    else none
  | Event.arrive t =>
    if b.place[t]? = some Place.locked then
      if b.barrier_thread_count + 1 = thread_count then
        some
          { place := (b.place.map fun p => if p = Place.waiting then Place.woken else p).set t
              Place.leaving,
            barrier_thread_count := 0, barrier_mutex := b.barrier_mutex,
            swaps := b.swaps + 1 }
      else
        some
          { b with
            place := b.place.set t Place.waiting,
            barrier_thread_count := b.barrier_thread_count + 1, barrier_mutex := none }
    else none
  | Event.wake t =>
    if b.place[t]? = some Place.waiting then
      some { b with place := b.place.set t Place.woken }
    else none
  | Event.resume t =>
    if b.place[t]? = some Place.woken ∧ b.barrier_mutex = none then
      some { b with place := b.place.set t Place.leaving, barrier_mutex := some t }
    else none
  | Event.unlock t =>
    if b.place[t]? = some Place.leaving then
      some { b with place := b.place.set t Place.released, barrier_mutex := none }
    else none

/-- A schedule: the steps taken one after another. -/
def Barrier.run (thread_count : Nat) : Barrier → List Event → Option Barrier
  | b, [] => some b
  | b, e :: es =>
    match b.step thread_count e with
    | none => none
    | some b1 => Barrier.run thread_count b1 es

/-- What holds of the barrier in every schedule without a spurious wakeup:
either no thread has reset the counter yet, the counter is the number of
blocked threads and every thread is merging, holding the mutex before its
increment, or blocked; or exactly one reset and `Swap_list` has happened, the
counter is 0 and every thread has arrived and is unblocked. -/
def Barrier.Inv (thread_count : Nat) (b : Barrier) : Prop :=
  (b.swaps = 0 ∧
    b.barrier_thread_count = b.place.countP (fun p => decide (p = Place.waiting)) ∧
    b.place.length = thread_count ∧
    ∀ p ∈ b.place, p = Place.merging ∨ p = Place.locked ∨ p = Place.waiting) ∨
  (b.swaps = 1 ∧ b.barrier_thread_count = 0 ∧
    ∀ p ∈ b.place, p = Place.woken ∨ p = Place.leaving ∨ p = Place.released)

/-! ## Theorems -/

theorem slice_length (a : List Int) (lo hi : Nat) (h : hi ≤ a.length) :
    (slice a lo hi).length = hi - lo := by
  simp [slice]; omega

theorem slice_empty (a : List Int) (lo hi : Nat) (h : hi ≤ lo) : slice a lo hi = [] := by
  simp [slice, Nat.sub_eq_zero_of_le h]

theorem slice_cons (a : List Int) (lo hi : Nat) (v : Int) (h : lo < hi)
    (hv : a[lo]? = some v) : slice a lo hi = v :: slice a (lo + 1) hi := by
  unfold slice
  obtain ⟨d, hd⟩ : ∃ d, hi - lo = d + 1 := ⟨hi - lo - 1, by omega⟩
  have h2 : hi - (lo + 1) = d := by omega
  rw [hd, h2]
  have hlt : lo < a.length := by
    by_contra hc
    rw [List.getElem?_eq_none (by omega)] at hv
    cases hv
  rw [List.drop_eq_getElem_cons hlt, List.take_succ_cons]
  rw [List.getElem?_eq_getElem hlt] at hv
  simp at hv
  rw [hv]

theorem slice_snoc (a : List Int) (lo hi : Nat) (v : Int) (h : lo ≤ hi)
    (hv : a[hi]? = some v) : slice a lo (hi + 1) = slice a lo hi ++ [v] := by
  unfold slice
  have h2 : hi + 1 - lo = (hi - lo) + 1 := by omega
  rw [h2, List.take_succ]
  congr 1
  rw [List.getElem?_drop]
  have : lo + (hi - lo) = hi := by omega
  rw [this, hv]
  rfl

theorem arr_get_nat (a : List Int) (k : Nat) : arr_get a (k : Int) = a[k]? := by
  simp [arr_get]

theorem arr_set_nat (a : List Int) (k : Nat) (v : Int) (h : k < a.length) :
    arr_set a (k : Int) v = some (a.set k v) := by
  simp [arr_set, h]

theorem assign_nat (s : MergeState) (k src : Nat) (v : Int) (hv : s.A[src]? = some v)
    (hk : k < s.B.length) :
    assign s (k : Int) (src : Int) =
      some { s with B := s.B.set k v, reads := (src : Int) :: s.reads,
                    writes := (k : Int) :: s.writes } := by
  simp [assign, arr_get_nat, arr_set_nat, hv, hk]

theorem test_le_nat (s : MergeState) (a p : Nat) (x y : Int) (ha : s.my_first = a)
    (hp : s.p_first = p) (hx : s.A[a]? = some x) (hy : s.A[p]? = some y) :
    test_le s = some (decide (x ≤ y),
      { s with reads := s.p_first :: s.my_first :: s.reads }) := by
  simp [test_le, ha, hp, arr_get_nat, hx, hy]

theorem test_le_some (s : MergeState) (a p : Nat) (x y : Int) (ha : s.my_first = a)
    (hp : s.p_first = p) (hx : s.A[a]? = some x) (hy : s.A[p]? = some y) :
    ∃ s1, test_le s = some (decide (x ≤ y), s1) ∧ s1.A = s.A ∧ s1.B = s.B ∧
      s1.my_first = s.my_first ∧ s1.p_first = s.p_first ∧ s1.i = s.i ∧ s1.j = s.j ∧
      s1.writes = s.writes :=
  ⟨_, test_le_nat s a p x y ha hp hx hy, rfl, rfl, rfl, rfl, rfl, rfl, rfl⟩

theorem assign_some (s : MergeState) (kI srcI : Int) (k src : Nat) (v : Int) (hkI : kI = k)
    (hsrcI : srcI = src) (hv : s.A[src]? = some v) (hk : k < s.B.length) :
    ∃ s2, assign s kI srcI = some s2 ∧ s2.A = s.A ∧ s2.B = s.B.set k v ∧
      s2.my_first = s.my_first ∧ s2.p_first = s.p_first ∧ s2.i = s.i ∧ s2.j = s.j ∧
      s2.writes = kI :: s.writes := by
  subst hkI hsrcI
  exact ⟨_, assign_nat s k src v hv hk, rfl, rfl, rfl, rfl, rfl, rfl, rfl⟩

theorem getElem?_set_range2 (B : List Int) (lo hi idx : Nat) (v : Int) (l : List Int)
    (hlo : lo < B.length) (hlh : lo < hi) (f : Nat → Option Int)
    (h : f idx = if lo + 1 ≤ idx ∧ idx < hi then l[idx - (lo + 1)]? else (B.set lo v)[idx]?) :
    f idx = if lo ≤ idx ∧ idx < hi then (v :: l)[idx - lo]? else B[idx]? := by
  rw [h]
  by_cases hc : idx = lo
  · subst hc
    rw [if_neg (by omega), if_pos (by omega), List.getElem?_set_self hlo]
    simp
  · by_cases hr : lo + 1 ≤ idx ∧ idx < hi
    · rw [if_pos hr, if_pos (by omega)]
      obtain ⟨d, hd⟩ : ∃ d, idx - lo = d + 1 := ⟨idx - lo - 1, by omega⟩
      have hd2 : idx - (lo + 1) = d := by omega
      rw [hd, hd2, List.getElem?_cons_succ]
    · rw [if_neg hr, if_neg (by omega), List.getElem?_set_ne (by omega)]

theorem mem_writes_step2 (ws ws0 : List Int) (lo hi : Nat) (hlh : lo < hi)
    (h : ∀ w : Int, w ∈ ws ↔
      (w ∈ (lo : Int) :: ws0 ∨ (((lo + 1 : Nat) : Int) ≤ w ∧ w < (hi : Int)))) :
    ∀ w : Int, w ∈ ws ↔ (w ∈ ws0 ∨ ((lo : Int) ≤ w ∧ w < (hi : Int))) := by
  intro w
  rw [h w]
  simp only [List.mem_cons]
  push_cast
  constructor
  · rintro ((h | h) | h)
    · right; omega
    · left; exact h
    · right; omega
  · rintro (h | h)
    · left; right; exact h
    · by_cases hw : w = lo
      · left; left; exact hw
      · right; omega

theorem wrap32_eq (v : Int) (h1 : -2147483648 ≤ v) (h2 : v < 2147483648) : wrap32 v = v := by
  unfold wrap32; omega

theorem first_index_wrap (tc m r : Nat) (htc : 1 ≤ tc) (h : r * m < 2147483648) :
    first_index wrap32 tc (tc * m) r = ((r * m : Nat) : Int) := by
  unfold first_index
  rw [Int.tdiv_eq_ediv (by positivity) (by positivity)]
  push_cast
  rw [Int.mul_ediv_cancel_left _ (by omega)]
  apply wrap32_eq
  · have : (0 : Int) ≤ (r : Int) * m := by positivity
    omega
  · exact_mod_cast h

theorem last_index_wrap (tc m r : Nat) (htc : 1 ≤ tc) (hr : r + 1 < 2147483648)
    (h : (r + 1) * (tc * m) < 2147483648) :
    last_index wrap32 tc (tc * m) r = (((r + 1) * m : Nat) : Int) - 1 := by
  unfold last_index
  have h1 : wrap32 ((r : Int) + 1) = ((r + 1 : Nat) : Int) := by
    rw [wrap32_eq] <;> push_cast <;> omega
  have h0 : (0 : Int) ≤ ((r + 1 : Nat) : Int) * ((tc * m : Nat) : Int) :=
    Int.mul_nonneg (Int.ofNat_nonneg _) (Int.ofNat_nonneg _)
  have h2 : wrap32 (((r + 1 : Nat) : Int) * ((tc * m : Nat) : Int)) =
      (((r + 1) * (tc * m) : Nat) : Int) := by
    rw [wrap32_eq]
    · push_cast; ring
    · omega
    · exact_mod_cast h
  have h3 : (r + 1) * (tc * m) = tc * ((r + 1) * m) := by ring
  have h4 : (r + 1) * m ≤ (r + 1) * (tc * m) := by
    rw [h3]; exact Nat.le_mul_of_pos_left _ htc
  have h5 : Int.tdiv (((r + 1) * (tc * m) : Nat) : Int) (tc : Int) = (((r + 1) * m : Nat) : Int) := by
    rw [Int.tdiv_eq_ediv (Int.ofNat_nonneg _) (Int.ofNat_nonneg _), h3, Nat.cast_mul tc,
      Int.mul_ediv_cancel_left _ (by omega)]
  rw [h1, h2, h5]
  apply wrap32_eq <;> omega

theorem first_index_id (tc m r : Nat) (htc : 1 ≤ tc) :
    first_index id tc (tc * m) r = (r : Int) * m := by
  unfold first_index
  simp only [id]
  rw [Int.tdiv_eq_ediv (by positivity) (by positivity)]
  push_cast
  rw [Int.mul_ediv_cancel_left _ (by omega)]

theorem last_index_id (tc m r : Nat) (htc : 1 ≤ tc) :
    last_index id tc (tc * m) r = ((r : Int) + 1) * m - 1 := by
  unfold last_index
  simp only [id]
  rw [Int.tdiv_eq_ediv (by positivity) (by positivity)]
  push_cast
  have : ((r : Int) + 1) * ((tc : Int) * m) = (tc : Int) * (((r : Int) + 1) * m) := by ring
  rw [this, Int.mul_ediv_cancel_left _ (by omega)]

/-- C4: for `thread_count >= 1` and `n` divisible by `thread_count`, the index
ranges `[rank * (n / thread_count), ((rank + 1) * n) / thread_count - 1]` of
the ranks below `thread_count`, computed over unbounded integers, each hold
exactly `n / thread_count` indices, are pairwise disjoint, and together cover
exactly `[0, n)`. -/
theorem partition_exact (thread_count n : Nat) (htc : 1 ≤ thread_count)
    (hdiv : thread_count ∣ n) :
    (∀ rank, rank < thread_count →
      last_index id thread_count n rank - first_index id thread_count n rank + 1
        = ((n / thread_count : Nat) : Int)) ∧
    (∀ r1 r2, r1 < thread_count → r2 < thread_count → r1 ≠ r2 → ∀ k : Int,
      ¬ (first_index id thread_count n r1 ≤ k ∧ k ≤ last_index id thread_count n r1 ∧
         first_index id thread_count n r2 ≤ k ∧ k ≤ last_index id thread_count n r2)) ∧
    (∀ k : Int, (0 ≤ k ∧ k < n) ↔
      ∃ rank, rank < thread_count ∧
        first_index id thread_count n rank ≤ k ∧ k ≤ last_index id thread_count n rank) := by
  obtain ⟨m, rfl⟩ := hdiv
  have hm : thread_count * m / thread_count = m := Nat.mul_div_cancel_left m (by omega)
  simp only [first_index_id _ _ _ htc, last_index_id _ _ _ htc, hm]
  refine ⟨fun r _ => by ring, ?_, ?_⟩
  · intro r1 r2 _ _ hne k ⟨h1, h2, h3, h4⟩
    rcases Nat.lt_or_gt_of_ne hne with h | h
    · have : ((r1 : Int) + 1) * m ≤ (r2 : Int) * m :=
        mul_le_mul_of_nonneg_right (by omega) (by positivity)
      omega
    · have : ((r2 : Int) + 1) * m ≤ (r1 : Int) * m :=
        mul_le_mul_of_nonneg_right (by omega) (by positivity)
      omega
  · intro k
    constructor
    · rintro ⟨h0, hk⟩
      lift k to ℕ using h0
      have hk2 : k < thread_count * m := by exact_mod_cast hk
      have hmpos : 0 < m := by
        rcases Nat.eq_zero_or_pos m with h | h
        · subst h; simp at hk2
        · exact h
      have hq1 : k / m < thread_count :=
        Nat.div_lt_of_lt_mul (by rw [Nat.mul_comm]; exact hk2)
      have hq2 : k / m * m ≤ k := Nat.div_mul_le_self k m
      have hq3 : k < (k / m + 1) * m := by
        have := Nat.div_add_mod k m
        have := Nat.mod_lt k hmpos
        nlinarith
      generalize k / m = q at hq1 hq2 hq3
      refine ⟨q, hq1, ?_, ?_⟩
      · exact_mod_cast hq2
      · have h3 : ((k : Nat) : Int) < (((q + 1) * m : Nat) : Int) := by exact_mod_cast hq3
        push_cast at h3
        omega
    · rintro ⟨r, hr, h1, h2⟩
      have h3 : (0 : Int) ≤ (r : Int) * m := by positivity
      have h4 : ((r : Int) + 1) * m ≤ (thread_count : Int) * m :=
        mul_le_mul_of_nonneg_right (by omega) (by positivity)
      push_cast
      omega

theorem WroteUp_nil (s : MergeState) (lo : Nat) (L : List Int) : WroteUp s s lo lo L where
  A_eq := rfl
  len_eq := rfl
  B_eq := fun idx => by rw [if_neg (by omega)]
  writes_eq := fun w => by
    constructor
    · intro h; exact Or.inl h
    · rintro (h | h)
      · exact h
      · omega

theorem WroteUp_cons (s s2 s1 : MergeState) (lo hi : Nat) (v : Int) (l : List Int)
    (hA : s2.A = s.A) (hB : s2.B = s.B.set lo v) (hw : s2.writes = (lo : Int) :: s.writes)
    (hlo : lo < s.B.length) (hlh : lo < hi) (h : WroteUp s2 s1 (lo + 1) hi l) :
    WroteUp s s1 lo hi (v :: l) where
  A_eq := by rw [h.A_eq, hA]
  len_eq := by rw [h.len_eq, hB, List.length_set]
  B_eq := fun idx => by
    apply getElem?_set_range2 s.B lo hi idx v l hlo hlh (fun t => s1.B[t]?)
    rw [h.B_eq idx, hB]
  writes_eq := by
    apply mem_writes_step2 s1.writes s.writes lo hi hlh
    intro w
    rw [h.writes_eq w, hw]

theorem WroteUp_append (s s1 s2 : MergeState) (lo mid hi : Nat) (L : List Int)
    (h1 : WroteUp s s1 lo mid L) (h2 : WroteUp s1 s2 mid hi (L.drop (mid - lo)))
    (hlm : lo ≤ mid) (hmh : mid ≤ hi) : WroteUp s s2 lo hi L where
  A_eq := by rw [h2.A_eq, h1.A_eq]
  len_eq := by rw [h2.len_eq, h1.len_eq]
  B_eq := fun idx => by
    rw [h2.B_eq idx, h1.B_eq idx]
    by_cases c1 : mid ≤ idx ∧ idx < hi
    · rw [if_pos c1, if_pos (by omega), List.getElem?_drop]
      congr 1; omega
    · rw [if_neg c1]
      by_cases c2 : lo ≤ idx ∧ idx < mid
      · rw [if_pos c2, if_pos (by omega)]
      · rw [if_neg c2, if_neg (by omega)]
  writes_eq := fun w => by
    rw [h2.writes_eq w, h1.writes_eq w]
    constructor
    · rintro ((h | h) | h)
      · exact Or.inl h
      · right; omega
      · right; omega
    · rintro (h | h)
      · left; left; exact h
      · by_cases c : w < (mid : Int)
        · left; right; omega
        · right; omega

theorem MergedInto_of_WroteUp (A B : List Int) (a0 p0 m : Nat) (L : List Int)
    (s0 s1 s2 : MergeState) (hA : s0.A = A) (hB : s0.B = B) (hw : s0.writes = [])
    (hdis : a0 + m ≤ p0 ∨ p0 + m ≤ a0)
    (h1 : WroteUp s0 s1 a0 (a0 + m) L) (h2 : WroteUp s1 s2 p0 (p0 + m) (L.drop m)) :
    MergedInto A B a0 p0 m L s2 where
  A_eq := by rw [h2.A_eq, h1.A_eq, hA]
  len_eq := by rw [h2.len_eq, h1.len_eq, hB]
  B_eq := fun idx => by
    rw [h2.B_eq idx, h1.B_eq idx, hB]
    by_cases c1 : a0 ≤ idx ∧ idx < a0 + m
    · rw [if_neg (by omega), if_pos c1, if_pos c1]
    · rw [if_neg c1, if_neg c1]
      by_cases c2 : p0 ≤ idx ∧ idx < p0 + m
      · rw [if_pos c2, if_pos c2, List.getElem?_drop]
      · rw [if_neg c2, if_neg c2]
  writes_eq := fun w => by
    rw [h2.writes_eq w, h1.writes_eq w, hw]
    simp only [List.not_mem_nil, false_or]

theorem merge_cons_le (x y : Int) (xs ys : List Int) (h : x ≤ y) :
    List.merge (x :: xs) (y :: ys) le_dec = x :: List.merge xs (y :: ys) le_dec := by
  rw [List.merge]; simp [le_dec, h]

theorem merge_cons_gt (x y : Int) (xs ys : List Int) (h : ¬ x ≤ y) :
    List.merge (x :: xs) (y :: ys) le_dec = y :: List.merge (x :: xs) ys le_dec := by
  rw [List.merge]; simp [le_dec, h]

theorem Merge_inc_loop1_spec (A : List Int) (ae pe : Nat) :
    ∀ (k : Nat) (s : MergeState) (i a p : Nat), s.A = A → s.i = i → s.my_first = a →
      s.p_first = p → a + k ≤ ae → p + k ≤ pe → ae ≤ A.length → pe ≤ A.length →
      i + k ≤ s.B.length →
      ∃ s1 a1 p1, Merge_inc_loop1 ((i : Int) + k - 1) k s = some s1 ∧
        s1.my_first = (a1 : Nat) ∧ s1.p_first = (p1 : Nat) ∧ s1.j = s.j ∧
        (a ≤ a1 ∧ p ≤ p1 ∧ a1 + p1 = a + p + k) ∧
        List.merge (slice A a1 ae) (slice A p1 pe) le_dec =
          (List.merge (slice A a ae) (slice A p pe) le_dec).drop k ∧
        WroteUp s s1 i (i + k) (List.merge (slice A a ae) (slice A p pe) le_dec) := by
  intro k
  induction k with
  | zero =>
    intro s i a p hA hi ha hp _ _ _ _ _
    refine ⟨s, a, p, ?_, ha, hp, rfl, ⟨le_refl _, le_refl _, rfl⟩, rfl, WroteUp_nil s i _⟩
    simp [Merge_inc_loop1, hi]
  | succ k ih =>
    intro s i a p hA hi ha hp hak hpk hae hpe hik
    have hax : a < A.length := by omega
    have hpx : p < A.length := by omega
    have hx : s.A[a]? = some A[a] := by rw [hA]; exact List.getElem?_eq_getElem hax
    have hy : s.A[p]? = some A[p] := by rw [hA]; exact List.getElem?_eq_getElem hpx
    have hsa : slice A a ae = A[a] :: slice A (a + 1) ae :=
      slice_cons A a ae _ (by omega) (List.getElem?_eq_getElem hax)
    have hsp : slice A p pe = A[p] :: slice A (p + 1) pe :=
      slice_cons A p pe _ (by omega) (List.getElem?_eq_getElem hpx)
    have hguard : s.i ≤ (i : Int) + (k + 1 : Nat) - 1 := by rw [hi]; push_cast; omega
    have hml : (i : Int) + (k + 1 : Nat) - 1 = ((i + 1 : Nat) : Int) + k - 1 := by
      push_cast; ring
    have hik2 : i + (k + 1) = i + 1 + k := by omega
    obtain ⟨s1, hs1, t1, t2, t3, t4, t5, t6, t7⟩ := test_le_some s a p _ _ ha hp hx hy
    rw [Merge_inc_loop1, if_pos hguard, hs1, hml, hik2]
    by_cases hxy : A[a] ≤ A[p]
    · have hm := merge_cons_le A[a] A[p] (slice A (a + 1) ae) (slice A (p + 1) pe) hxy
      rw [← hsp] at hm
      obtain ⟨s2, hs2, u1, u2, u3, u4, u5, u6, u7⟩ :=
        assign_some s1 s1.i s1.my_first i a A[a] (by rw [t5, hi]) (by rw [t3, ha])
          (by rw [t1]; exact hx) (by rw [t2]; omega)
      simp only [hxy, decide_True]
      rw [hs2]
      simp only []
      obtain ⟨s3, a3, p3, h1, h2, h3, h4, h5, h6, h7⟩ :=
        ih { s2 with i := s2.i + 1, my_first := s2.my_first + 1 } (i + 1) (a + 1) p
          (by simp [u1, t1, hA]) (by simp [u5, t5, hi]) (by simp [u3, t3, ha])
          (by simp [u4, t4, hp]) (by omega) (by omega) hae hpe
          (by simp [u2, t2]; omega)
      refine ⟨s3, a3, p3, h1, h2, h3, by rw [h4]; simp [u6, t6], by omega, ?_, ?_⟩
      · rw [h6, hsa, hm, List.drop_succ_cons]
      · rw [hsa, hm]
        exact WroteUp_cons s _ s3 i (i + 1 + k) A[a] _ (by simp [u1, t1])
          (by simp [u2, t2]) (by simp [u7, t7, t5, hi]) (by omega) (by omega) h7
    · have hm := merge_cons_gt A[a] A[p] (slice A (a + 1) ae) (slice A (p + 1) pe) hxy
      rw [← hsa] at hm
      obtain ⟨s2, hs2, u1, u2, u3, u4, u5, u6, u7⟩ :=
        assign_some s1 s1.i s1.p_first i p A[p] (by rw [t5, hi]) (by rw [t4, hp])
          (by rw [t1]; exact hy) (by rw [t2]; omega)
      simp only [hxy, decide_False]
      rw [hs2]
      simp only []
      obtain ⟨s3, a3, p3, h1, h2, h3, h4, h5, h6, h7⟩ :=
        ih { s2 with i := s2.i + 1, p_first := s2.p_first + 1 } (i + 1) a (p + 1)
          (by simp [u1, t1, hA]) (by simp [u5, t5, hi]) (by simp [u3, t3, ha])
          (by simp [u4, t4, hp]) (by omega) (by omega) hae hpe
          (by simp [u2, t2]; omega)
      refine ⟨s3, a3, p3, h1, h2, h3, by rw [h4]; simp [u6, t6], by omega, ?_, ?_⟩
      · rw [h6, hsp, hm, List.drop_succ_cons]
      · rw [hsp, hm]
        exact WroteUp_cons s _ s3 i (i + 1 + k) A[p] _ (by simp [u1, t1])
          (by simp [u2, t2]) (by simp [u7, t7, t5, hi]) (by omega) (by omega) h7

theorem Merge_inc_loop2_spec (A : List Int) (ae pe : Nat) :
    ∀ (k : Nat) (s : MergeState) (j a p : Nat), s.A = A → s.j = j → s.my_first = a →
      s.p_first = p → a ≤ ae → p ≤ pe → ae ≤ A.length → pe ≤ A.length →
      (ae - a) + (pe - p) ≤ k → j + (ae - a) + (pe - p) = pe → pe ≤ s.B.length →
      ∃ s1 j1 a1 p1, Merge_inc_loop2 ((ae : Int) - 1) ((pe : Int) - 1) k s = some s1 ∧
        s1.j = (j1 : Nat) ∧ s1.my_first = (a1 : Nat) ∧ s1.p_first = (p1 : Nat) ∧
        (a1 ≤ ae ∧ p1 ≤ pe ∧ (a1 = ae ∨ p1 = pe) ∧ j ≤ j1 ∧
          j1 + (ae - a1) + (pe - p1) = pe) ∧
        List.merge (slice A a1 ae) (slice A p1 pe) le_dec =
          (List.merge (slice A a ae) (slice A p pe) le_dec).drop (j1 - j) ∧
        WroteUp s s1 j j1 (List.merge (slice A a ae) (slice A p pe) le_dec) := by
  intro k
  induction k with
  | zero =>
    intro s j a p hA hj ha hp h1 h2 _ _ hk hjp _
    refine ⟨s, j, a, p, ?_, hj, ha, hp, ⟨h1, h2, by omega, le_refl _, hjp⟩, by simp,
      WroteUp_nil s j _⟩
    rw [Merge_inc_loop2, if_neg]
    rw [hj, ha, hp]; omega
  | succ k ih =>
    intro s j a p hA hj ha hp hale hple hae hpe hk hjp hB
    by_cases hg : a < ae ∧ p < pe
    · obtain ⟨hga, hgp⟩ := hg
      have hax : a < A.length := by omega
      have hpx : p < A.length := by omega
      have hx : s.A[a]? = some A[a] := by rw [hA]; exact List.getElem?_eq_getElem hax
      have hy : s.A[p]? = some A[p] := by rw [hA]; exact List.getElem?_eq_getElem hpx
      have hsa : slice A a ae = A[a] :: slice A (a + 1) ae :=
        slice_cons A a ae _ hga (List.getElem?_eq_getElem hax)
      have hsp : slice A p pe = A[p] :: slice A (p + 1) pe :=
        slice_cons A p pe _ hgp (List.getElem?_eq_getElem hpx)
      have hguard : s.j ≤ (pe : Int) - 1 ∧ s.my_first ≤ (ae : Int) - 1 ∧
          s.p_first ≤ (pe : Int) - 1 := by
        rw [hj, ha, hp]; omega
      obtain ⟨s1, hs1, t1, t2, t3, t4, t5, t6, t7⟩ := test_le_some s a p _ _ ha hp hx hy
      rw [Merge_inc_loop2, if_pos hguard, hs1]
      by_cases hxy : A[a] ≤ A[p]
      · have hm := merge_cons_le A[a] A[p] (slice A (a + 1) ae) (slice A (p + 1) pe) hxy
        rw [← hsp] at hm
        obtain ⟨s2, hs2, u1, u2, u3, u4, u5, u6, u7⟩ :=
          assign_some s1 s1.j s1.my_first j a A[a] (by rw [t6, hj]) (by rw [t3, ha])
            (by rw [t1]; exact hx) (by rw [t2]; omega)
        simp only [hxy, decide_True]
        rw [hs2]
        simp only []
        obtain ⟨s3, j3, a3, p3, h1, h2, h3, h4, h5, h6, h7⟩ :=
          ih { s2 with j := s2.j + 1, my_first := s2.my_first + 1 } (j + 1) (a + 1) p
            (by simp [u1, t1, hA]) (by simp [u6, t6, hj]) (by simp [u3, t3, ha])
            (by simp [u4, t4, hp]) (by omega) (by omega) hae hpe (by omega) (by omega)
            (by simp [u2, t2]; omega)
        obtain ⟨d, hd⟩ : ∃ d, j3 - j = d + 1 := ⟨j3 - j - 1, by omega⟩
        have hd2 : j3 - (j + 1) = d := by omega
        refine ⟨s3, j3, a3, p3, h1, h2, h3, h4, by omega, ?_, ?_⟩
        · rw [h6, hsa, hm, hd, hd2, List.drop_succ_cons]
        · rw [hsa, hm]
          exact WroteUp_cons s _ s3 j j3 A[a] _ (by simp [u1, t1])
            (by simp [u2, t2]) (by simp [u7, t7, t6, hj]) (by omega) (by omega) h7
      · have hm := merge_cons_gt A[a] A[p] (slice A (a + 1) ae) (slice A (p + 1) pe) hxy
        rw [← hsa] at hm
        obtain ⟨s2, hs2, u1, u2, u3, u4, u5, u6, u7⟩ :=
          assign_some s1 s1.j s1.p_first j p A[p] (by rw [t6, hj]) (by rw [t4, hp])
            (by rw [t1]; exact hy) (by rw [t2]; omega)
        simp only [hxy, decide_False]
        rw [hs2]
        simp only []
        obtain ⟨s3, j3, a3, p3, h1, h2, h3, h4, h5, h6, h7⟩ :=
          ih { s2 with j := s2.j + 1, p_first := s2.p_first + 1 } (j + 1) a (p + 1)
            (by simp [u1, t1, hA]) (by simp [u6, t6, hj]) (by simp [u3, t3, ha])
            (by simp [u4, t4, hp]) (by omega) (by omega) hae hpe (by omega) (by omega)
            (by simp [u2, t2]; omega)
        obtain ⟨d, hd⟩ : ∃ d, j3 - j = d + 1 := ⟨j3 - j - 1, by omega⟩
        have hd2 : j3 - (j + 1) = d := by omega
        refine ⟨s3, j3, a3, p3, h1, h2, h3, h4, by omega, ?_, ?_⟩
        · rw [h6, hsp, hm, hd, hd2, List.drop_succ_cons]
        · rw [hsp, hm]
          exact WroteUp_cons s _ s3 j j3 A[p] _ (by simp [u1, t1])
            (by simp [u2, t2]) (by simp [u7, t7, t6, hj]) (by omega) (by omega) h7
    · refine ⟨s, j, a, p, ?_, hj, ha, hp, ⟨hale, hple, by omega, le_refl _, hjp⟩, by simp,
        WroteUp_nil s j _⟩
      rw [Merge_inc_loop2, if_neg]
      rw [hj, ha, hp]; omega

theorem Merge_inc_rest_p_spec (A : List Int) :
    ∀ (k : Nat) (s : MergeState) (j p : Nat), s.A = A → s.j = j → s.p_first = p →
      p + k ≤ A.length → j + k ≤ s.B.length →
      ∃ s1, Merge_inc_rest_p ((j : Int) + k - 1) k s = some s1 ∧
        WroteUp s s1 j (j + k) (slice A p (p + k)) := by
  intro k
  induction k with
  | zero =>
    intro s j p hA hj hp _ _
    refine ⟨s, ?_, WroteUp_nil s j _⟩
    simp [Merge_inc_rest_p, hj]
  | succ k ih =>
    intro s j p hA hj hp hpk hjk
    have hpx : p < A.length := by omega
    have hy : s.A[p]? = some A[p] := by rw [hA]; exact List.getElem?_eq_getElem hpx
    have hsp : slice A p (p + (k + 1)) = A[p] :: slice A (p + 1) (p + 1 + k) := by
      rw [slice_cons A p _ _ (by omega) (List.getElem?_eq_getElem hpx)]
      congr 2; omega
    have hguard : s.j ≤ (j : Int) + (k + 1 : Nat) - 1 := by rw [hj]; push_cast; omega
    have hml : (j : Int) + (k + 1 : Nat) - 1 = ((j + 1 : Nat) : Int) + k - 1 := by
      push_cast; ring
    have hjk2 : j + (k + 1) = j + 1 + k := by omega
    obtain ⟨s2, hs2, u1, u2, u3, u4, u5, u6, u7⟩ :=
      assign_some s s.j s.p_first j p A[p] hj hp hy (by omega)
    rw [Merge_inc_rest_p, if_pos hguard, hs2, hml, hsp, hjk2]
    simp only []
    obtain ⟨s3, h1, h2⟩ :=
      ih { s2 with j := s2.j + 1, p_first := s2.p_first + 1 } (j + 1) (p + 1)
        (by simp [u1, hA]) (by simp [u6, hj]) (by simp [u4, hp]) (by omega)
        (by simp [u2]; omega)
    exact ⟨s3, h1, WroteUp_cons s _ s3 j (j + 1 + k) A[p] _ (by simp [u1])
      (by simp [u2]) (by simp [u7, hj]) (by omega) (by omega) h2⟩

theorem Merge_inc_rest_my_spec (A : List Int) :
    ∀ (k : Nat) (s : MergeState) (j a : Nat), s.A = A → s.j = j → s.my_first = a →
      a + k ≤ A.length → j + k ≤ s.B.length →
      ∃ s1, Merge_inc_rest_my ((j : Int) + k - 1) k s = some s1 ∧
        WroteUp s s1 j (j + k) (slice A a (a + k)) := by
  intro k
  induction k with
  | zero =>
    intro s j p hA hj hp _ _
    refine ⟨s, ?_, WroteUp_nil s j _⟩
    simp [Merge_inc_rest_my, hj]
  | succ k ih =>
    intro s j p hA hj hp hpk hjk
    have hpx : p < A.length := by omega
    have hy : s.A[p]? = some A[p] := by rw [hA]; exact List.getElem?_eq_getElem hpx
    have hsp : slice A p (p + (k + 1)) = A[p] :: slice A (p + 1) (p + 1 + k) := by
      rw [slice_cons A p _ _ (by omega) (List.getElem?_eq_getElem hpx)]
      congr 2; omega
    have hguard : s.j ≤ (j : Int) + (k + 1 : Nat) - 1 := by rw [hj]; push_cast; omega
    have hml : (j : Int) + (k + 1 : Nat) - 1 = ((j + 1 : Nat) : Int) + k - 1 := by
      push_cast; ring
    have hjk2 : j + (k + 1) = j + 1 + k := by omega
    obtain ⟨s2, hs2, u1, u2, u3, u4, u5, u6, u7⟩ :=
      assign_some s s.j s.my_first j p A[p] hj hp hy (by omega)
    rw [Merge_inc_rest_my, if_pos hguard, hs2, hml, hsp, hjk2]
    simp only []
    obtain ⟨s3, h1, h2⟩ :=
      ih { s2 with j := s2.j + 1, my_first := s2.my_first + 1 } (j + 1) (p + 1)
        (by simp [u1, hA]) (by simp [u6, hj]) (by simp [u3, hp]) (by omega)
        (by simp [u2]; omega)
    exact ⟨s3, h1, WroteUp_cons s _ s3 j (j + 1 + k) A[p] _ (by simp [u1])
      (by simp [u2]) (by simp [u7, hj]) (by omega) (by omega) h2⟩

theorem Merge_inc_loops_spec (A B : List Int) (a0 p0 m : Nat)
    (hdis : a0 + m ≤ p0 ∨ p0 + m ≤ a0) (ha : a0 + m ≤ A.length) (hp : p0 + m ≤ A.length)
    (hB : B.length = A.length) :
    ∃ s, Merge_inc_loops (a0 : Int) (((a0 + m : Nat) : Int) - 1) (p0 : Int)
        (((p0 + m : Nat) : Int) - 1) A B = some s ∧
      MergedInto A B a0 p0 m
        (List.merge (slice A a0 (a0 + m)) (slice A p0 (p0 + m)) le_dec) s := by
  generalize hM : List.merge (slice A a0 (a0 + m)) (slice A p0 (p0 + m)) le_dec = M
  have e1 : ((a0 + m : Nat) : Int) - 1 = (a0 : Int) + (m : Nat) - 1 := by push_cast; ring
  have e2 : (((a0 : Nat) : Int) + (m : Nat) - 1 + 1 - (a0 : Int)).toNat = m := by omega
  have e3 : (((p0 + m : Nat) : Int) - 1 + 1 - (p0 : Int)).toNat = m := by omega
  obtain ⟨s1, a1, p1, g1, g2, g3, g4, g5, g6, g7⟩ :=
    Merge_inc_loop1_spec A (a0 + m) (p0 + m) m
      { A := A, B := B, my_first := a0, p_first := p0, i := a0, j := p0, reads := [],
        writes := [] } a0 a0 p0 rfl rfl rfl rfl (le_refl _) (le_refl _) (by omega) (by omega)
      (by simp only []; omega)
  simp only [] at g4
  rw [hM] at g6 g7
  have hlen1 : s1.B.length = B.length := g7.len_eq
  obtain ⟨s2, j2, a2, p2, k1, k2, k3, k4, k5, k6, k7⟩ :=
    Merge_inc_loop2_spec A (a0 + m) (p0 + m) m s1 p0 a1 p1 g7.A_eq g4 g2 g3 (by omega)
      (by omega) (by omega) (by omega) (by omega) (by omega) (by omega)
  rw [g6] at k6 k7
  have hj2 : j2 ≤ p0 + m := by omega
  have e5 : (((p0 + m : Nat) : Int) - 1 + 1 - (j2 : Int)).toNat = p0 + m - j2 := by omega
  have e6 : ((p0 + m : Nat) : Int) - 1 = (j2 : Int) + ((p0 + m - j2 : Nat) : Int) - 1 := by
    omega
  have e7 : j2 + (p0 + m - j2) = p0 + m := by omega
  have hlen2 : s2.B.length = B.length := by rw [k7.len_eq, hlen1]
  have hA2 : s2.A = A := by rw [k7.A_eq, g7.A_eq]
  rw [Merge_inc_loops]
  simp only []
  rw [e1, e2, g1]
  simp only []
  rw [← e1, g4, e3, k1]
  simp only []
  rw [k2, e5]
  by_cases hc : s2.my_first > ((a0 + m : Nat) : Int) - 1
  · rw [if_pos hc, e6]
    have ha2 : a2 = a0 + m := by rw [k3] at hc; omega
    obtain ⟨s3, n1, n2⟩ :=
      Merge_inc_rest_p_spec A (p0 + m - j2) s2 j2 p2 hA2 k2 k4 (by omega) (by omega)
    have hrest : slice A p2 (p2 + (p0 + m - j2)) = (M.drop m).drop (j2 - p0) := by
      have : p2 + (p0 + m - j2) = p0 + m := by omega
      rw [this, ← k6, ha2, slice_empty A (a0 + m) (a0 + m) (le_refl _)]
      simp [List.merge]
    rw [hrest, e7] at n2
    exact ⟨s3, n1, MergedInto_of_WroteUp A B a0 p0 m M _ s1 s3 rfl rfl rfl hdis g7
      (WroteUp_append s1 s2 s3 p0 j2 (p0 + m) _ k7 n2 (by omega) hj2)⟩
  · rw [if_neg hc, e6]
    have ha2 : a2 < a0 + m := by rw [k3] at hc; omega
    have hp2 : p2 = p0 + m := by omega
    obtain ⟨s3, n1, n2⟩ :=
      Merge_inc_rest_my_spec A (p0 + m - j2) s2 j2 a2 hA2 k2 k3 (by omega) (by omega)
    have hrest : slice A a2 (a2 + (p0 + m - j2)) = (M.drop m).drop (j2 - p0) := by
      have : a2 + (p0 + m - j2) = a0 + m := by omega
      rw [this, ← k6, hp2, slice_empty A (p0 + m) (p0 + m) (le_refl _)]
      simp [List.merge]
    rw [hrest, e7] at n2
    exact ⟨s3, n1, MergedInto_of_WroteUp A B a0 p0 m M _ s1 s3 rfl rfl rfl hdis g7
      (WroteUp_append s1 s2 s3 p0 j2 (p0 + m) _ k7 n2 (by omega) hj2)⟩

theorem WroteDown_nil (s : MergeState) (lo : Nat) (L : List Int) : WroteDown s s lo lo L where
  A_eq := rfl
  len_eq := rfl
  B_eq := fun idx => by rw [if_neg (by omega)]
  writes_eq := fun w => by
    constructor
    · intro h; exact Or.inl h
    · rintro (h | h)
      · exact h
      · omega

theorem WroteDown_cons (s s2 s1 : MergeState) (lo hi : Nat) (v : Int) (l : List Int)
    (hA : s2.A = s.A) (hB : s2.B = s.B.set hi v) (hw : s2.writes = (hi : Int) :: s.writes)
    (hhi : hi < s.B.length) (hlh : lo ≤ hi) (h : WroteDown s2 s1 lo hi l) :
    WroteDown s s1 lo (hi + 1) (v :: l) where
  A_eq := by rw [h.A_eq, hA]
  len_eq := by rw [h.len_eq, hB, List.length_set]
  B_eq := fun idx => by
    rw [h.B_eq idx, hB]
    by_cases hc : idx = hi
    · subst hc
      rw [if_neg (by omega), if_pos (by omega), List.getElem?_set_self hhi]
      have : idx + 1 - 1 - idx = 0 := by omega
      rw [this]; simp
    · by_cases hr : lo ≤ idx ∧ idx < hi
      · rw [if_pos hr, if_pos (by omega)]
        obtain ⟨d, hd⟩ : ∃ d, hi + 1 - 1 - idx = d + 1 := ⟨hi - idx - 1, by omega⟩
        have hd2 : hi - 1 - idx = d := by omega
        rw [hd, hd2, List.getElem?_cons_succ]
      · rw [if_neg hr, if_neg (by omega), List.getElem?_set_ne (by omega)]
  writes_eq := fun w => by
    rw [h.writes_eq w, hw]
    simp only [List.mem_cons]
    push_cast
    constructor
    · rintro ((h | h) | h)
      · right; omega
      · left; exact h
      · right; omega
    · rintro (h | h)
      · left; right; exact h
      · by_cases hw : w = hi
        · left; left; exact hw
        · right; omega

theorem WroteDown_append (s s1 s2 : MergeState) (lo mid hi : Nat) (L : List Int)
    (h1 : WroteDown s s1 mid hi L) (h2 : WroteDown s1 s2 lo mid (L.drop (hi - mid)))
    (hlm : lo ≤ mid) (hmh : mid ≤ hi) : WroteDown s s2 lo hi L where
  A_eq := by rw [h2.A_eq, h1.A_eq]
  len_eq := by rw [h2.len_eq, h1.len_eq]
  B_eq := fun idx => by
    rw [h2.B_eq idx, h1.B_eq idx]
    by_cases c1 : lo ≤ idx ∧ idx < mid
    · rw [if_pos c1, if_pos (by omega), List.getElem?_drop]
      congr 1; omega
    · rw [if_neg c1]
      by_cases c2 : mid ≤ idx ∧ idx < hi
      · rw [if_pos c2, if_pos (by omega)]
      · rw [if_neg c2, if_neg (by omega)]
  writes_eq := fun w => by
    rw [h2.writes_eq w, h1.writes_eq w]
    constructor
    · rintro ((h | h) | h)
      · exact Or.inl h
      · right; omega
      · right; omega
    · rintro (h | h)
      · left; left; exact h
      · by_cases c : w < (mid : Int)
        · right; omega
        · left; right; omega

theorem MergedDown_of_WroteDown (A B : List Int) (a0 p0 m : Nat) (L : List Int)
    (s0 s1 s2 : MergeState) (hA : s0.A = A) (hB : s0.B = B) (hw : s0.writes = [])
    (hdis : a0 + m ≤ p0 ∨ p0 + m ≤ a0)
    (h1 : WroteDown s0 s1 a0 (a0 + m) L) (h2 : WroteDown s1 s2 p0 (p0 + m) (L.drop m)) :
    MergedDown A B a0 p0 m L s2 where
  A_eq := by rw [h2.A_eq, h1.A_eq, hA]
  len_eq := by rw [h2.len_eq, h1.len_eq, hB]
  B_eq := fun idx => by
    rw [h2.B_eq idx, h1.B_eq idx, hB]
    by_cases c1 : a0 ≤ idx ∧ idx < a0 + m
    · rw [if_neg (by omega), if_pos c1, if_pos c1]
    · rw [if_neg c1, if_neg c1]
      by_cases c2 : p0 ≤ idx ∧ idx < p0 + m
      · rw [if_pos c2, if_pos c2, List.getElem?_drop]
      · rw [if_neg c2, if_neg c2]
  writes_eq := fun w => by
    rw [h2.writes_eq w, h1.writes_eq w, hw]
    simp only [List.not_mem_nil, false_or]

theorem merge_cons_ge (x y : Int) (xs ys : List Int) (h : x ≥ y) :
    List.merge (x :: xs) (y :: ys) ge_dec = x :: List.merge xs (y :: ys) ge_dec := by
  rw [List.merge]; simp [ge_dec, h]

theorem merge_cons_lt (x y : Int) (xs ys : List Int) (h : ¬ x ≥ y) :
    List.merge (x :: xs) (y :: ys) ge_dec = y :: List.merge (x :: xs) ys ge_dec := by
  rw [List.merge]; simp only [ge_dec, h, decide_False]; simp

theorem test_ge_some (s : MergeState) (a p : Nat) (x y : Int) (ha : s.my_first = a)
    (hp : s.p_first = p) (hx : s.A[a]? = some x) (hy : s.A[p]? = some y) :
    ∃ s1, test_ge s = some (decide (x ≥ y), s1) ∧ s1.A = s.A ∧ s1.B = s.B ∧
      s1.my_first = s.my_first ∧ s1.p_first = s.p_first ∧ s1.i = s.i ∧ s1.j = s.j ∧
      s1.writes = s.writes := by
  refine ⟨{ s with reads := s.p_first :: s.my_first :: s.reads }, ?_, rfl, rfl, rfl, rfl, rfl,
    rfl, rfl⟩
  simp [test_ge, ha, hp, arr_get_nat, hx, hy]

theorem rslice_cons (a : List Int) (lo hi : Nat) (v : Int) (h : lo ≤ hi)
    (hv : a[hi]? = some v) : rslice a lo (hi + 1) = v :: rslice a lo hi := by
  unfold rslice
  rw [slice_snoc a lo hi v h hv, List.reverse_append]
  rfl

theorem rslice_empty (a : List Int) (lo hi : Nat) (h : hi ≤ lo) : rslice a lo hi = [] := by
  unfold rslice
  rw [slice_empty a lo hi h]
  rfl

theorem Merge_dec_loop1_spec (A : List Int) (alo plo : Nat) :
    ∀ (k : Nat) (s : MergeState) (i1 a1 p1 : Nat), s.A = A → s.i = (i1 : Int) - 1 →
      s.my_first = (a1 : Int) - 1 → s.p_first = (p1 : Int) - 1 → alo + k ≤ a1 →
      plo + k ≤ p1 → a1 ≤ A.length → p1 ≤ A.length → k ≤ i1 → i1 ≤ s.B.length →
      ∃ s1 a2 p2, Merge_dec_loop1 ((i1 : Int) - k) k s = some s1 ∧
        s1.my_first = ((a2 : Nat) : Int) - 1 ∧ s1.p_first = ((p2 : Nat) : Int) - 1 ∧
        s1.j = s.j ∧ (a2 ≤ a1 ∧ p2 ≤ p1 ∧ a2 + p2 + k = a1 + p1) ∧
        List.merge (rslice A alo a2) (rslice A plo p2) ge_dec =
          (List.merge (rslice A alo a1) (rslice A plo p1) ge_dec).drop k ∧
        WroteDown s s1 (i1 - k) i1 (List.merge (rslice A alo a1) (rslice A plo p1) ge_dec) := by
  intro k
  induction k with
  | zero =>
    intro s i1 a1 p1 hA hi ha hp _ _ _ _ _ _
    refine ⟨s, a1, p1, ?_, ha, hp, rfl, ⟨le_refl _, le_refl _, rfl⟩, rfl, WroteDown_nil s i1 _⟩
    simp [Merge_dec_loop1, hi]
  | succ k ih =>
    intro s i1 a1 p1 hA hi ha hp hak hpk hae hpe hki hiB
    obtain ⟨a, rfl⟩ : ∃ a, a1 = a + 1 := ⟨a1 - 1, by omega⟩
    obtain ⟨p, rfl⟩ : ∃ p, p1 = p + 1 := ⟨p1 - 1, by omega⟩
    obtain ⟨i, rfl⟩ : ∃ i, i1 = i + 1 := ⟨i1 - 1, by omega⟩
    have hi2 : s.i = (i : Int) := by rw [hi]; push_cast; ring
    have ha2 : s.my_first = (a : Int) := by rw [ha]; push_cast; ring
    have hp2 : s.p_first = (p : Int) := by rw [hp]; push_cast; ring
    have hax : a < A.length := by omega
    have hpx : p < A.length := by omega
    have hx : s.A[a]? = some A[a] := by rw [hA]; exact List.getElem?_eq_getElem hax
    have hy : s.A[p]? = some A[p] := by rw [hA]; exact List.getElem?_eq_getElem hpx
    have hsa : rslice A alo (a + 1) = A[a] :: rslice A alo a :=
      rslice_cons A alo a _ (by omega) (List.getElem?_eq_getElem hax)
    have hsp : rslice A plo (p + 1) = A[p] :: rslice A plo p :=
      rslice_cons A plo p _ (by omega) (List.getElem?_eq_getElem hpx)
    have hguard : s.i ≥ ((i + 1 : Nat) : Int) - (k + 1 : Nat) := by rw [hi2]; push_cast; omega
    have hml : ((i + 1 : Nat) : Int) - (k + 1 : Nat) = (i : Int) - k := by push_cast; ring
    have hik2 : i + 1 - (k + 1) = i - k := by omega
    obtain ⟨s1, hs1, t1, t2, t3, t4, t5, t6, t7⟩ := test_ge_some s a p _ _ ha2 hp2 hx hy
    rw [Merge_dec_loop1, if_pos hguard, hs1, hml, hik2]
    by_cases hxy : A[a] ≥ A[p]
    · have hm := merge_cons_ge A[a] A[p] (rslice A alo a) (rslice A plo p) hxy
      rw [← hsp] at hm
      obtain ⟨s2, hs2, u1, u2, u3, u4, u5, u6, u7⟩ :=
        assign_some s1 s1.i s1.my_first i a A[a] (by rw [t5, hi2]) (by rw [t3, ha2])
          (by rw [t1]; exact hx) (by rw [t2]; omega)
      simp only [hxy, decide_True]
      rw [hs2]
      simp only []
      obtain ⟨s3, a3, p3, h1, h2, h3, h4, h5, h6, h7⟩ :=
        ih { s2 with i := s2.i - 1, my_first := s2.my_first - 1 } i a (p + 1)
          (by simp [u1, t1, hA]) (by simp [u5, t5, hi2]) (by simp [u3, t3, ha2])
          (by simp [u4, t4, hp]) (by omega) (by omega) (by omega) hpe (by omega)
          (by simp [u2, t2]; omega)
      refine ⟨s3, a3, p3, h1, h2, h3, by rw [h4]; simp [u6, t6], by omega, ?_, ?_⟩
      · rw [h6, hsa, hm, List.drop_succ_cons]
      · rw [hsa, hm]
        exact WroteDown_cons s _ s3 (i - k) i A[a] _ (by simp [u1, t1])
          (by simp [u2, t2]) (by simp [u7, t7, t5, hi2]) (by omega) (by omega) h7
    · have hm := merge_cons_lt A[a] A[p] (rslice A alo a) (rslice A plo p) hxy
      rw [← hsa] at hm
      obtain ⟨s2, hs2, u1, u2, u3, u4, u5, u6, u7⟩ :=
        assign_some s1 s1.i s1.p_first i p A[p] (by rw [t5, hi2]) (by rw [t4, hp2])
          (by rw [t1]; exact hy) (by rw [t2]; omega)
      simp only [hxy, decide_False]
      rw [hs2]
      simp only []
      obtain ⟨s3, a3, p3, h1, h2, h3, h4, h5, h6, h7⟩ :=
        ih { s2 with i := s2.i - 1, p_first := s2.p_first - 1 } i (a + 1) p
          (by simp [u1, t1, hA]) (by simp [u5, t5, hi2]) (by simp [u3, t3, ha])
          (by simp [u4, t4, hp2]) (by omega) (by omega) hae (by omega) (by omega)
          (by simp [u2, t2]; omega)
      refine ⟨s3, a3, p3, h1, h2, h3, by rw [h4]; simp [u6, t6], by omega, ?_, ?_⟩
      · rw [h6, hsp, hm, List.drop_succ_cons]
      · rw [hsp, hm]
        exact WroteDown_cons s _ s3 (i - k) i A[p] _ (by simp [u1, t1])
          (by simp [u2, t2]) (by simp [u7, t7, t5, hi2]) (by omega) (by omega) h7

theorem Merge_dec_loop2_spec (A : List Int) (alo plo : Nat) :
    ∀ (k : Nat) (s : MergeState) (j1 a1 p1 : Nat), s.A = A → s.j = (j1 : Int) - 1 →
      s.my_first = (a1 : Int) - 1 → s.p_first = (p1 : Int) - 1 → alo ≤ a1 → plo ≤ p1 →
      a1 ≤ A.length → p1 ≤ A.length → (a1 - alo) + (p1 - plo) ≤ k →
      j1 = plo + (a1 - alo) + (p1 - plo) → j1 ≤ s.B.length →
      ∃ s1 j2 a2 p2, Merge_dec_loop2 (alo : Int) (plo : Int) k s = some s1 ∧
        s1.j = ((j2 : Nat) : Int) - 1 ∧ s1.my_first = ((a2 : Nat) : Int) - 1 ∧
        s1.p_first = ((p2 : Nat) : Int) - 1 ∧
        (alo ≤ a2 ∧ plo ≤ p2 ∧ (a2 = alo ∨ p2 = plo) ∧ j2 ≤ j1 ∧
          j2 = plo + (a2 - alo) + (p2 - plo)) ∧
        List.merge (rslice A alo a2) (rslice A plo p2) ge_dec =
          (List.merge (rslice A alo a1) (rslice A plo p1) ge_dec).drop (j1 - j2) ∧
        WroteDown s s1 j2 j1 (List.merge (rslice A alo a1) (rslice A plo p1) ge_dec) := by
  intro k
  induction k with
  | zero =>
    intro s j1 a1 p1 hA hj ha hp h1 h2 _ _ hk hjp _
    refine ⟨s, j1, a1, p1, ?_, hj, ha, hp, ⟨h1, h2, by omega, le_refl _, hjp⟩, by simp,
      WroteDown_nil s j1 _⟩
    rw [Merge_dec_loop2, if_neg]
    rw [hj, ha, hp]; omega
  | succ k ih =>
    intro s j1 a1 p1 hA hj ha hp hale hple hae hpe hk hjp hB
    by_cases hg : alo < a1 ∧ plo < p1
    · obtain ⟨hga, hgp⟩ := hg
      obtain ⟨a, rfl⟩ : ∃ a, a1 = a + 1 := ⟨a1 - 1, by omega⟩
      obtain ⟨p, rfl⟩ : ∃ p, p1 = p + 1 := ⟨p1 - 1, by omega⟩
      obtain ⟨j, rfl⟩ : ∃ j, j1 = j + 1 := ⟨j1 - 1, by omega⟩
      have hj2 : s.j = (j : Int) := by rw [hj]; push_cast; ring
      have ha2 : s.my_first = (a : Int) := by rw [ha]; push_cast; ring
      have hp2 : s.p_first = (p : Int) := by rw [hp]; push_cast; ring
      have hax : a < A.length := by omega
      have hpx : p < A.length := by omega
      have hx : s.A[a]? = some A[a] := by rw [hA]; exact List.getElem?_eq_getElem hax
      have hy : s.A[p]? = some A[p] := by rw [hA]; exact List.getElem?_eq_getElem hpx
      have hsa : rslice A alo (a + 1) = A[a] :: rslice A alo a :=
        rslice_cons A alo a _ (by omega) (List.getElem?_eq_getElem hax)
      have hsp : rslice A plo (p + 1) = A[p] :: rslice A plo p :=
        rslice_cons A plo p _ (by omega) (List.getElem?_eq_getElem hpx)
      have hguard : s.j ≥ (plo : Int) ∧ s.my_first ≥ (alo : Int) ∧ s.p_first ≥ (plo : Int) := by
        rw [hj2, ha2, hp2]; omega
      obtain ⟨s1, hs1, t1, t2, t3, t4, t5, t6, t7⟩ := test_ge_some s a p _ _ ha2 hp2 hx hy
      rw [Merge_dec_loop2, if_pos hguard, hs1]
      by_cases hxy : A[a] ≥ A[p]
      · have hm := merge_cons_ge A[a] A[p] (rslice A alo a) (rslice A plo p) hxy
        rw [← hsp] at hm
        obtain ⟨s2, hs2, u1, u2, u3, u4, u5, u6, u7⟩ :=
          assign_some s1 s1.j s1.my_first j a A[a] (by rw [t6, hj2]) (by rw [t3, ha2])
            (by rw [t1]; exact hx) (by rw [t2]; omega)
        simp only [hxy, decide_True]
        rw [hs2]
        simp only []
        obtain ⟨s3, j3, a3, p3, h1, h2, h3, h4, h5, h6, h7⟩ :=
          ih { s2 with j := s2.j - 1, my_first := s2.my_first - 1 } j a (p + 1)
            (by simp [u1, t1, hA]) (by simp [u6, t6, hj2]) (by simp [u3, t3, ha2])
            (by simp [u4, t4, hp]) (by omega) (by omega) (by omega) hpe (by omega)
            (by omega) (by simp [u2, t2]; omega)
        obtain ⟨d, hd⟩ : ∃ d, j + 1 - j3 = d + 1 := ⟨j - j3, by omega⟩
        have hd2 : j - j3 = d := by omega
        refine ⟨s3, j3, a3, p3, h1, h2, h3, h4, by omega, ?_, ?_⟩
        · rw [h6, hsa, hm, hd, hd2, List.drop_succ_cons]
        · rw [hsa, hm]
          exact WroteDown_cons s _ s3 j3 j A[a] _ (by simp [u1, t1])
            (by simp [u2, t2]) (by simp [u7, t7, t6, hj2]) (by omega) (by omega) h7
      · have hm := merge_cons_lt A[a] A[p] (rslice A alo a) (rslice A plo p) hxy
        rw [← hsa] at hm
        obtain ⟨s2, hs2, u1, u2, u3, u4, u5, u6, u7⟩ :=
          assign_some s1 s1.j s1.p_first j p A[p] (by rw [t6, hj2]) (by rw [t4, hp2])
            (by rw [t1]; exact hy) (by rw [t2]; omega)
        simp only [hxy, decide_False]
        rw [hs2]
        simp only []
        obtain ⟨s3, j3, a3, p3, h1, h2, h3, h4, h5, h6, h7⟩ :=
          ih { s2 with j := s2.j - 1, p_first := s2.p_first - 1 } j (a + 1) p
            (by simp [u1, t1, hA]) (by simp [u6, t6, hj2]) (by simp [u3, t3, ha])
            (by simp [u4, t4, hp2]) (by omega) (by omega) hae (by omega) (by omega)
            (by omega) (by simp [u2, t2]; omega)
        obtain ⟨d, hd⟩ : ∃ d, j + 1 - j3 = d + 1 := ⟨j - j3, by omega⟩
        have hd2 : j - j3 = d := by omega
        refine ⟨s3, j3, a3, p3, h1, h2, h3, h4, by omega, ?_, ?_⟩
        · rw [h6, hsp, hm, hd, hd2, List.drop_succ_cons]
        · rw [hsp, hm]
          exact WroteDown_cons s _ s3 j3 j A[p] _ (by simp [u1, t1])
            (by simp [u2, t2]) (by simp [u7, t7, t6, hj2]) (by omega) (by omega) h7
    · refine ⟨s, j1, a1, p1, ?_, hj, ha, hp, ⟨hale, hple, by omega, le_refl _, hjp⟩, by simp,
        WroteDown_nil s j1 _⟩
      rw [Merge_dec_loop2, if_neg]
      rw [hj, ha, hp]; omega

theorem Merge_dec_rest_p_spec (A : List Int) :
    ∀ (k : Nat) (s : MergeState) (j1 p1 : Nat), s.A = A → s.j = (j1 : Int) - 1 →
      s.p_first = (p1 : Int) - 1 → k ≤ p1 → p1 ≤ A.length → k ≤ j1 → j1 ≤ s.B.length →
      ∃ s1, Merge_dec_rest_p ((j1 : Int) - k) k s = some s1 ∧
        WroteDown s s1 (j1 - k) j1 (rslice A (p1 - k) p1) := by
  intro k
  induction k with
  | zero =>
    intro s j1 p1 hA hj hp _ _ _ _
    refine ⟨s, ?_, WroteDown_nil s j1 _⟩
    simp [Merge_dec_rest_p, hj]
  | succ k ih =>
    intro s j1 p1 hA hj hp hkp hpA hkj hjB
    obtain ⟨p, rfl⟩ : ∃ p, p1 = p + 1 := ⟨p1 - 1, by omega⟩
    obtain ⟨j, rfl⟩ : ∃ j, j1 = j + 1 := ⟨j1 - 1, by omega⟩
    have hj2 : s.j = (j : Int) := by rw [hj]; push_cast; ring
    have hp2 : s.p_first = (p : Int) := by rw [hp]; push_cast; ring
    have hpx : p < A.length := by omega
    have hy : s.A[p]? = some A[p] := by rw [hA]; exact List.getElem?_eq_getElem hpx
    have hsp : rslice A (p + 1 - (k + 1)) (p + 1) = A[p] :: rslice A (p - k) p := by
      rw [rslice_cons A _ p _ (by omega) (List.getElem?_eq_getElem hpx)]
      congr 2; omega
    have hguard : s.j ≥ ((j + 1 : Nat) : Int) - (k + 1 : Nat) := by rw [hj2]; push_cast; omega
    have hml : ((j + 1 : Nat) : Int) - (k + 1 : Nat) = (j : Int) - k := by push_cast; ring
    have hjk2 : j + 1 - (k + 1) = j - k := by omega
    obtain ⟨s2, hs2, u1, u2, u3, u4, u5, u6, u7⟩ :=
      assign_some s s.j s.p_first j p A[p] hj2 hp2 hy (by omega)
    rw [Merge_dec_rest_p, if_pos hguard, hs2, hml, hsp, hjk2]
    simp only []
    obtain ⟨s3, h1, h2⟩ :=
      ih { s2 with j := s2.j - 1, p_first := s2.p_first - 1 } j p
        (by simp [u1, hA]) (by simp [u6, hj2]) (by simp [u4, hp2]) (by omega) (by omega)
        (by omega) (by simp [u2]; omega)
    exact ⟨s3, h1, WroteDown_cons s _ s3 (j - k) j A[p] _ (by simp [u1])
      (by simp [u2]) (by simp [u7, hj2]) (by omega) (by omega) h2⟩

theorem Merge_dec_rest_my_spec (A : List Int) :
    ∀ (k : Nat) (s : MergeState) (j1 p1 : Nat), s.A = A → s.j = (j1 : Int) - 1 →
      s.my_first = (p1 : Int) - 1 → k ≤ p1 → p1 ≤ A.length → k ≤ j1 → j1 ≤ s.B.length →
      ∃ s1, Merge_dec_rest_my ((j1 : Int) - k) k s = some s1 ∧
        WroteDown s s1 (j1 - k) j1 (rslice A (p1 - k) p1) := by
  intro k
  induction k with
  | zero =>
    intro s j1 p1 hA hj hp _ _ _ _
    refine ⟨s, ?_, WroteDown_nil s j1 _⟩
    simp [Merge_dec_rest_my, hj]
  | succ k ih =>
    intro s j1 p1 hA hj hp hkp hpA hkj hjB
    obtain ⟨p, rfl⟩ : ∃ p, p1 = p + 1 := ⟨p1 - 1, by omega⟩
    obtain ⟨j, rfl⟩ : ∃ j, j1 = j + 1 := ⟨j1 - 1, by omega⟩
    have hj2 : s.j = (j : Int) := by rw [hj]; push_cast; ring
    have hp2 : s.my_first = (p : Int) := by rw [hp]; push_cast; ring
    have hpx : p < A.length := by omega
    have hy : s.A[p]? = some A[p] := by rw [hA]; exact List.getElem?_eq_getElem hpx
    have hsp : rslice A (p + 1 - (k + 1)) (p + 1) = A[p] :: rslice A (p - k) p := by
      rw [rslice_cons A _ p _ (by omega) (List.getElem?_eq_getElem hpx)]
      congr 2; omega
    have hguard : s.j ≥ ((j + 1 : Nat) : Int) - (k + 1 : Nat) := by rw [hj2]; push_cast; omega
    have hml : ((j + 1 : Nat) : Int) - (k + 1 : Nat) = (j : Int) - k := by push_cast; ring
    have hjk2 : j + 1 - (k + 1) = j - k := by omega
    obtain ⟨s2, hs2, u1, u2, u3, u4, u5, u6, u7⟩ :=
      assign_some s s.j s.my_first j p A[p] hj2 hp2 hy (by omega)
    rw [Merge_dec_rest_my, if_pos hguard, hs2, hml, hsp, hjk2]
    simp only []
    obtain ⟨s3, h1, h2⟩ :=
      ih { s2 with j := s2.j - 1, my_first := s2.my_first - 1 } j p
        (by simp [u1, hA]) (by simp [u6, hj2]) (by simp [u3, hp2]) (by omega) (by omega)
        (by omega) (by simp [u2]; omega)
    exact ⟨s3, h1, WroteDown_cons s _ s3 (j - k) j A[p] _ (by simp [u1])
      (by simp [u2]) (by simp [u7, hj2]) (by omega) (by omega) h2⟩

theorem Merge_dec_loops_spec (A B : List Int) (a0 p0 m : Nat)
    (hdis : a0 + m ≤ p0 ∨ p0 + m ≤ a0) (ha : a0 + m ≤ A.length) (hp : p0 + m ≤ A.length)
    (hB : B.length = A.length) :
    ∃ s, Merge_dec_loops (((a0 + m : Nat) : Int) - 1) (a0 : Int)
        (((p0 + m : Nat) : Int) - 1) (p0 : Int) A B = some s ∧
      MergedDown A B a0 p0 m
        (List.merge (rslice A a0 (a0 + m)) (rslice A p0 (p0 + m)) ge_dec) s := by
  generalize hM : List.merge (rslice A a0 (a0 + m)) (rslice A p0 (p0 + m)) ge_dec = M
  have e1 : (a0 : Int) = ((a0 + m : Nat) : Int) - (m : Nat) := by push_cast; ring
  have e2 : (((a0 + m : Nat) : Int) - 1 + 1 - (a0 : Int)).toNat = m := by omega
  have e3 : (((p0 + m : Nat) : Int) - 1 + 1 - (p0 : Int)).toNat = m := by omega
  have e4 : a0 + m - m = a0 := by omega
  obtain ⟨s1, a1, p1, g1, g2, g3, g4, g5, g6, g7⟩ :=
    Merge_dec_loop1_spec A a0 p0 m
      { A := A, B := B, my_first := ((a0 + m : Nat) : Int) - 1,
        p_first := ((p0 + m : Nat) : Int) - 1, i := ((a0 + m : Nat) : Int) - 1,
        j := ((p0 + m : Nat) : Int) - 1, reads := [], writes := [] }
      (a0 + m) (a0 + m) (p0 + m) rfl rfl rfl rfl (le_refl _) (le_refl _) ha hp (by omega)
      (by simp only []; omega)
  simp only [] at g4
  rw [hM, e4] at g7
  rw [hM] at g6
  have hlen1 : s1.B.length = B.length := g7.len_eq
  obtain ⟨s2, j2, a2, p2, k1, k2, k3, k4, k5, k6, k7⟩ :=
    Merge_dec_loop2_spec A a0 p0 m s1 (p0 + m) a1 p1 g7.A_eq g4 g2 g3 (by omega)
      (by omega) (by omega) (by omega) (by omega) (by omega) (by omega)
  rw [g6] at k6 k7
  have hj2 : p0 ≤ j2 := by omega
  have e5 : (((j2 : Nat) : Int) - 1 + 1 - (p0 : Int)).toNat = j2 - p0 := by omega
  have e6 : (p0 : Int) = (j2 : Int) - ((j2 - p0 : Nat) : Int) := by omega
  have e7 : j2 - (j2 - p0) = p0 := by omega
  have hlen2 : s2.B.length = B.length := by rw [k7.len_eq, hlen1]
  have hA2 : s2.A = A := by rw [k7.A_eq, g7.A_eq]
  rw [Merge_dec_loops]
  simp only []
  rw [e2]
  nth_rewrite 1 [e1]
  rw [g1]
  simp only []
  rw [g4, e3, k1]
  simp only []
  rw [k2, e5]
  by_cases hc : s2.my_first < (a0 : Int)
  · rw [if_pos hc]
    rw [e6]
    have ha2 : a2 = a0 := by rw [k3] at hc; omega
    obtain ⟨s3, n1, n2⟩ :=
      Merge_dec_rest_p_spec A (j2 - p0) s2 j2 p2 hA2 k2 k4 (by omega) (by omega) (by omega)
        (by omega)
    have hrest : rslice A (p2 - (j2 - p0)) p2 = (M.drop m).drop (p0 + m - j2) := by
      have : p2 - (j2 - p0) = p0 := by omega
      rw [this, ← k6, ha2, rslice_empty A a0 a0 (le_refl _)]
      simp [List.merge]
    rw [hrest, e7] at n2
    exact ⟨s3, n1, MergedDown_of_WroteDown A B a0 p0 m M _ s1 s3 rfl rfl rfl hdis g7
      (WroteDown_append s1 s2 s3 p0 j2 (p0 + m) _ k7 n2 hj2 (by omega))⟩
  · rw [if_neg hc]
    rw [e6]
    have ha2 : a0 < a2 := by rw [k3] at hc; omega
    have hp2 : p2 = p0 := by omega
    obtain ⟨s3, n1, n2⟩ :=
      Merge_dec_rest_my_spec A (j2 - p0) s2 j2 a2 hA2 k2 k3 (by omega) (by omega) (by omega)
        (by omega)
    have hrest : rslice A (a2 - (j2 - p0)) a2 = (M.drop m).drop (p0 + m - j2) := by
      have : a2 - (j2 - p0) = a0 := by omega
      rw [this, ← k6, hp2, rslice_empty A p0 p0 (le_refl _)]
      simp [List.merge]
    rw [hrest, e7] at n2
    exact ⟨s3, n1, MergedDown_of_WroteDown A B a0 p0 m M _ s1 s3 rfl rfl rfl hdis g7
      (WroteDown_append s1 s2 s3 p0 j2 (p0 + m) _ k7 n2 hj2 (by omega))⟩

theorem slice_getElem? (a : List Int) (lo hi t : Nat) :
    (slice a lo hi)[t]? = if t < hi - lo then a[lo + t]? else none := by
  unfold slice
  rw [List.getElem?_take, List.getElem?_drop]

theorem rslice_getElem? (a : List Int) (lo hi t : Nat) (h : hi ≤ a.length) :
    (rslice a lo hi)[t]? = if t < hi - lo then a[hi - 1 - t]? else none := by
  unfold rslice
  by_cases c : t < hi - lo
  · rw [if_pos c, List.getElem?_reverse (by rw [slice_length a lo hi h]; exact c),
      slice_length a lo hi h, slice_getElem?, if_pos (by omega)]
    congr 1; omega
  · rw [if_neg c, List.getElem?_eq_none]
    rw [List.length_reverse, slice_length a lo hi h]; omega

theorem MergedInto_blocks_eq {A B : List Int} {a0 p0 m : Nat} {L : List Int}
    {s : MergeState} (h : MergedInto A B a0 p0 m L s) (hdis : a0 + m ≤ p0 ∨ p0 + m ≤ a0)
    (ha : a0 + m ≤ B.length) (hp : p0 + m ≤ B.length) (hL : L.length = m + m) :
    slice s.B a0 (a0 + m) ++ slice s.B p0 (p0 + m) = L := by
  have hlen := h.len_eq
  apply List.ext_getElem?
  intro t
  rw [List.getElem?_append, slice_length _ _ _ (by omega), slice_getElem?, slice_getElem?]
  have e1 : a0 + m - a0 = m := by omega
  have e2 : p0 + m - p0 = m := by omega
  rw [e1, e2]
  by_cases c : t < m
  · rw [if_pos c, if_pos c, h.B_eq, if_pos (by omega)]
    congr 1; omega
  · rw [if_neg c]
    by_cases c2 : t - m < m
    · rw [if_pos c2, h.B_eq, if_neg (by omega), if_pos (by omega)]
      congr 1; omega
    · rw [if_neg c2, eq_comm, List.getElem?_eq_none]
      omega

theorem MergedDown_blocks_eq {A B : List Int} {a0 p0 m : Nat} {L : List Int}
    {s : MergeState} (h : MergedDown A B a0 p0 m L s) (hdis : a0 + m ≤ p0 ∨ p0 + m ≤ a0)
    (ha : a0 + m ≤ B.length) (hp : p0 + m ≤ B.length) (hL : L.length = m + m) :
    rslice s.B a0 (a0 + m) ++ rslice s.B p0 (p0 + m) = L := by
  have hlen := h.len_eq
  have hl1 : (rslice s.B a0 (a0 + m)).length = m := by
    unfold rslice; rw [List.length_reverse, slice_length _ _ _ (by omega)]; omega
  apply List.ext_getElem?
  intro t
  rw [List.getElem?_append, hl1, rslice_getElem? _ _ _ _ (by omega),
    rslice_getElem? _ _ _ _ (by omega)]
  have e1 : a0 + m - a0 = m := by omega
  have e2 : p0 + m - p0 = m := by omega
  rw [e1, e2]
  by_cases c : t < m
  · rw [if_pos c, if_pos c, h.B_eq, if_pos (by omega)]
    congr 1; omega
  · rw [if_neg c]
    by_cases c2 : t - m < m
    · rw [if_pos c2, h.B_eq, if_neg (by omega), if_pos (by omega)]
      congr 1; omega
    · rw [if_neg c2, eq_comm, List.getElem?_eq_none]
      omega

theorem last_index_wrap_all (tc m r : Nat) (htc : 1 ≤ tc)
    (h : (r + 1) * (tc * m) < 2147483648) :
    last_index wrap32 tc (tc * m) r = (((r + 1) * m : Nat) : Int) - 1 := by
  rcases Nat.eq_zero_or_pos m with hm | hm
  · subst hm
    unfold last_index
    have : Int.tdiv (wrap32 (wrap32 ((r : Int) + 1) * ((tc * 0 : Nat) : Int))) (tc : Int) = 0 := by
      have h0 : wrap32 ((r : Int) + 1) * ((tc * 0 : Nat) : Int) = 0 := by simp
      rw [h0]
      have h1 : wrap32 0 = 0 := by decide
      rw [h1]
      simp
    rw [this]
    simp only [Nat.mul_zero, Nat.cast_zero]
    decide
  · apply last_index_wrap tc m r htc _ h
    have h1 : 1 ≤ tc * m := Nat.mul_pos (by omega) hm
    have h2 : (r + 1) * 1 ≤ (r + 1) * (tc * m) := Nat.mul_le_mul_left _ h1
    omega

theorem merge_length_slices (A : List Int) (a0 p0 m : Nat) (le : Int → Int → Bool)
    (ha : a0 + m ≤ A.length) (hp : p0 + m ≤ A.length) :
    (List.merge (slice A a0 (a0 + m)) (slice A p0 (p0 + m)) le).length = m + m := by
  rw [List.length_merge, slice_length _ _ _ ha, slice_length _ _ _ hp]; omega

theorem merge_length_rslices (A : List Int) (a0 p0 m : Nat) (le : Int → Int → Bool)
    (ha : a0 + m ≤ A.length) (hp : p0 + m ≤ A.length) :
    (List.merge (rslice A a0 (a0 + m)) (rslice A p0 (p0 + m)) le).length = m + m := by
  unfold rslice
  rw [List.length_merge, List.length_reverse, List.length_reverse, slice_length _ _ _ ha,
    slice_length _ _ _ hp]; omega

/-- `Merge_inc` when no bound overflows: it returns, and `B`'s two blocks hold
the standard merge of `A`'s two blocks. -/
theorem Merge_inc_spec (tc m r q : Nat) (A B : List Int) (htc : 1 ≤ tc) (hr : r < tc)
    (hq : q < tc) (hrq : r ≠ q) (hA : A.length = tc * m) (hB : B.length = tc * m)
    (hovr : (r + 1) * (tc * m) < 2147483648) (hovq : (q + 1) * (tc * m) < 2147483648) :
    ∃ s, Merge_inc tc (tc * m) A B r q = some s ∧
      MergedInto A B (r * m) (q * m) m
        (List.merge (slice A (r * m) (r * m + m)) (slice A (q * m) (q * m + m)) le_dec) s := by
  have hm3 : (r + 1) * m = r * m + m := by ring
  have hm4 : (q + 1) * m = q * m + m := by ring
  have hm1 : (r + 1) * m ≤ tc * m := Nat.mul_le_mul_right m (by omega)
  have hm2 : (q + 1) * m ≤ tc * m := Nat.mul_le_mul_right m (by omega)
  have hm5 : tc * m ≤ (r + 1) * (tc * m) := Nat.le_mul_of_pos_left _ (by omega)
  have hdis : r * m + m ≤ q * m ∨ q * m + m ≤ r * m := by
    rcases Nat.lt_or_gt_of_ne hrq with h | h
    · left; rw [← hm3]; exact Nat.mul_le_mul_right m (by omega)
    · right; rw [← hm4]; exact Nat.mul_le_mul_right m (by omega)
  have hrm : r * m < 2147483648 := by omega
  have hqm : q * m < 2147483648 := by omega
  have hAr : r * m + m ≤ A.length := by omega
  have hAq : q * m + m ≤ A.length := by omega
  have hBA : B.length = A.length := by omega
  rw [Merge_inc, first_index_wrap tc m r htc hrm, first_index_wrap tc m q htc hqm,
    last_index_wrap_all tc m r htc hovr, last_index_wrap_all tc m q htc hovq, hm3, hm4]
  exact Merge_inc_loops_spec A B (r * m) (q * m) m hdis hAr hAq hBA

/-- `Merge_dec` when no bound overflows: it returns, and `B`'s two blocks, each
read from its last index down, hold the merge by `>=` of `A`'s two blocks
read the same way. -/
theorem Merge_dec_spec (tc m r q : Nat) (A B : List Int) (htc : 1 ≤ tc) (hr : r < tc)
    (hq : q < tc) (hrq : r ≠ q) (hA : A.length = tc * m) (hB : B.length = tc * m)
    (hovr : (r + 1) * (tc * m) < 2147483648) (hovq : (q + 1) * (tc * m) < 2147483648) :
    ∃ s, Merge_dec tc (tc * m) A B r q = some s ∧
      MergedDown A B (r * m) (q * m) m
        (List.merge (rslice A (r * m) (r * m + m)) (rslice A (q * m) (q * m + m)) ge_dec) s := by
  have hm3 : (r + 1) * m = r * m + m := by ring
  have hm4 : (q + 1) * m = q * m + m := by ring
  have hm1 : (r + 1) * m ≤ tc * m := Nat.mul_le_mul_right m (by omega)
  have hm2 : (q + 1) * m ≤ tc * m := Nat.mul_le_mul_right m (by omega)
  have hm5 : tc * m ≤ (r + 1) * (tc * m) := Nat.le_mul_of_pos_left _ (by omega)
  have hdis : r * m + m ≤ q * m ∨ q * m + m ≤ r * m := by
    rcases Nat.lt_or_gt_of_ne hrq with h | h
    · left; rw [← hm3]; exact Nat.mul_le_mul_right m (by omega)
    · right; rw [← hm4]; exact Nat.mul_le_mul_right m (by omega)
  have hrm : r * m < 2147483648 := by omega
  have hqm : q * m < 2147483648 := by omega
  have hAr : r * m + m ≤ A.length := by omega
  have hAq : q * m + m ≤ A.length := by omega
  have hBA : B.length = A.length := by omega
  rw [Merge_dec, first_index_wrap tc m r htc hrm, first_index_wrap tc m q htc hqm,
    last_index_wrap_all tc m r htc hovr, last_index_wrap_all tc m q htc hovq, hm3, hm4]
  exact Merge_dec_loops_spec A B (r * m) (q * m) m hdis hAr hAq hBA

theorem Touched.refl (P : Int → Prop) (s : MergeState) : Touched P s s where
  A_eq := rfl
  len_eq := rfl
  B_out := fun _ _ => rfl
  writes_in := fun _ h => Or.inl h

theorem Touched.mono {P Q : Int → Prop} {s s1 : MergeState} (h : Touched P s s1)
    (hPQ : ∀ w, P w → Q w) : Touched Q s s1 where
  A_eq := h.A_eq
  len_eq := h.len_eq
  B_out := fun idx hq => h.B_out idx (fun hp => hq (hPQ _ hp))
  writes_in := fun w hw => (h.writes_in w hw).imp id (hPQ w)

theorem Touched.trans {P : Int → Prop} {s s1 s2 : MergeState} (h1 : Touched P s s1)
    (h2 : Touched P s1 s2) : Touched P s s2 where
  A_eq := by rw [h2.A_eq, h1.A_eq]
  len_eq := by rw [h2.len_eq, h1.len_eq]
  B_out := fun idx hp => by rw [h2.B_out idx hp, h1.B_out idx hp]
  writes_in := fun w hw => by
    rcases h2.writes_in w hw with h | h
    · exact h1.writes_in w h
    · exact Or.inr h

theorem assign_inv (s s2 : MergeState) (k src : Int) (h : assign s k src = some s2) :
    0 ≤ k ∧ s2.A = s.A ∧ (∃ v, s2.B = s.B.set k.toNat v) ∧ s2.writes = k :: s.writes ∧
      s2.i = s.i ∧ s2.j = s.j ∧ s2.my_first = s.my_first ∧ s2.p_first = s.p_first := by
  unfold assign at h
  cases hg : arr_get s.A src with
  | none => rw [hg] at h; cases h
  | some v =>
    rw [hg] at h
    simp only [] at h
    unfold arr_set at h
    by_cases hc : 0 ≤ k ∧ k.toNat < s.B.length
    · rw [if_pos hc] at h
      simp only [Option.some.injEq] at h
      subst h
      exact ⟨hc.1, rfl, ⟨v, rfl⟩, rfl, rfl, rfl, rfl, rfl⟩
    · rw [if_neg hc] at h
      cases h

theorem test_le_inv (s s1 : MergeState) (b : Bool) (h : test_le s = some (b, s1)) :
    s1.A = s.A ∧ s1.B = s.B ∧ s1.writes = s.writes ∧ s1.i = s.i ∧ s1.j = s.j ∧
      s1.my_first = s.my_first ∧ s1.p_first = s.p_first := by
  unfold test_le at h
  split at h
  · simp only [Option.some.injEq, Prod.mk.injEq] at h
    obtain ⟨_, h2⟩ := h
    subst h2
    exact ⟨rfl, rfl, rfl, rfl, rfl, rfl, rfl⟩
  · cases h

theorem test_ge_inv (s s1 : MergeState) (b : Bool) (h : test_ge s = some (b, s1)) :
    s1.A = s.A ∧ s1.B = s.B ∧ s1.writes = s.writes ∧ s1.i = s.i ∧ s1.j = s.j ∧
      s1.my_first = s.my_first ∧ s1.p_first = s.p_first := by
  unfold test_ge at h
  split at h
  · simp only [Option.some.injEq, Prod.mk.injEq] at h
    obtain ⟨_, h2⟩ := h
    subst h2
    exact ⟨rfl, rfl, rfl, rfl, rfl, rfl, rfl⟩
  · cases h

/-- One assignment `B[k] = ...` with `P k`, followed by steps that touch only
`P`, touches only `P`. -/
theorem Touched.step {P : Int → Prop} {s s2 s3 : MergeState} (k : Int) (hk : 0 ≤ k)
    (hP : P k) (hA : s2.A = s.A) (hB : ∃ v, s2.B = s.B.set k.toNat v)
    (hw : s2.writes = k :: s.writes) (h : Touched P s2 s3) : Touched P s s3 where
  A_eq := by rw [h.A_eq, hA]
  len_eq := by
    obtain ⟨v, hv⟩ := hB
    rw [h.len_eq, hv, List.length_set]
  B_out := fun idx hp => by
    obtain ⟨v, hv⟩ := hB
    rw [h.B_out idx hp, hv, List.getElem?_set_ne]
    intro hc
    apply hp
    have : (idx : Int) = k := by omega
    rw [this]; exact hP
  writes_in := fun w hw2 => by
    rcases h.writes_in w hw2 with h1 | h1
    · rw [hw] at h1
      rcases List.mem_cons.mp h1 with h2 | h2
      · right; rw [h2]; exact hP
      · left; exact h2
    · exact Or.inr h1

theorem Merge_inc_loop1_touched (ml : Int) :
    ∀ (fuel : Nat) (s s3 : MergeState), Merge_inc_loop1 ml fuel s = some s3 →
      Touched (fun w => s.i ≤ w ∧ w ≤ ml) s s3 ∧ s3.j = s.j := by
  intro fuel
  induction fuel with
  | zero =>
    intro s s3 h
    rw [Merge_inc_loop1] at h
    split at h
    · cases h
    · simp only [Option.some.injEq] at h
      subst h
      exact ⟨Touched.refl _ _, rfl⟩
  | succ fuel ih =>
    intro s s3 h
    rw [Merge_inc_loop1] at h
    split at h
    · rename_i hg
      split at h
      · cases h
      · rename_i s1 ht
        obtain ⟨t1, t2, t3, t4, t5, t6, t7⟩ := test_le_inv _ _ _ ht
        split at h
        · cases h
        · rename_i s2 ha
          obtain ⟨u0, u1, u2, u3, u4, u5, u6, u7⟩ := assign_inv _ _ _ _ ha
          obtain ⟨r1, r2⟩ := ih _ _ h
          refine ⟨Touched.step s.i (by rw [← t4]; exact u0) ⟨le_refl _, hg⟩
            (by simp [u1, t1]) (by simpa [t2, t4] using u2) (by simp [u3, t3, t4])
            (r1.mono ?_), by rw [r2]; simp [u5, t5]⟩
          intro w hw
          simp only [u4, t4] at hw
          exact ⟨by omega, hw.2⟩
      · rename_i s1 ht
        obtain ⟨t1, t2, t3, t4, t5, t6, t7⟩ := test_le_inv _ _ _ ht
        split at h
        · cases h
        · rename_i s2 ha
          obtain ⟨u0, u1, u2, u3, u4, u5, u6, u7⟩ := assign_inv _ _ _ _ ha
          obtain ⟨r1, r2⟩ := ih _ _ h
          refine ⟨Touched.step s.i (by rw [← t4]; exact u0) ⟨le_refl _, hg⟩
            (by simp [u1, t1]) (by simpa [t2, t4] using u2) (by simp [u3, t3, t4])
            (r1.mono ?_), by rw [r2]; simp [u5, t5]⟩
          intro w hw
          simp only [u4, t4] at hw
          exact ⟨by omega, hw.2⟩
    · simp only [Option.some.injEq] at h
      subst h
      exact ⟨Touched.refl _ _, rfl⟩

theorem Merge_inc_loop2_touched (ml pl : Int) :
    ∀ (fuel : Nat) (s s3 : MergeState), Merge_inc_loop2 ml pl fuel s = some s3 →
      Touched (fun w => s.j ≤ w ∧ w ≤ pl) s s3 ∧ s.j ≤ s3.j := by
  intro fuel
  induction fuel with
  | zero =>
    intro s s3 h
    rw [Merge_inc_loop2] at h
    split at h
    · cases h
    · simp only [Option.some.injEq] at h
      subst h
      exact ⟨Touched.refl _ _, le_refl _⟩
  | succ fuel ih =>
    intro s s3 h
    rw [Merge_inc_loop2] at h
    split at h
    · rename_i hg
      split at h
      · cases h
      · rename_i s1 ht
        obtain ⟨t1, t2, t3, t4, t5, t6, t7⟩ := test_le_inv _ _ _ ht
        split at h
        · cases h
        · rename_i s2 ha
          obtain ⟨u0, u1, u2, u3, u4, u5, u6, u7⟩ := assign_inv _ _ _ _ ha
          obtain ⟨r1, r2⟩ := ih _ _ h
          simp only [u5, t5] at r2
          refine ⟨Touched.step s.j (by rw [← t5]; exact u0) ⟨le_refl _, hg.1⟩
            (by simp [u1, t1]) (by simpa [t2, t5] using u2) (by simp [u3, t3, t5])
            (r1.mono ?_), by omega⟩
          intro w hw
          simp only [u5, t5] at hw
          exact ⟨by omega, hw.2⟩
      · rename_i s1 ht
        obtain ⟨t1, t2, t3, t4, t5, t6, t7⟩ := test_le_inv _ _ _ ht
        split at h
        · cases h
        · rename_i s2 ha
          obtain ⟨u0, u1, u2, u3, u4, u5, u6, u7⟩ := assign_inv _ _ _ _ ha
          obtain ⟨r1, r2⟩ := ih _ _ h
          simp only [u5, t5] at r2
          refine ⟨Touched.step s.j (by rw [← t5]; exact u0) ⟨le_refl _, hg.1⟩
            (by simp [u1, t1]) (by simpa [t2, t5] using u2) (by simp [u3, t3, t5])
            (r1.mono ?_), by omega⟩
          intro w hw
          simp only [u5, t5] at hw
          exact ⟨by omega, hw.2⟩
    · simp only [Option.some.injEq] at h
      subst h
      exact ⟨Touched.refl _ _, le_refl _⟩

theorem Merge_inc_rest_p_touched (pl : Int) :
    ∀ (fuel : Nat) (s s3 : MergeState), Merge_inc_rest_p pl fuel s = some s3 →
      Touched (fun w => s.j ≤ w ∧ w ≤ pl) s s3 := by
  intro fuel
  induction fuel with
  | zero =>
    intro s s3 h
    rw [Merge_inc_rest_p] at h
    split at h
    · cases h
    · simp only [Option.some.injEq] at h
      subst h
      exact Touched.refl _ _
  | succ fuel ih =>
    intro s s3 h
    rw [Merge_inc_rest_p] at h
    split at h
    · rename_i hg
      split at h
      · cases h
      · rename_i s2 ha
        obtain ⟨u0, u1, u2, u3, u4, u5, u6, u7⟩ := assign_inv _ _ _ _ ha
        have r1 := ih _ _ h
        refine Touched.step s.j u0 ⟨le_refl _, hg⟩ (by simp [u1]) (by simpa using u2)
          (by simp [u3]) (r1.mono ?_)
        intro w hw
        simp only [u5] at hw
        exact ⟨by omega, hw.2⟩
    · simp only [Option.some.injEq] at h
      subst h
      exact Touched.refl _ _

theorem Merge_inc_rest_my_touched (pl : Int) :
    ∀ (fuel : Nat) (s s3 : MergeState), Merge_inc_rest_my pl fuel s = some s3 →
      Touched (fun w => s.j ≤ w ∧ w ≤ pl) s s3 := by
  intro fuel
  induction fuel with
  | zero =>
    intro s s3 h
    rw [Merge_inc_rest_my] at h
    split at h
    · cases h
    · simp only [Option.some.injEq] at h
      subst h
      exact Touched.refl _ _
  | succ fuel ih =>
    intro s s3 h
    rw [Merge_inc_rest_my] at h
    split at h
    · rename_i hg
      split at h
      · cases h
      · rename_i s2 ha
        obtain ⟨u0, u1, u2, u3, u4, u5, u6, u7⟩ := assign_inv _ _ _ _ ha
        have r1 := ih _ _ h
        refine Touched.step s.j u0 ⟨le_refl _, hg⟩ (by simp [u1]) (by simpa using u2)
          (by simp [u3]) (r1.mono ?_)
        intro w hw
        simp only [u5] at hw
        exact ⟨by omega, hw.2⟩
    · simp only [Option.some.injEq] at h
      subst h
      exact Touched.refl _ _

theorem Merge_dec_loop1_touched (ml : Int) :
    ∀ (fuel : Nat) (s s3 : MergeState), Merge_dec_loop1 ml fuel s = some s3 →
      Touched (fun w => ml ≤ w ∧ w ≤ s.i) s s3 ∧ s3.j = s.j := by
  intro fuel
  induction fuel with
  | zero =>
    intro s s3 h
    rw [Merge_dec_loop1] at h
    split at h
    · cases h
    · simp only [Option.some.injEq] at h
      subst h
      exact ⟨Touched.refl _ _, rfl⟩
  | succ fuel ih =>
    intro s s3 h
    rw [Merge_dec_loop1] at h
    split at h
    · rename_i hg
      split at h
      · cases h
      · rename_i s1 ht
        obtain ⟨t1, t2, t3, t4, t5, t6, t7⟩ := test_ge_inv _ _ _ ht
        split at h
        · cases h
        · rename_i s2 ha
          obtain ⟨u0, u1, u2, u3, u4, u5, u6, u7⟩ := assign_inv _ _ _ _ ha
          obtain ⟨r1, r2⟩ := ih _ _ h
          refine ⟨Touched.step s.i (by rw [← t4]; exact u0) ⟨hg, le_refl _⟩
            (by simp [u1, t1]) (by simpa [t2, t4] using u2) (by simp [u3, t3, t4])
            (r1.mono ?_), by rw [r2]; simp [u5, t5]⟩
          intro w hw
          simp only [u4, t4] at hw
          exact ⟨hw.1, by omega⟩
      · rename_i s1 ht
        obtain ⟨t1, t2, t3, t4, t5, t6, t7⟩ := test_ge_inv _ _ _ ht
        split at h
        · cases h
        · rename_i s2 ha
          obtain ⟨u0, u1, u2, u3, u4, u5, u6, u7⟩ := assign_inv _ _ _ _ ha
          obtain ⟨r1, r2⟩ := ih _ _ h
          refine ⟨Touched.step s.i (by rw [← t4]; exact u0) ⟨hg, le_refl _⟩
            (by simp [u1, t1]) (by simpa [t2, t4] using u2) (by simp [u3, t3, t4])
            (r1.mono ?_), by rw [r2]; simp [u5, t5]⟩
          intro w hw
          simp only [u4, t4] at hw
          exact ⟨hw.1, by omega⟩
    · simp only [Option.some.injEq] at h
      subst h
      exact ⟨Touched.refl _ _, rfl⟩

theorem Merge_dec_loop2_touched (ml pl : Int) :
    ∀ (fuel : Nat) (s s3 : MergeState), Merge_dec_loop2 ml pl fuel s = some s3 →
      Touched (fun w => pl ≤ w ∧ w ≤ s.j) s s3 ∧ s3.j ≤ s.j := by
  intro fuel
  induction fuel with
  | zero =>
    intro s s3 h
    rw [Merge_dec_loop2] at h
    split at h
    · cases h
    · simp only [Option.some.injEq] at h
      subst h
      exact ⟨Touched.refl _ _, le_refl _⟩
  | succ fuel ih =>
    intro s s3 h
    rw [Merge_dec_loop2] at h
    split at h
    · rename_i hg
      split at h
      · cases h
      · rename_i s1 ht
        obtain ⟨t1, t2, t3, t4, t5, t6, t7⟩ := test_ge_inv _ _ _ ht
        split at h
        · cases h
        · rename_i s2 ha
          obtain ⟨u0, u1, u2, u3, u4, u5, u6, u7⟩ := assign_inv _ _ _ _ ha
          obtain ⟨r1, r2⟩ := ih _ _ h
          simp only [u5, t5] at r2
          refine ⟨Touched.step s.j (by rw [← t5]; exact u0) ⟨hg.1, le_refl _⟩
            (by simp [u1, t1]) (by simpa [t2, t5] using u2) (by simp [u3, t3, t5])
            (r1.mono ?_), by omega⟩
          intro w hw
          simp only [u5, t5] at hw
          exact ⟨hw.1, by omega⟩
      · rename_i s1 ht
        obtain ⟨t1, t2, t3, t4, t5, t6, t7⟩ := test_ge_inv _ _ _ ht
        split at h
        · cases h
        · rename_i s2 ha
          obtain ⟨u0, u1, u2, u3, u4, u5, u6, u7⟩ := assign_inv _ _ _ _ ha
          obtain ⟨r1, r2⟩ := ih _ _ h
          simp only [u5, t5] at r2
          refine ⟨Touched.step s.j (by rw [← t5]; exact u0) ⟨hg.1, le_refl _⟩
            (by simp [u1, t1]) (by simpa [t2, t5] using u2) (by simp [u3, t3, t5])
            (r1.mono ?_), by omega⟩
          intro w hw
          simp only [u5, t5] at hw
          exact ⟨hw.1, by omega⟩
    · simp only [Option.some.injEq] at h
      subst h
      exact ⟨Touched.refl _ _, le_refl _⟩

theorem Merge_dec_rest_p_touched (pl : Int) :
    ∀ (fuel : Nat) (s s3 : MergeState), Merge_dec_rest_p pl fuel s = some s3 →
      Touched (fun w => pl ≤ w ∧ w ≤ s.j) s s3 := by
  intro fuel
  induction fuel with
  | zero =>
    intro s s3 h
    rw [Merge_dec_rest_p] at h
    split at h
    · cases h
    · simp only [Option.some.injEq] at h
      subst h
      exact Touched.refl _ _
  | succ fuel ih =>
    intro s s3 h
    rw [Merge_dec_rest_p] at h
    split at h
    · rename_i hg
      split at h
      · cases h
      · rename_i s2 ha
        obtain ⟨u0, u1, u2, u3, u4, u5, u6, u7⟩ := assign_inv _ _ _ _ ha
        have r1 := ih _ _ h
        refine Touched.step s.j u0 ⟨hg, le_refl _⟩ (by simp [u1]) (by simpa using u2)
          (by simp [u3]) (r1.mono ?_)
        intro w hw
        simp only [u5] at hw
        exact ⟨hw.1, by omega⟩
    · simp only [Option.some.injEq] at h
      subst h
      exact Touched.refl _ _

theorem Merge_dec_rest_my_touched (pl : Int) :
    ∀ (fuel : Nat) (s s3 : MergeState), Merge_dec_rest_my pl fuel s = some s3 →
      Touched (fun w => pl ≤ w ∧ w ≤ s.j) s s3 := by
  intro fuel
  induction fuel with
  | zero =>
    intro s s3 h
    rw [Merge_dec_rest_my] at h
    split at h
    · cases h
    · simp only [Option.some.injEq] at h
      subst h
      exact Touched.refl _ _
  | succ fuel ih =>
    intro s s3 h
    rw [Merge_dec_rest_my] at h
    split at h
    · rename_i hg
      split at h
      · cases h
      · rename_i s2 ha
        obtain ⟨u0, u1, u2, u3, u4, u5, u6, u7⟩ := assign_inv _ _ _ _ ha
        have r1 := ih _ _ h
        refine Touched.step s.j u0 ⟨hg, le_refl _⟩ (by simp [u1]) (by simpa using u2)
          (by simp [u3]) (r1.mono ?_)
        intro w hw
        simp only [u5] at hw
        exact ⟨hw.1, by omega⟩
    · simp only [Option.some.injEq] at h
      subst h
      exact Touched.refl _ _

theorem Merge_inc_loops_touched (mf ml pf pl : Int) (A B : List Int) (s : MergeState)
    (h : Merge_inc_loops mf ml pf pl A B = some s) :
    s.A = A ∧ s.B.length = B.length ∧
      (∀ idx : Nat, ¬ ((mf ≤ (idx : Int) ∧ (idx : Int) ≤ ml) ∨
        (pf ≤ (idx : Int) ∧ (idx : Int) ≤ pl)) → s.B[idx]? = B[idx]?) ∧
      (∀ w : Int, w ∈ s.writes → ((mf ≤ w ∧ w ≤ ml) ∨ (pf ≤ w ∧ w ≤ pl))) := by
  rw [Merge_inc_loops] at h
  simp only [] at h
  split at h
  · cases h
  · rename_i s1 h1
    obtain ⟨f1, j1⟩ := Merge_inc_loop1_touched _ _ _ _ h1
    simp only [] at j1
    split at h
    · cases h
    · rename_i s2 h2
      obtain ⟨f2, j2⟩ := Merge_inc_loop2_touched _ _ _ _ _ h2
      have f3 : Touched (fun w => s2.j ≤ w ∧ w ≤ pl) s2 s := by
        split at h
        · exact Merge_inc_rest_p_touched _ _ _ _ h
        · exact Merge_inc_rest_my_touched _ _ _ _ h
      have g1 : Touched (fun w => (mf ≤ w ∧ w ≤ ml) ∨ (pf ≤ w ∧ w ≤ pl)) _ s1 :=
        f1.mono (fun w hw => Or.inl hw)
      have g2 : Touched (fun w => (mf ≤ w ∧ w ≤ ml) ∨ (pf ≤ w ∧ w ≤ pl)) s1 s2 :=
        f2.mono (fun w hw => Or.inr ⟨by omega, hw.2⟩)
      have g3 : Touched (fun w => (mf ≤ w ∧ w ≤ ml) ∨ (pf ≤ w ∧ w ≤ pl)) s2 s :=
        f3.mono (fun w hw => Or.inr ⟨by omega, hw.2⟩)
      have g := (g1.trans g2).trans g3
      refine ⟨g.A_eq, g.len_eq, g.B_out, fun w hw => ?_⟩
      rcases g.writes_in w hw with h0 | h0
      · cases h0
      · exact h0

theorem Merge_dec_loops_touched (mf ml pf pl : Int) (A B : List Int) (s : MergeState)
    (h : Merge_dec_loops mf ml pf pl A B = some s) :
    s.A = A ∧ s.B.length = B.length ∧
      (∀ idx : Nat, ¬ ((ml ≤ (idx : Int) ∧ (idx : Int) ≤ mf) ∨
        (pl ≤ (idx : Int) ∧ (idx : Int) ≤ pf)) → s.B[idx]? = B[idx]?) ∧
      (∀ w : Int, w ∈ s.writes → ((ml ≤ w ∧ w ≤ mf) ∨ (pl ≤ w ∧ w ≤ pf))) := by
  rw [Merge_dec_loops] at h
  simp only [] at h
  split at h
  · cases h
  · rename_i s1 h1
    obtain ⟨f1, j1⟩ := Merge_dec_loop1_touched _ _ _ _ h1
    simp only [] at j1
    split at h
    · cases h
    · rename_i s2 h2
      obtain ⟨f2, j2⟩ := Merge_dec_loop2_touched _ _ _ _ _ h2
      have f3 : Touched (fun w => pl ≤ w ∧ w ≤ s2.j) s2 s := by
        split at h
        · exact Merge_dec_rest_p_touched _ _ _ _ h
        · exact Merge_dec_rest_my_touched _ _ _ _ h
      have g1 : Touched (fun w => (ml ≤ w ∧ w ≤ mf) ∨ (pl ≤ w ∧ w ≤ pf)) _ s1 :=
        f1.mono (fun w hw => Or.inl hw)
      have g2 : Touched (fun w => (ml ≤ w ∧ w ≤ mf) ∨ (pl ≤ w ∧ w ≤ pf)) s1 s2 :=
        f2.mono (fun w hw => Or.inr ⟨hw.1, by omega⟩)
      have g3 : Touched (fun w => (ml ≤ w ∧ w ≤ mf) ∨ (pl ≤ w ∧ w ≤ pf)) s2 s :=
        f3.mono (fun w hw => Or.inr ⟨hw.1, by omega⟩)
      have g := (g1.trans g2).trans g3
      refine ⟨g.A_eq, g.len_eq, g.B_out, fun w hw => ?_⟩
      rcases g.writes_in w hw with h0 | h0
      · cases h0
      · exact h0

theorem wrap32_bounds (v : Int) : -2147483648 ≤ wrap32 v ∧ wrap32 v < 2147483648 := by
  unfold wrap32; omega

theorem wrap32_le (v : Int) (hv : -2147483648 ≤ v) : wrap32 v ≤ v := by
  unfold wrap32; omega

theorem tdiv_wrap_le (w v top : Int) (tc : Nat) (htc : 1 ≤ tc) (hv0 : 0 ≤ v)
    (hvd : Int.tdiv v (tc : Int) = top) (hw : -2147483648 ≤ w ∧ w < 2147483648)
    (hwl : w ≤ v) (hone : tc = 1 → 0 ≤ w) :
    -2147483648 ≤ Int.tdiv w (tc : Int) - 1 ∧ Int.tdiv w (tc : Int) - 1 < 2147483648 ∧
      Int.tdiv w (tc : Int) - 1 ≤ top - 1 := by
  have htcp : (0 : Int) < (tc : Int) := by exact_mod_cast htc
  by_cases hwn : 0 ≤ w
  · have e : Int.tdiv w (tc : Int) = w / (tc : Int) :=
      Int.tdiv_eq_ediv hwn (Int.ofNat_nonneg _)
    have e2 : Int.tdiv v (tc : Int) = v / (tc : Int) :=
      Int.tdiv_eq_ediv hv0 (Int.ofNat_nonneg _)
    have h5 : w / (tc : Int) ≤ v / (tc : Int) := Int.ediv_le_ediv htcp hwl
    have h6 : 0 ≤ w / (tc : Int) := Int.ediv_nonneg hwn (le_of_lt htcp)
    have h7 : w / (tc : Int) ≤ w := Int.ediv_le_self _ hwn
    rw [e]
    rw [e2] at hvd
    generalize w / (tc : Int) = a at h5 h6 h7 ⊢
    generalize v / (tc : Int) = b at h5 hvd ⊢
    omega
  · have hwneg : 0 ≤ -w := by omega
    have e : Int.tdiv w (tc : Int) = -((-w) / (tc : Int)) := by
      have := Int.neg_tdiv (-w) (tc : Int)
      rw [neg_neg] at this
      rw [this, Int.tdiv_eq_ediv hwneg (Int.ofNat_nonneg _)]
    have e2 : Int.tdiv v (tc : Int) = v / (tc : Int) :=
      Int.tdiv_eq_ediv hv0 (Int.ofNat_nonneg _)
    have h9 : 0 ≤ v / (tc : Int) := Int.ediv_nonneg hv0 (le_of_lt htcp)
    have h6 : 0 ≤ (-w) / (tc : Int) := Int.ediv_nonneg hwneg (le_of_lt htcp)
    have h7 : (-w) / (tc : Int) * (tc : Int) ≤ -w := Int.ediv_mul_le _ (by omega)
    have htc2 : (2 : Int) ≤ (tc : Int) := by
      by_contra hc
      have h10 : tc = 1 := by omega
      exact hwn (hone h10)
    rw [e]
    rw [e2] at hvd
    generalize (-w) / (tc : Int) = a at h6 h7 ⊢
    generalize v / (tc : Int) = b at h9 hvd ⊢
    have h8 : a ≤ 1073741824 := by nlinarith
    omega

/-- The last index computed in `int` arithmetic never lies beyond the last
index of the block, whether or not `(rank + 1) * n` wraps. -/
theorem last_index_wrap_le (tc m r : Nat) (htc : 1 ≤ tc) (hr : r < tc)
    (hn : tc * m < 2147483648) :
    last_index wrap32 tc (tc * m) r ≤ (((r + 1) * m : Nat) : Int) - 1 := by
  rcases Nat.eq_zero_or_pos m with hm | hm
  · subst hm
    rw [last_index_wrap_all tc 0 r htc (by simp)]
  · have htm : tc ≤ tc * m := Nat.le_mul_of_pos_right _ hm
    unfold last_index
    have h1 : wrap32 ((r : Int) + 1) = ((r + 1 : Nat) : Int) := by
      rw [wrap32_eq] <;> push_cast <;> omega
    rw [h1]
    have h3 : (r + 1) * (tc * m) = tc * ((r + 1) * m) := by ring
    have hvd : Int.tdiv (((r + 1 : Nat) : Int) * ((tc * m : Nat) : Int)) (tc : Int) =
        (((r + 1) * m : Nat) : Int) := by
      rw [← Nat.cast_mul, Int.tdiv_eq_ediv (Int.ofNat_nonneg _) (Int.ofNat_nonneg _), h3,
        Nat.cast_mul tc, Int.mul_ediv_cancel_left _ (by omega)]
    have hv0 : (0 : Int) ≤ ((r + 1 : Nat) : Int) * ((tc * m : Nat) : Int) :=
      Int.mul_nonneg (Int.ofNat_nonneg _) (Int.ofNat_nonneg _)
    have hb := wrap32_bounds (((r + 1 : Nat) : Int) * ((tc * m : Nat) : Int))
    have hl := wrap32_le (((r + 1 : Nat) : Int) * ((tc * m : Nat) : Int))
      (le_trans (by decide) hv0)
    have hone : tc = 1 → 0 ≤ wrap32 (((r + 1 : Nat) : Int) * ((tc * m : Nat) : Int)) := by
      intro h
      subst h
      have hr0 : r = 0 := by omega
      subst hr0
      rw [wrap32_eq]
      · exact hv0
      · exact le_trans (by decide) hv0
      · rw [Nat.one_mul] at hn ⊢
        simp only [zero_add, Nat.cast_one, one_mul]
        exact_mod_cast hn
    obtain ⟨k1, k2, k3⟩ := tdiv_wrap_le _ _ _ tc htc hv0 hvd hb hl hone
    rw [wrap32_eq _ k1 k2]
    exact k3

theorem Merge_inc_loops_frame (a0 a1 p0 p1 : Nat) (lr lq : Int) (A B : List Int)
    (s : MergeState) (L1 : lr ≤ (a1 : Int) - 1) (L2 : lq ≤ (p1 : Int) - 1)
    (h : Merge_inc_loops (a0 : Int) lr (p0 : Int) lq A B = some s) :
    s.A = A ∧ s.B.length = B.length ∧
      (∀ idx : Nat, ¬ (a0 ≤ idx ∧ idx < a1) → ¬ (p0 ≤ idx ∧ idx < p1) →
        s.B[idx]? = B[idx]?) ∧
      (∀ w : Int, w ∈ s.writes →
        ((a0 : Int) ≤ w ∧ w < (a1 : Int)) ∨ ((p0 : Int) ≤ w ∧ w < (p1 : Int))) := by
  obtain ⟨f1, f2, f3, f4⟩ := Merge_inc_loops_touched _ _ _ _ A B s h
  refine ⟨f1, f2, ?_, ?_⟩
  · intro idx h1 h2
    apply f3
    rintro (⟨c1, c2⟩ | ⟨c1, c2⟩)
    · exact h1 ⟨by omega, by omega⟩
    · exact h2 ⟨by omega, by omega⟩
  · intro w hw
    rcases f4 w hw with ⟨c1, c2⟩ | ⟨c1, c2⟩
    · left; exact ⟨c1, by omega⟩
    · right; exact ⟨c1, by omega⟩

theorem Merge_dec_loops_frame (a0 a1 p0 p1 : Nat) (lr lq : Int) (A B : List Int)
    (s : MergeState) (L1 : lr ≤ (a1 : Int) - 1) (L2 : lq ≤ (p1 : Int) - 1)
    (h : Merge_dec_loops lr (a0 : Int) lq (p0 : Int) A B = some s) :
    s.A = A ∧ s.B.length = B.length ∧
      (∀ idx : Nat, ¬ (a0 ≤ idx ∧ idx < a1) → ¬ (p0 ≤ idx ∧ idx < p1) →
        s.B[idx]? = B[idx]?) ∧
      (∀ w : Int, w ∈ s.writes →
        ((a0 : Int) ≤ w ∧ w < (a1 : Int)) ∨ ((p0 : Int) ≤ w ∧ w < (p1 : Int))) := by
  obtain ⟨f1, f2, f3, f4⟩ := Merge_dec_loops_touched _ _ _ _ A B s h
  refine ⟨f1, f2, ?_, ?_⟩
  · intro idx h1 h2
    apply f3
    rintro (⟨c1, c2⟩ | ⟨c1, c2⟩)
    · exact h1 ⟨by omega, by omega⟩
    · exact h2 ⟨by omega, by omega⟩
  · intro w hw
    rcases f4 w hw with ⟨c1, c2⟩ | ⟨c1, c2⟩
    · left; exact ⟨c1, by omega⟩
    · right; exact ⟨c1, by omega⟩

/-- C6: for `rank < partner < thread_count`, `n = thread_count * m` an `int`
and arrays of length `n`, whatever `Merge_inc(A, B, rank, partner)` returns has
`A` as it was and `B` changed only at indices assigned to, all of them inside
the block of `rank` or the block of `partner`: every other index of `B` keeps
its value. The same holds for `Merge_dec`. When `(partner + 1) * n` does not
overflow both calls do return. -/
theorem Merge_frame (tc m r q : Nat) (A B : List Int) (htc : 1 ≤ tc) (hrq : r < q)
    (hq : q < tc) (hn : tc * m < 2147483648) (hA : A.length = tc * m)
    (hB : B.length = tc * m) :
    (∀ s, Merge_inc tc (tc * m) A B r q = some s →
      s.A = A ∧ s.B.length = B.length ∧
      (∀ idx : Nat, ¬ (r * m ≤ idx ∧ idx < (r + 1) * m) →
        ¬ (q * m ≤ idx ∧ idx < (q + 1) * m) → s.B[idx]? = B[idx]?) ∧
      (∀ w : Int, w ∈ s.writes →
        (((r * m : Nat) : Int) ≤ w ∧ w < (((r + 1) * m : Nat) : Int)) ∨
        (((q * m : Nat) : Int) ≤ w ∧ w < (((q + 1) * m : Nat) : Int)))) ∧
    (∀ s, Merge_dec tc (tc * m) A B r q = some s →
      s.A = A ∧ s.B.length = B.length ∧
      (∀ idx : Nat, ¬ (r * m ≤ idx ∧ idx < (r + 1) * m) →
        ¬ (q * m ≤ idx ∧ idx < (q + 1) * m) → s.B[idx]? = B[idx]?) ∧
      (∀ w : Int, w ∈ s.writes →
        (((r * m : Nat) : Int) ≤ w ∧ w < (((r + 1) * m : Nat) : Int)) ∨
        (((q * m : Nat) : Int) ≤ w ∧ w < (((q + 1) * m : Nat) : Int)))) ∧
    ((q + 1) * (tc * m) < 2147483648 →
      (∃ s, Merge_inc tc (tc * m) A B r q = some s) ∧
      ∃ s, Merge_dec tc (tc * m) A B r q = some s) := by
  have hm1 : r * m ≤ tc * m := Nat.mul_le_mul_right m (by omega)
  have hm2 : q * m ≤ tc * m := Nat.mul_le_mul_right m (by omega)
  have hrm : r * m < 2147483648 := by omega
  have hqm : q * m < 2147483648 := by omega
  have hrt : r < tc := by omega
  have hne : r ≠ q := by omega
  refine ⟨?_, ?_, ?_⟩
  · intro s h
    rw [Merge_inc, first_index_wrap tc m r htc hrm, first_index_wrap tc m q htc hqm] at h
    exact Merge_inc_loops_frame (r * m) ((r + 1) * m) (q * m) ((q + 1) * m)
      (last_index wrap32 tc (tc * m) r) (last_index wrap32 tc (tc * m) q) A B s
      (last_index_wrap_le tc m r htc hrt hn) (last_index_wrap_le tc m q htc hq hn) h
  · intro s h
    rw [Merge_dec, first_index_wrap tc m r htc hrm, first_index_wrap tc m q htc hqm] at h
    exact Merge_dec_loops_frame (r * m) ((r + 1) * m) (q * m) ((q + 1) * m)
      (last_index wrap32 tc (tc * m) r) (last_index wrap32 tc (tc * m) q) A B s
      (last_index_wrap_le tc m r htc hrt hn) (last_index_wrap_le tc m q htc hq hn) h
  · intro hov
    have hovr : (r + 1) * (tc * m) < 2147483648 :=
      lt_of_le_of_lt (Nat.mul_le_mul_right _ (by omega)) hov
    obtain ⟨s1, e1, _⟩ := Merge_inc_spec tc m r q A B htc hrt hq hne hA hB hovr hov
    obtain ⟨s2, e2, _⟩ := Merge_dec_spec tc m r q A B htc hrt hq hne hA hB hovr hov
    exact ⟨⟨s1, e1⟩, ⟨s2, e2⟩⟩

theorem sorted_merge_le (l1 l2 : List Int) (h1 : l1.Sorted (· ≤ ·)) (h2 : l2.Sorted (· ≤ ·)) :
    (List.merge l1 l2 le_dec).Sorted (· ≤ ·) := by
  have e : le_dec = fun a b => decide (a ≤ b) := rfl
  rw [e]
  exact List.Sorted.merge h1 h2

theorem sorted_merge_ge (l1 l2 : List Int) (h1 : l1.Sorted (· ≥ ·)) (h2 : l2.Sorted (· ≥ ·)) :
    (List.merge l1 l2 ge_dec).Sorted (· ≥ ·) := by
  have e : ge_dec = fun a b => decide (a ≥ b) := rfl
  rw [e]
  exact List.Sorted.merge h1 h2

/-- `Merge_inc` on blocks sorted ascending, when no bound overflows: `B`'s own
block followed by `B`'s partner block is sorted ascending and a permutation of
`A`'s two blocks. -/
theorem Merge_inc_sorted (tc m r q : Nat) (A B : List Int) (htc : 1 ≤ tc)
    (hrq : r < q) (hq : q < tc) (hA : A.length = tc * m) (hB : B.length = tc * m)
    (hov : (q + 1) * (tc * m) < 2147483648)
    (hs1 : (slice A (r * m) (r * m + m)).Sorted (· ≤ ·))
    (hs2 : (slice A (q * m) (q * m + m)).Sorted (· ≤ ·)) :
    ∃ s, Merge_inc tc (tc * m) A B r q = some s ∧
      (slice s.B (r * m) (r * m + m) ++ slice s.B (q * m) (q * m + m)).Sorted (· ≤ ·) ∧
      (slice s.B (r * m) (r * m + m) ++ slice s.B (q * m) (q * m + m)).Perm
        (slice A (r * m) (r * m + m) ++ slice A (q * m) (q * m + m)) := by
  have hm1 : (r + 1) * m ≤ tc * m := Nat.mul_le_mul_right m (by omega)
  have hm2 : (q + 1) * m ≤ tc * m := Nat.mul_le_mul_right m (by omega)
  have hm3 : (r + 1) * m = r * m + m := by ring
  have hm4 : (q + 1) * m = q * m + m := by ring
  have hovr : (r + 1) * (tc * m) < 2147483648 :=
    lt_of_le_of_lt (Nat.mul_le_mul_right _ (by omega)) hov
  have hdis : r * m + m ≤ q * m ∨ q * m + m ≤ r * m := by
    left; rw [← hm3]; exact Nat.mul_le_mul_right m (by omega)
  obtain ⟨s, hs, hM⟩ := Merge_inc_spec tc m r q A B htc (by omega) hq (by omega) hA hB hovr hov
  have hb := MergedInto_blocks_eq hM hdis (by omega) (by omega)
    (merge_length_slices A _ _ m _ (by omega) (by omega))
  refine ⟨s, hs, ?_, ?_⟩
  · rw [hb]; exact sorted_merge_le _ _ hs1 hs2
  · rw [hb]; exact List.perm_merge _ _ _

/-- `Merge_dec` on blocks sorted ascending, when no bound overflows: it
returns, each of `B`'s two blocks is sorted ascending, the own block holds the
larger half, and the two blocks are a permutation of `A`'s two blocks. -/
theorem Merge_dec_ascending (tc m r q : Nat) (A B : List Int) (htc : 1 ≤ tc)
    (hrq : r < q) (hq : q < tc) (hA : A.length = tc * m) (hB : B.length = tc * m)
    (hov : (q + 1) * (tc * m) < 2147483648)
    (hs1 : (slice A (r * m) (r * m + m)).Sorted (· ≤ ·))
    (hs2 : (slice A (q * m) (q * m + m)).Sorted (· ≤ ·)) :
    ∃ s, Merge_dec tc (tc * m) A B r q = some s ∧
      (slice s.B (r * m) (r * m + m)).Sorted (· ≤ ·) ∧
      (slice s.B (q * m) (q * m + m)).Sorted (· ≤ ·) ∧
      (∀ a ∈ slice s.B (r * m) (r * m + m), ∀ b ∈ slice s.B (q * m) (q * m + m), b ≤ a) ∧
      (slice s.B (r * m) (r * m + m) ++ slice s.B (q * m) (q * m + m)).Perm
        (slice A (r * m) (r * m + m) ++ slice A (q * m) (q * m + m)) := by
  have hm1 : (r + 1) * m ≤ tc * m := Nat.mul_le_mul_right m (by omega)
  have hm2 : (q + 1) * m ≤ tc * m := Nat.mul_le_mul_right m (by omega)
  have hm3 : (r + 1) * m = r * m + m := by ring
  have hm4 : (q + 1) * m = q * m + m := by ring
  have hovr : (r + 1) * (tc * m) < 2147483648 :=
    lt_of_le_of_lt (Nat.mul_le_mul_right _ (by omega)) hov
  have hdis : r * m + m ≤ q * m ∨ q * m + m ≤ r * m := by
    left; rw [← hm3]; exact Nat.mul_le_mul_right m (by omega)
  obtain ⟨s, hs, hM⟩ := Merge_dec_spec tc m r q A B htc (by omega) hq (by omega) hA hB hovr hov
  have hb := MergedDown_blocks_eq hM hdis (by omega) (by omega)
    (merge_length_rslices A _ _ m _ (by omega) (by omega))
  have r1 : (rslice A (r * m) (r * m + m)).Sorted (· ≥ ·) := by
    unfold rslice; exact List.pairwise_reverse.mpr hs1
  have r2 : (rslice A (q * m) (q * m + m)).Sorted (· ≥ ·) := by
    unfold rslice; exact List.pairwise_reverse.mpr hs2
  have hsorted : (rslice s.B (r * m) (r * m + m) ++ rslice s.B (q * m) (q * m + m)).Sorted
      (· ≥ ·) := by
    rw [hb]; exact sorted_merge_ge _ _ r1 r2
  have hperm : (rslice s.B (r * m) (r * m + m) ++ rslice s.B (q * m) (q * m + m)).Perm
      (rslice A (r * m) (r * m + m) ++ rslice A (q * m) (q * m + m)) := by
    rw [hb]; exact List.perm_merge _ _ _
  obtain ⟨p1, p2, p3⟩ := List.pairwise_append.mp hsorted
  refine ⟨s, hs, ?_, ?_, ?_, ?_⟩
  · unfold rslice at p1; exact List.pairwise_reverse.mp p1
  · unfold rslice at p2; exact List.pairwise_reverse.mp p2
  · intro a ha b hb2
    exact p3 a (by unfold rslice; exact List.mem_reverse.mpr ha) b
      (by unfold rslice; exact List.mem_reverse.mpr hb2)
  · unfold rslice at hperm
    exact (((List.reverse_perm _).symm.append (List.reverse_perm _).symm).trans hperm).trans
      ((List.reverse_perm _).append (List.reverse_perm _))

/-! ## Buffer swap -/

theorem Swap_list_ptr_twice (curr_arr temp_arr : Nat) (m : Memory) :
    Swap_list_ptr curr_arr temp_arr (Swap_list_ptr curr_arr temp_arr m) = m := by
  cases m with
  | mk ptr arr =>
    simp only [Swap_list_ptr]
    congr 1
    funext q
    by_cases h1 : q = temp_arr
    · subst h1
      by_cases h2 : q = curr_arr
      · subst h2; simp
      · simp [Function.update, h2]
        intro h3
        exact absurd h3.symm h2
    · by_cases h2 : q = curr_arr
      · subst h2
        simp [Function.update, h1]
      · simp [Function.update, h1, h2]

/-- C11: `Swap_list` exchanges the two buffer handles: afterwards the first
pointer variable holds what the second held and the second what the first
held, every other pointer variable and the contents of every array are as
before (so the current and the scratch array trade places), and a second
`Swap_list` restores the original assignment. -/
theorem Swap_list_exchanges (curr_arr temp_arr : Nat) (m : Memory) (s : Shared) :
    (Swap_list_ptr curr_arr temp_arr m).ptr curr_arr = m.ptr temp_arr ∧
    (Swap_list_ptr curr_arr temp_arr m).ptr temp_arr = m.ptr curr_arr ∧
    (∀ q, q ≠ curr_arr → q ≠ temp_arr → (Swap_list_ptr curr_arr temp_arr m).ptr q = m.ptr q) ∧
    (Swap_list_ptr curr_arr temp_arr m).arr = m.arr ∧
    (Swap_list_ptr curr_arr temp_arr m).shared curr_arr temp_arr =
      Swap_list (m.shared curr_arr temp_arr) ∧
    Swap_list_ptr curr_arr temp_arr (Swap_list_ptr curr_arr temp_arr m) = m ∧
    (Swap_list s).x = s.temp ∧ (Swap_list s).temp = s.x ∧ Swap_list (Swap_list s) = s := by
  have e1 : (Swap_list_ptr curr_arr temp_arr m).ptr curr_arr = m.ptr temp_arr := by
    by_cases h : curr_arr = temp_arr
    · subst h; simp [Swap_list_ptr]
    · simp [Swap_list_ptr, Function.update, h]
  have e2 : (Swap_list_ptr curr_arr temp_arr m).ptr temp_arr = m.ptr curr_arr := by
    simp [Swap_list_ptr]
  refine ⟨e1, e2, ?_, rfl, ?_, Swap_list_ptr_twice curr_arr temp_arr m, rfl, rfl, rfl⟩
  · intro q h1 h2
    simp [Swap_list_ptr, Function.update, h1, h2]
  · simp only [Memory.shared, Swap_list, e1, e2]
    rfl

/-! ## Partner pairing -/

theorem testBit_partner (rank j i : Nat) :
    (partner rank (2 ^ j)).testBit i = Bool.xor (rank.testBit i) (decide (j = i)) := by
  rw [partner, Nat.testBit_xor, Nat.testBit_two_pow]

/-- C18: for `thread_count = 2 ^ k`, a round value `bitmask2 = 2 ^ j` below it
and a rank below it, the partner `rank ^ bitmask2` is a rank below
`thread_count`, differs from the rank, has the rank as its own partner, and
agrees with the rank on every bit `and_bit = 2 ^ a` above `bitmask2`; of the
two threads of a pair exactly one, the lower, passes the test
`my_rank < partner`. -/
theorem partner_pairing (k j : Nat) (hj : j < k) (rank : Nat) (hr : rank < 2 ^ k) :
    partner rank (2 ^ j) < 2 ^ k ∧ partner rank (2 ^ j) ≠ rank ∧
    partner (partner rank (2 ^ j)) (2 ^ j) = rank ∧
    (∀ a, j < a → rank &&& 2 ^ a = partner rank (2 ^ j) &&& 2 ^ a) ∧
    ((rank < partner rank (2 ^ j)) ↔
      ¬ (partner rank (2 ^ j) < partner (partner rank (2 ^ j)) (2 ^ j))) := by
  have h1 : partner rank (2 ^ j) < 2 ^ k :=
    Nat.xor_lt_two_pow hr (Nat.pow_lt_pow_right (by decide) hj)
  have h2 : partner rank (2 ^ j) ≠ rank := by
    intro h
    have := testBit_partner rank j j
    rw [h] at this
    simp at this
  have h3 : partner (partner rank (2 ^ j)) (2 ^ j) = rank := by
    simp only [partner]
    rw [Nat.xor_assoc, Nat.xor_self, Nat.xor_zero]
  refine ⟨h1, h2, h3, ?_, ?_⟩
  · intro a ha
    apply Nat.eq_of_testBit_eq
    intro i
    rw [Nat.testBit_and, Nat.testBit_and, testBit_partner, Nat.testBit_two_pow]
    by_cases hai : a = i
    · subst hai
      have : ¬ j = a := by omega
      simp [this]
    · simp [hai]
  · rw [h3]
    omega

/-- The pairing at `thread_count = 8`, `bitmask2 = 2`, rank 5. -/
theorem partner_pairing_witness :
    partner 5 (2 ^ 1) < 2 ^ 3 ∧ partner 5 (2 ^ 1) ≠ 5 ∧
    partner (partner 5 (2 ^ 1)) (2 ^ 1) = 5 ∧
    (∀ a, 1 < a → 5 &&& 2 ^ a = partner 5 (2 ^ 1) &&& 2 ^ a) ∧
    ((5 < partner 5 (2 ^ 1)) ↔
      ¬ (partner 5 (2 ^ 1) < partner (partner 5 (2 ^ 1)) (2 ^ 1))) :=
  partner_pairing 3 1 (by decide) 5 (by decide)

/-! ## Runs of the whole program -/

/-- C1: with `thread_count = 2`, `n = 4` the input `[2147483647, -2, 5, 7]`
ends as `[5, 7, 2147483647, -2]`, which is not sorted; the input
`[8, 7, 6, 5, 4, 3, 2, 1]` with `thread_count = 4` ends as
`[1, 2, 3, 4, 5, 6, 7, 8]`. -/
theorem Thread_work_not_sorted :
    (Thread_work 2 4 { x := [2147483647, -2, 5, 7], temp := [0, 0, 0, 0] }).map
        (fun s => s.x) = some [5, 7, 2147483647, -2] ∧
    (Thread_work 4 8 { x := [8, 7, 6, 5, 4, 3, 2, 1], temp := [0, 0, 0, 0, 0, 0, 0, 0] }).map
        (fun s => s.x) = some [1, 2, 3, 4, 5, 6, 7, 8] := by
  decide

theorem Thread_work_one (n : Nat) (s : Shared) :
    Thread_work 1 n s = (qsort s.x 0 n cmpfunc).map fun x1 => { x := x1, temp := s.temp } := by
  have h0 : local_sorts 1 n s.x = qsort s.x 0 n cmpfunc := by
    have hr : List.range 1 = [0] := rfl
    rw [local_sorts, hr, List.foldlM_cons, Thread_work_sort, Nat.zero_mul, Nat.div_one]
    simp
  have h1 : ∀ st : Shared, outer_loop (exchange_round 1 n) 1 32 1 2 st = some st := by
    intro st
    rfl
  rw [Thread_work, h0]
  cases h : qsort s.x 0 n cmpfunc with
  | none => rfl
  | some x1 => simp only [h1, Option.map_some']

/-- C17: with `thread_count = 4`, `n = 8` and the input
`[2147483647, -2, 5, 7, 1, 2, 3, 4]`, when the outer iteration with
`bitmask = 1` (`and_bit = 2`) has finished, the array is
`[5, 7, 2147483647, -2, 3, 4, 1, 2]`: the group of the blocks of ranks 0 and 1,
whose ranks have `rank & 2 == 0`, is not sorted ascending. -/
theorem stage_not_sorted :
    ((local_sorts 4 8 [2147483647, -2, 5, 7, 1, 2, 3, 4]).bind fun x1 =>
        inner_loop (exchange_round 4 8) 2 32 1
          { x := x1, temp := [0, 0, 0, 0, 0, 0, 0, 0] }).map (fun s => s.x) =
      some [5, 7, 2147483647, -2, 3, 4, 1, 2] := by
  decide

/-! ## The local sort -/

theorem qsort_insert_perm (c : Int → Int → Int) (v : Int) :
    ∀ l : List Int, (qsort_insert c v l).Perm (v :: l) := by
  intro l
  induction l with
  | nil => exact List.Perm.refl _
  | cons u rest ih =>
    rw [qsort_insert]
    split
    · exact List.Perm.refl _
    · exact (List.Perm.cons u ih).trans (List.Perm.swap v u rest)

theorem qsort_list_perm (c : Int → Int → Int) : ∀ l : List Int, (qsort_list c l).Perm l := by
  intro l
  induction l with
  | nil => exact List.Perm.refl _
  | cons v rest ih =>
    rw [qsort_list]
    exact (qsort_insert_perm c v _).trans (List.Perm.cons v ih)

theorem cmpfunc_eq (a b : Int) (h1 : -2147483648 ≤ a - b) (h2 : a - b < 2147483648) :
    cmpfunc a b = a - b :=
  wrap32_eq _ h1 h2

theorem qsort_insert_sorted (v : Int) :
    ∀ l : List Int, (∀ u ∈ l, -2147483648 ≤ v - u ∧ v - u < 2147483648) →
      l.Sorted (· ≤ ·) → (qsort_insert cmpfunc v l).Sorted (· ≤ ·) := by
  intro l
  induction l with
  | nil => intro _ _; simp [qsort_insert]
  | cons u rest ih =>
    intro hb hs
    have hu := hb u (List.mem_cons_self _ _)
    rw [qsort_insert, cmpfunc_eq v u hu.1 hu.2]
    have hs2 := List.sorted_cons.mp hs
    split
    · rename_i hc
      refine List.sorted_cons.mpr ⟨?_, hs⟩
      intro w hw
      rcases List.mem_cons.mp hw with h | h
      · subst h; omega
      · have := hs2.1 w h
        omega
    · rename_i hc
      refine List.sorted_cons.mpr ⟨?_, ih (fun w hw => hb w (List.mem_cons_of_mem _ hw)) hs2.2⟩
      intro w hw
      rcases List.mem_cons.mp ((qsort_insert_perm cmpfunc v rest).mem_iff.mp hw) with h | h
      · subst h; omega
      · exact hs2.1 w h

theorem qsort_list_sorted :
    ∀ l : List Int, (∀ a ∈ l, ∀ b ∈ l, -2147483648 ≤ a - b ∧ a - b < 2147483648) →
      (qsort_list cmpfunc l).Sorted (· ≤ ·) := by
  intro l
  induction l with
  | nil => intro _; simp [qsort_list]
  | cons v rest ih =>
    intro hb
    rw [qsort_list]
    apply qsort_insert_sorted
    · intro u hu
      exact hb v (List.mem_cons_self _ _) u
        (List.mem_cons_of_mem _ ((qsort_list_perm cmpfunc rest).mem_iff.mp hu))
    · exact ih (fun a ha b hb2 => hb a (List.mem_cons_of_mem _ ha) b (List.mem_cons_of_mem _ hb2))

/-- What `qsort` with `cmpfunc` does to the array: the length stays, the
elements outside `[base, base + nmemb)` stay, the elements inside are
permuted, and they end sorted ascending when no difference of two of them
overflows an `int`. -/
theorem qsort_spec (x y : List Int) (base nmemb : Nat)
    (h : qsort x base nmemb cmpfunc = some y) :
    y.length = x.length ∧
    (∀ idx : Nat, ¬ (base ≤ idx ∧ idx < base + nmemb) → y[idx]? = x[idx]?) ∧
    (slice y base (base + nmemb)).Perm (slice x base (base + nmemb)) ∧
    ((∀ a ∈ slice x base (base + nmemb), ∀ b ∈ slice x base (base + nmemb),
        -2147483648 ≤ a - b ∧ a - b < 2147483648) →
      (slice y base (base + nmemb)).Sorted (· ≤ ·)) := by
  unfold qsort at h
  split at h
  · rename_i hle
    simp only [Option.some.injEq] at h
    have e0 : base + nmemb - base = nmemb := by omega
    have hsx : slice x base (base + nmemb) = (x.drop base).take nmemb := by
      unfold slice; rw [e0]
    have hl1 : (x.take base).length = base := by rw [List.length_take]; omega
    have hl2 : (qsort_list cmpfunc ((x.drop base).take nmemb)).length = nmemb := by
      rw [(qsort_list_perm cmpfunc _).length_eq, List.length_take, List.length_drop]; omega
    have hsy : slice y base (base + nmemb) = qsort_list cmpfunc ((x.drop base).take nmemb) := by
      unfold slice
      rw [e0, ← h, List.append_assoc, List.drop_append_of_le_length (by omega),
        List.drop_of_length_le (by omega), List.nil_append,
        List.take_append_of_le_length (by omega), List.take_of_length_le (by omega)]
    refine ⟨?_, ?_, ?_, ?_⟩
    · rw [← h]
      simp only [List.length_append, hl1, hl2, List.length_drop]
      omega
    · intro idx hidx
      rw [← h]
      by_cases c : idx < base
      · rw [List.append_assoc, List.getElem?_append_left (by omega), List.getElem?_take]
        rw [if_pos c]
      · have c2 : base + nmemb ≤ idx := by omega
        rw [List.getElem?_append_right (by simp only [List.length_append, hl1, hl2]; omega)]
        simp only [List.length_append, hl1, hl2]
        rw [List.getElem?_drop]
        congr 1
        omega
    · rw [hsy, hsx]
      exact qsort_list_perm cmpfunc _
    · intro hb
      rw [hsy]
      rw [hsx] at hb
      exact qsort_list_sorted _ hb
  · cases h

/-! ## The comparison function and the block bounds in `int` arithmetic -/

/-- C13: for `thread_count = 2`, `n = 1073741824` and rank 1 the product
`(rank + 1) * n` wraps, and the last index the merges compute is
`-1073741825`, not the last index `1073741823` of the block of rank 1; the
first index `536870912` is the block's. Whenever `(rank + 1) * n` is below
`2 ^ 31`, both bounds computed in `int` arithmetic are the bounds over
unbounded integers. -/
theorem last_index_wraps :
    last_index wrap32 2 1073741824 1 = -1073741825 ∧
    last_index id 2 1073741824 1 = 1073741823 ∧
    first_index wrap32 2 1073741824 1 = 536870912 ∧
    (∀ thread_count m rank : Nat, 1 ≤ thread_count →
      (rank + 1) * (thread_count * m) < 2147483648 →
      first_index wrap32 thread_count (thread_count * m) rank =
        first_index id thread_count (thread_count * m) rank ∧
      last_index wrap32 thread_count (thread_count * m) rank =
        last_index id thread_count (thread_count * m) rank) := by
  refine ⟨by decide, by decide, by decide, ?_⟩
  intro tc m r htc h
  have h1 : r * m ≤ (r + 1) * (tc * m) :=
    Nat.mul_le_mul (by omega) (Nat.le_mul_of_pos_left _ (by omega))
  rw [first_index_wrap tc m r htc (by omega), last_index_wrap_all tc m r htc h,
    first_index_id tc m r htc, last_index_id tc m r htc]
  constructor <;> push_cast <;> ring

/-- C12: on `a = 2147483647`, `b = -2` the subtraction `a - b` wraps and
`cmpfunc` returns the negative value `-2147483647` although `a > b`. Whenever
`a - b` is an `int`, `cmpfunc` returns it, and its sign orders `a` and `b`. -/
theorem cmpfunc_wraps :
    cmpfunc 2147483647 (-2) = -2147483647 ∧ cmpfunc 2147483647 (-2) < 0 ∧
    (-2 : Int) < 2147483647 ∧
    (∀ a b : Int, -2147483648 ≤ a - b → a - b < 2147483648 →
      cmpfunc a b = a - b ∧ (cmpfunc a b < 0 ↔ a < b) ∧ (cmpfunc a b = 0 ↔ a = b) ∧
      (0 < cmpfunc a b ↔ b < a)) := by
  refine ⟨by decide, by decide, by decide, ?_⟩
  intro a b h1 h2
  rw [cmpfunc_eq a b h1 h2]
  refine ⟨rfl, ?_, ?_, ?_⟩ <;> constructor <;> intro h <;> omega

theorem Thread_work_counted_one (n : Nat) (s : Shared) :
    Thread_work_counted 1 n s = (Thread_work 1 n s).map fun r => (r, 0) := by
  rw [Thread_work_counted, Thread_work]
  cases local_sorts 1 n s.x with
  | none => rfl
  | some x1 => rfl

/-- C7: with `thread_count = 1` the loop nest runs its body zero times, by
its control alone and in the counted run with the real body, and the result is
the local sort of the whole array, whatever `n` and the arrays are; it is
sorted ascending when no difference of two elements overflows an `int`, and
`[3, 1, 4, 1, 5]` ends as `[1, 1, 3, 4, 5]`; but `[2147483647, -2]` ends as it
was, not sorted. -/
theorem Thread_work_single :
    outer_loop (fun _ _ (c : Nat) => some (c + 1)) 1 32 1 2 0 = some 0 ∧
    (∀ (n : Nat) (s : Shared), Thread_work_counted 1 n s =
      (Thread_work 1 n s).map fun r => (r, 0)) ∧
    (∀ (n : Nat) (s : Shared), Thread_work 1 n s =
      (qsort s.x 0 n cmpfunc).map fun x1 => { x := x1, temp := s.temp }) ∧
    (∀ (n : Nat) (s r : Shared), s.x.length = n → Thread_work 1 n s = some r →
      (∀ a ∈ s.x, ∀ b ∈ s.x, -2147483648 ≤ a - b ∧ a - b < 2147483648) →
      r.x.Sorted (· ≤ ·) ∧ r.x.Perm s.x) ∧
    (Thread_work 1 5 { x := [3, 1, 4, 1, 5], temp := [0, 0, 0, 0, 0] }).map
        (fun s => s.x) = some [1, 1, 3, 4, 5] ∧
    (Thread_work 1 2 { x := [2147483647, -2], temp := [0, 0] }).map
        (fun s => s.x) = some [2147483647, -2] := by
  refine ⟨by decide, Thread_work_counted_one, Thread_work_one, ?_, by decide, by decide⟩
  intro n s r hn h hb
  rw [Thread_work_one] at h
  cases hq : qsort s.x 0 n cmpfunc with
  | none => rw [hq] at h; cases h
  | some y =>
    rw [hq] at h
    simp only [Option.map_some', Option.some.injEq] at h
    subst h
    obtain ⟨q1, _, q3, q4⟩ := qsort_spec s.x y 0 n hq
    have e1 : slice y 0 (0 + n) = y := by
      unfold slice
      rw [List.drop_zero, List.take_of_length_le (by omega)]
    have e2 : slice s.x 0 (0 + n) = s.x := by
      unfold slice
      rw [List.drop_zero, List.take_of_length_le (by omega)]
    rw [e1, e2] at q3
    rw [e1, e2] at q4
    exact ⟨q4 hb, q3⟩

/-- C9: the local sort of a rank keeps the length of `x`, leaves every
element outside the block of the rank as it was and permutes the block; the
block ends sorted ascending when no difference of two of its elements
overflows an `int`. But the local sort of rank 1 with `thread_count = 2`,
`n = 4` leaves `[1, 2, 2147483647, -2]` as it is, its block `[2147483647, -2]`
not sorted: `cmpfunc` tells `qsort` in both directions that `2147483647` comes
before `-2`. The call of `qsort.c`, 3 elements from index 2 of
`[1, 0, 9, 5, 7]`, gives `[1, 0, 5, 7, 9]`. -/
theorem Thread_work_sort_not_sorted :
    Thread_work_sort 2 4 [1, 2, 2147483647, -2] 1 = some [1, 2, 2147483647, -2] ∧
    cmpfunc 2147483647 (-2) < 0 ∧ 0 < cmpfunc (-2) 2147483647 ∧
    qsort [1, 0, 9, 5, 7] 2 3 cmpfunc = some [1, 0, 5, 7, 9] ∧
    (∀ (thread_count n rank : Nat) (x y : List Int),
      Thread_work_sort thread_count n x rank = some y →
      y.length = x.length ∧
      (∀ idx : Nat, ¬ (rank * (n / thread_count) ≤ idx ∧
          idx < rank * (n / thread_count) + n / thread_count) → y[idx]? = x[idx]?) ∧
      (slice y (rank * (n / thread_count)) (rank * (n / thread_count) + n / thread_count)).Perm
        (slice x (rank * (n / thread_count)) (rank * (n / thread_count) + n / thread_count)) ∧
      ((∀ a ∈ slice x (rank * (n / thread_count))
            (rank * (n / thread_count) + n / thread_count),
          ∀ b ∈ slice x (rank * (n / thread_count))
            (rank * (n / thread_count) + n / thread_count),
          -2147483648 ≤ a - b ∧ a - b < 2147483648) →
        (slice y (rank * (n / thread_count))
          (rank * (n / thread_count) + n / thread_count)).Sorted (· ≤ ·))) := by
  refine ⟨by decide, by decide, by decide, by decide, ?_⟩
  intro thread_count n rank x y h
  exact qsort_spec x y _ _ h

/-- `Merge_inc` is its loops run from the four computed bounds. -/
theorem Merge_inc_eq_loops (tc n r q : Nat) (A B : List Int) (a b c d : Int)
    (h1 : first_index wrap32 tc n r = a) (h2 : last_index wrap32 tc n r = b)
    (h3 : first_index wrap32 tc n q = c) (h4 : last_index wrap32 tc n q = d) :
    Merge_inc tc n A B r q = Merge_inc_loops a b c d A B := by
  subst h1 h2 h3 h4
  rfl

/-- `Merge_dec` is its loops run from the four computed bounds. -/
theorem Merge_dec_eq_loops (tc n r q : Nat) (A B : List Int) (a b c d : Int)
    (h1 : first_index wrap32 tc n r = a) (h2 : last_index wrap32 tc n r = b)
    (h3 : first_index wrap32 tc n q = c) (h4 : last_index wrap32 tc n q = d) :
    Merge_dec tc n A B r q = Merge_dec_loops b a d c A B := by
  subst h1 h2 h3 h4
  rfl

/-- The loops of `Merge_inc` on the blocks `[0, m)` and `[m, ...)` when the
partner's last index lies before the partner's first index `m`: the first
loop fills `B[0 .. m - 1]`, the other loops do not run, and `B` is as it was
from index `m` on. -/
theorem Merge_inc_loops_cut (A B : List Int) (m : Nat) (lq : Int) (hlq : lq < (m : Int))
    (hA : m + m ≤ A.length) (hB : m ≤ B.length) :
    ∃ s, Merge_inc_loops ((0 : Nat) : Int) (((0 : Nat) : Int) + (m : Nat) - 1) (m : Int) lq A B
        = some s ∧
      (∀ idx : Nat, m ≤ idx → s.B[idx]? = B[idx]?) ∧
      (∀ w : Int, w ∈ s.writes → 0 ≤ w ∧ w < (m : Int)) := by
  have e2 : (((0 : Nat) : Int) + (m : Nat) - 1 + 1 - ((0 : Nat) : Int)).toNat = m := by omega
  obtain ⟨s1, a1, p1, g1, g2, g3, g4, g5, g6, g7⟩ :=
    Merge_inc_loop1_spec A A.length A.length m
      { A := A, B := B, my_first := ((0 : Nat) : Int), p_first := (m : Int),
        i := ((0 : Nat) : Int), j := (m : Int), reads := [], writes := [] }
      0 0 m rfl rfl rfl rfl (by omega) (by omega) (le_refl _) (le_refl _)
      (by simp only []; omega)
  simp only [] at g4
  have e3 : (lq + 1 - (m : Int)).toNat = 0 := by omega
  refine ⟨s1, ?_, ?_, ?_⟩
  · rw [Merge_inc_loops]
    simp only []
    rw [e2, g1]
    simp only []
    rw [g4, e3]
    have hl2 : Merge_inc_loop2 (((0 : Nat) : Int) + (m : Nat) - 1) lq 0 s1 = some s1 := by
      rw [Merge_inc_loop2, if_neg]
      rw [g4]
      intro hc
      omega
    rw [hl2]
    simp only []
    rw [g4, e3]
    have hl3 : Merge_inc_rest_p lq 0 s1 = some s1 := by
      rw [Merge_inc_rest_p, if_neg]
      rw [g4]
      omega
    have hl4 : Merge_inc_rest_my lq 0 s1 = some s1 := by
      rw [Merge_inc_rest_my, if_neg]
      rw [g4]
      omega
    rw [hl3, hl4]
    simp
  · intro idx hidx
    rw [g7.B_eq, if_neg (by omega)]
  · intro w hw
    rcases (g7.writes_eq w).mp hw with h | h
    · cases h
    · omega

/-- `Merge_inc` with `thread_count = 2`, `n = 1073741824`, rank 0 and
partner 1, where `(partner + 1) * n` overflows: it returns, and the block of
the partner is as it was in `B`, none of its indices assigned to. -/
theorem Merge_inc_two (A B : List Int) (hA : A.length = 1073741824)
    (hB : B.length = 1073741824) :
    ∃ s, Merge_inc 2 1073741824 A B 0 1 = some s ∧
      (∀ idx : Nat, 536870912 ≤ idx → s.B[idx]? = B[idx]?) ∧
      (∀ w : Int, w ∈ s.writes → 0 ≤ w ∧ w < 536870912) := by
  have h1 : first_index wrap32 2 1073741824 0 = ((0 : Nat) : Int) := by decide
  have h2 : last_index wrap32 2 1073741824 0 =
      ((0 : Nat) : Int) + ((536870912 : Nat) : Int) - 1 := by decide
  have h3 : first_index wrap32 2 1073741824 1 = ((536870912 : Nat) : Int) := by decide
  have h4 : last_index wrap32 2 1073741824 1 = -1073741825 := by decide
  rw [Merge_inc_eq_loops 2 1073741824 0 1 A B _ _ _ _ h1 h2 h3 h4]
  exact Merge_inc_loops_cut A B 536870912 (-1073741825) (by decide) (by omega) (by omega)

/-- The loops of `Merge_dec` stop at the first comparison when the first loop
is entered with a negative `p_first`: the read of `A[p_first]` is outside the
array. -/
theorem Merge_dec_loops_none (mf ml pf pl : Int) (A B : List Int) (h1 : ml ≤ mf)
    (h2 : pf < 0) : Merge_dec_loops mf ml pf pl A B = none := by
  obtain ⟨k, hk⟩ : ∃ k, (mf + 1 - ml).toNat = k + 1 := ⟨(mf - ml).toNat, by omega⟩
  have ht : test_ge
      { A := A, B := B, my_first := mf, p_first := pf, i := mf, j := pf, reads := [],
        writes := [] } = none := by
    have hg : arr_get A pf = none := by
      rw [arr_get, if_neg (by omega)]
    unfold test_ge
    simp only [hg]
    cases arr_get A mf <;> rfl
  rw [Merge_dec_loops]
  simp only []
  rw [hk, Merge_dec_loop1, if_pos (by simpa using h1), ht]

/-- The loops of `Merge_dec` do nothing when both blocks are given with the
last index before the first. -/
theorem Merge_dec_loops_idle (mf ml pf pl : Int) (A B : List Int) (h1 : mf < ml)
    (h2 : pf < pl) :
    Merge_dec_loops mf ml pf pl A B =
      some
        { A := A, B := B, my_first := mf, p_first := pf, i := mf, j := pf, reads := [],
          writes := [] } := by
  have e1 : (mf + 1 - ml).toNat = 0 := by omega
  have e2 : (pf + 1 - pl).toNat = 0 := by omega
  rw [Merge_dec_loops]
  simp only []
  rw [e1, Merge_dec_loop1, if_neg (by simpa using h1)]
  simp only []
  rw [e2, Merge_dec_loop2, if_neg (by simp only []; omega)]
  simp only []
  rw [if_pos h1, e2, Merge_dec_rest_p, if_neg (by simpa using h2)]

/-- C2: with `thread_count = 2`, `n = 1073741824`, rank 0 and partner 1 the
product `(partner + 1) * n` overflows, `p_last` is computed as `-1073741825`,
and `Merge_inc` returns with the block of the partner in `B` as it was before
the call, whatever `A` holds: the two blocks of `B` are not the merge of the
two blocks of `A`. Whenever `(partner + 1) * n` is below `2 ^ 31` and the two
blocks of `A` are sorted ascending, `Merge_inc` returns with `B`'s own block
followed by `B`'s partner block sorted ascending and a permutation of `A`'s
two blocks. -/
theorem Merge_inc_overflow :
    (∀ A B : List Int, A.length = 1073741824 → B.length = 1073741824 →
      ∃ s, Merge_inc 2 1073741824 A B 0 1 = some s ∧
        slice s.B 536870912 1073741824 = slice B 536870912 1073741824) ∧
    (∀ (tc m r q : Nat) (A B : List Int), 1 ≤ tc → r < q → q < tc →
      A.length = tc * m → B.length = tc * m → (q + 1) * (tc * m) < 2147483648 →
      (slice A (r * m) (r * m + m)).Sorted (· ≤ ·) →
      (slice A (q * m) (q * m + m)).Sorted (· ≤ ·) →
      ∃ s, Merge_inc tc (tc * m) A B r q = some s ∧
        (slice s.B (r * m) (r * m + m) ++ slice s.B (q * m) (q * m + m)).Sorted (· ≤ ·) ∧
        (slice s.B (r * m) (r * m + m) ++ slice s.B (q * m) (q * m + m)).Perm
          (slice A (r * m) (r * m + m) ++ slice A (q * m) (q * m + m))) := by
  refine ⟨?_, Merge_inc_sorted⟩
  intro A B hA hB
  obtain ⟨s, h1, h2, _⟩ := Merge_inc_two A B hA hB
  refine ⟨s, h1, ?_⟩
  apply List.ext_getElem?
  intro t
  rw [slice_getElem?, slice_getElem?]
  by_cases c : t < 1073741824 - 536870912
  · rw [if_pos c, if_pos c]
    exact h2 _ (by omega)
  · rw [if_neg c, if_neg c]

/-- The overflowing `Merge_inc` on `A` all 0 and `B` all 1. -/
theorem Merge_inc_overflow_witness :
    ∃ s, Merge_inc 2 1073741824 (List.replicate 1073741824 0) (List.replicate 1073741824 1)
        0 1 = some s ∧
      slice s.B 536870912 1073741824 =
        slice (List.replicate 1073741824 1) 536870912 1073741824 :=
  Merge_inc_overflow.1 (List.replicate 1073741824 0) (List.replicate 1073741824 1)
    (List.length_replicate _ _) (List.length_replicate _ _)

/-- C5: with `thread_count = 2`, `n = 1073741824` and the round
`bitmask2 = 1` (`and_bit = 2`), index `536870912` of the scratch array is
assigned to by neither thread: rank 1 idles and the `Merge_inc` of rank 0
stops before the block of its partner. -/
theorem Thread_work_writes_overflow (x temp : List Int) (hx : x.length = 1073741824)
    (ht : temp.length = 1073741824) :
    (∃ ws, Thread_work_writes 2 1073741824 1 2 { x := x, temp := temp } 0 = some ws ∧
      (536870912 : Int) ∉ ws) ∧
    Thread_work_writes 2 1073741824 1 2 { x := x, temp := temp } 1 = some [] := by
  obtain ⟨s, h1, _, h3⟩ := Merge_inc_two x temp hx ht
  have hp0 : partner 0 1 = 1 := by decide
  have hp1 : partner 1 1 = 0 := by decide
  constructor
  · refine ⟨s.writes, ?_, ?_⟩
    · rw [Thread_work_writes]
      simp only [hp0]
      rw [if_pos (by decide), if_pos (by decide), h1]
      rfl
    · intro hc
      have := h3 _ hc
      omega
  · rw [Thread_work_writes]
    simp only [hp1]
    rw [if_neg (by decide)]

/-- The writes of the overflowing round on `x` all 0 and `temp` all 1. -/
theorem Thread_work_writes_overflow_witness :
    (∃ ws, Thread_work_writes 2 1073741824 1 2
        { x := List.replicate 1073741824 0, temp := List.replicate 1073741824 1 } 0
        = some ws ∧
      (536870912 : Int) ∉ ws) ∧
    Thread_work_writes 2 1073741824 1 2
      { x := List.replicate 1073741824 0, temp := List.replicate 1073741824 1 } 1 = some [] :=
  Thread_work_writes_overflow (List.replicate 1073741824 0) (List.replicate 1073741824 1)
    (List.length_replicate _ _) (List.length_replicate _ _)

/-- C16: with `thread_count = 2`, `n = 1073741824` the round `bitmask2 = 1`
(`and_bit = 2`) returns, and from index `536870912` on the new current array
holds what the scratch array held before the round, not elements of the old
current array. -/
theorem exchange_round_overflow (x temp : List Int) (hx : x.length = 1073741824)
    (ht : temp.length = 1073741824) :
    ∃ s, exchange_round 2 1073741824 1 2 { x := x, temp := temp } = some s ∧
      ∀ idx : Nat, 536870912 ≤ idx → s.x[idx]? = temp[idx]? := by
  obtain ⟨m, h1, h2, _⟩ := Merge_inc_two x temp hx ht
  have hp0 : partner 0 1 = 1 := by decide
  have hp1 : partner 1 1 = 0 := by decide
  have hr : List.range 2 = [0, 1] := rfl
  have s0 : Thread_work_merge 2 1073741824 1 2 { x := x, temp := temp } 0 =
      some { x := m.A, temp := m.B } := by
    rw [Thread_work_merge]
    simp only [hp0]
    rw [if_pos (by decide), if_pos (by decide), h1]
    rfl
  have s1 : Thread_work_merge 2 1073741824 1 2 { x := m.A, temp := m.B } 1 =
      some { x := m.A, temp := m.B } := by
    rw [Thread_work_merge]
    simp only [hp1]
    rw [if_neg (by decide)]
  refine ⟨{ x := m.B, temp := m.A }, ?_, h2⟩
  rw [exchange_round, hr, List.foldlM_cons, s0]
  simp only [Option.some_bind, Option.bind_eq_bind, List.foldlM_cons, s1, List.foldlM_nil,
    Option.pure_def, Option.map_some', Swap_list]

/-- The overflowing round on `x` all 0 and `temp` all 1. -/
theorem exchange_round_overflow_witness :
    ∃ s, exchange_round 2 1073741824 1 2
        { x := List.replicate 1073741824 0, temp := List.replicate 1073741824 1 } = some s ∧
      ∀ idx : Nat, 536870912 ≤ idx → s.x[idx]? = (List.replicate 1073741824 1)[idx]? :=
  exchange_round_overflow (List.replicate 1073741824 0) (List.replicate 1073741824 1)
    (List.length_replicate _ _) (List.length_replicate _ _)

/-- C14: with `thread_count = 4`, `n = 1073741824`, rank 2 and partner 3 the
products `(rank + 1) * n` and `(partner + 1) * n` overflow, the last indices
are computed as `-268435457` and `-1`, no loop of `Merge_dec` runs, and the
call returns with nothing read and nothing written: `B` is as it was. Whenever
`(partner + 1) * n` is below `2 ^ 31` and the two blocks of `A` are sorted
ascending, `Merge_dec` returns with both blocks of `B` sorted ascending, no
element of the own block below an element of the partner block, and the two
blocks a permutation of `A`'s two blocks. -/
theorem Merge_dec_overflow_idle :
    (∀ A B : List Int, Merge_dec 4 1073741824 A B 2 3 =
      some
        { A := A, B := B, my_first := -268435457, p_first := -1, i := -268435457, j := -1,
          reads := [], writes := [] }) ∧
    (∀ (tc m r q : Nat) (A B : List Int), 1 ≤ tc → r < q → q < tc →
      A.length = tc * m → B.length = tc * m → (q + 1) * (tc * m) < 2147483648 →
      (slice A (r * m) (r * m + m)).Sorted (· ≤ ·) →
      (slice A (q * m) (q * m + m)).Sorted (· ≤ ·) →
      ∃ s, Merge_dec tc (tc * m) A B r q = some s ∧
        (slice s.B (r * m) (r * m + m)).Sorted (· ≤ ·) ∧
        (slice s.B (q * m) (q * m + m)).Sorted (· ≤ ·) ∧
        (∀ a ∈ slice s.B (r * m) (r * m + m), ∀ b ∈ slice s.B (q * m) (q * m + m), b ≤ a) ∧
        (slice s.B (r * m) (r * m + m) ++ slice s.B (q * m) (q * m + m)).Perm
          (slice A (r * m) (r * m + m) ++ slice A (q * m) (q * m + m))) := by
  refine ⟨?_, Merge_dec_ascending⟩
  intro A B
  have h1 : first_index wrap32 4 1073741824 2 = 536870912 := by decide
  have h2 : last_index wrap32 4 1073741824 2 = -268435457 := by decide
  have h3 : first_index wrap32 4 1073741824 3 = 805306368 := by decide
  have h4 : last_index wrap32 4 1073741824 3 = -1 := by decide
  rw [Merge_dec_eq_loops 4 1073741824 2 3 A B _ _ _ _ h1 h2 h3 h4]
  exact Merge_dec_loops_idle _ _ _ _ A B (by decide) (by decide)

/-- C15: with `thread_count = 2`, `n = 1073741824`, rank 0 and partner 1
`Merge_dec` starts with `p_first = -1073741825`, and its first comparison
`A[my_first] >= A[p_first]` reads `A` at that negative index: the access is
outside `[0, n)`, and the call does not return a result. -/
theorem Merge_dec_reads_outside (A B : List Int) :
    Merge_dec 2 1073741824 A B 0 1 =
      Merge_dec_loops 536870911 0 (-1073741825) 536870912 A B ∧
    arr_get A (-1073741825) = none ∧
    test_ge
      { A := A, B := B, my_first := 536870911, p_first := -1073741825, i := 536870911,
        j := -1073741825, reads := [], writes := [] } = none ∧
    Merge_dec 2 1073741824 A B 0 1 = none := by
  have h1 : first_index wrap32 2 1073741824 0 = 0 := by decide
  have h2 : last_index wrap32 2 1073741824 0 = 536870911 := by decide
  have h3 : first_index wrap32 2 1073741824 1 = 536870912 := by decide
  have h4 : last_index wrap32 2 1073741824 1 = -1073741825 := by decide
  have hg : arr_get A (-1073741825) = none := by
    rw [arr_get, if_neg (by decide)]
  refine ⟨Merge_dec_eq_loops 2 1073741824 0 1 A B _ _ _ _ h1 h2 h3 h4, hg, ?_, ?_⟩
  · unfold test_ge
    simp only [hg]
    cases arr_get A 536870911 <;> rfl
  · rw [Merge_dec_eq_loops 2 1073741824 0 1 A B _ _ _ _ h1 h2 h3 h4]
    exact Merge_dec_loops_none _ _ _ _ A B (by decide) (by decide)

/-- C3, counterexample: with `thread_count = 2`, `n = 4` the blocks `[4, 1]`
and `[3, 2]` of `A = [4, 1, 3, 2]` are each sorted descending, and
`Merge_dec(A, B, 0, 1)` leaves `B = [3, 2, 4, 1]`, which is not sorted
descending. -/
theorem Merge_dec_descending_blocks :
    (slice [4, 1, 3, 2] 0 2).Sorted (· ≥ ·) ∧ (slice [4, 1, 3, 2] 2 4).Sorted (· ≥ ·) ∧
    (Merge_dec 2 4 [4, 1, 3, 2] [0, 0, 0, 0] 0 1).map (fun s => s.B) = some [3, 2, 4, 1] ∧
    ¬ ([3, 2, 4, 1] : List Int).Sorted (· ≥ ·) := by
  decide

/-- C3, as amended: for `rank < partner < thread_count`, `n = thread_count * m`
with `(partner + 1) * n` below `2 ^ 31`, and arrays of length `n` where `A`'s
block of `rank` and block of `partner` are each sorted ascending,
`Merge_dec(A, B, rank, partner)` returns; afterwards `B`'s block of `rank` and
`B`'s block of `partner` are each sorted ascending, every element of the block
of `rank` is at least every element of the block of `partner`, and the two
blocks of `B` together are a permutation of the two blocks of `A`. -/
theorem Merge_dec_split (tc m r q : Nat) (A B : List Int) (htc : 1 ≤ tc)
    (hrq : r < q) (hq : q < tc) (hA : A.length = tc * m) (hB : B.length = tc * m)
    (hov : (q + 1) * (tc * m) < 2147483648)
    (hs1 : (slice A (r * m) (r * m + m)).Sorted (· ≤ ·))
    (hs2 : (slice A (q * m) (q * m + m)).Sorted (· ≤ ·)) :
    ∃ s, Merge_dec tc (tc * m) A B r q = some s ∧
      (slice s.B (r * m) (r * m + m)).Sorted (· ≤ ·) ∧
      (slice s.B (q * m) (q * m + m)).Sorted (· ≤ ·) ∧
      (∀ a ∈ slice s.B (r * m) (r * m + m), ∀ b ∈ slice s.B (q * m) (q * m + m), b ≤ a) ∧
      (slice s.B (r * m) (r * m + m) ++ slice s.B (q * m) (q * m + m)).Perm
        (slice A (r * m) (r * m + m) ++ slice A (q * m) (q * m + m)) :=
  Merge_dec_ascending tc m r q A B htc hrq hq hA hB hov hs1 hs2

/-- The descending merge of ascending blocks at `thread_count = 2`, `n = 4`,
`A = [1, 4, 2, 3]`. -/
theorem Merge_dec_split_witness :
    ∃ s, Merge_dec 2 (2 * 2) [1, 4, 2, 3] [0, 0, 0, 0] 0 1 = some s ∧
      (slice s.B (0 * 2) (0 * 2 + 2)).Sorted (· ≤ ·) ∧
      (slice s.B (1 * 2) (1 * 2 + 2)).Sorted (· ≤ ·) ∧
      (∀ a ∈ slice s.B (0 * 2) (0 * 2 + 2), ∀ b ∈ slice s.B (1 * 2) (1 * 2 + 2), b ≤ a) ∧
      (slice s.B (0 * 2) (0 * 2 + 2) ++ slice s.B (1 * 2) (1 * 2 + 2)).Perm
        (slice [1, 4, 2, 3] (0 * 2) (0 * 2 + 2) ++ slice [1, 4, 2, 3] (1 * 2) (1 * 2 + 2)) :=
  Merge_dec_split 2 2 0 1 [1, 4, 2, 3] [0, 0, 0, 0] (by decide) (by decide) (by decide)
    (by decide) (by decide) (by decide) (by decide) (by decide)

/-- The partition at `thread_count = 4`, `n = 8`. -/
theorem partition_exact_witness :
    (∀ rank, rank < 4 → last_index id 4 8 rank - first_index id 4 8 rank + 1 = ((8 / 4 : Nat) : Int)) ∧
    (∀ r1 r2, r1 < 4 → r2 < 4 → r1 ≠ r2 → ∀ k : Int,
      ¬ (first_index id 4 8 r1 ≤ k ∧ k ≤ last_index id 4 8 r1 ∧
         first_index id 4 8 r2 ≤ k ∧ k ≤ last_index id 4 8 r2)) ∧
    (∀ k : Int, (0 ≤ k ∧ k < (8 : Nat)) ↔
      ∃ rank, rank < 4 ∧ first_index id 4 8 rank ≤ k ∧ k ≤ last_index id 4 8 rank) :=
  partition_exact 4 8 (by decide) (by decide)

/-- The merge frame at `thread_count = 3`, `n = 6`, rank 0 and partner 2. -/
theorem Merge_frame_witness :
    (∀ s, Merge_inc 3 (3 * 2) [1, 4, 9, 9, 2, 3] [0, 0, 7, 7, 0, 0] 0 2 = some s →
      s.A = [1, 4, 9, 9, 2, 3] ∧ s.B.length = [0, 0, 7, 7, 0, 0].length ∧
      (∀ idx : Nat, ¬ (0 * 2 ≤ idx ∧ idx < (0 + 1) * 2) →
        ¬ (2 * 2 ≤ idx ∧ idx < (2 + 1) * 2) → s.B[idx]? = [0, 0, 7, 7, 0, 0][idx]?) ∧
      (∀ w : Int, w ∈ s.writes →
        (((0 * 2 : Nat) : Int) ≤ w ∧ w < (((0 + 1) * 2 : Nat) : Int)) ∨
        (((2 * 2 : Nat) : Int) ≤ w ∧ w < (((2 + 1) * 2 : Nat) : Int)))) ∧
    (∀ s, Merge_dec 3 (3 * 2) [1, 4, 9, 9, 2, 3] [0, 0, 7, 7, 0, 0] 0 2 = some s →
      s.A = [1, 4, 9, 9, 2, 3] ∧ s.B.length = [0, 0, 7, 7, 0, 0].length ∧
      (∀ idx : Nat, ¬ (0 * 2 ≤ idx ∧ idx < (0 + 1) * 2) →
        ¬ (2 * 2 ≤ idx ∧ idx < (2 + 1) * 2) → s.B[idx]? = [0, 0, 7, 7, 0, 0][idx]?) ∧
      (∀ w : Int, w ∈ s.writes →
        (((0 * 2 : Nat) : Int) ≤ w ∧ w < (((0 + 1) * 2 : Nat) : Int)) ∨
        (((2 * 2 : Nat) : Int) ≤ w ∧ w < (((2 + 1) * 2 : Nat) : Int)))) ∧
    ((2 + 1) * (3 * 2) < 2147483648 →
      (∃ s, Merge_inc 3 (3 * 2) [1, 4, 9, 9, 2, 3] [0, 0, 7, 7, 0, 0] 0 2 = some s) ∧
      ∃ s, Merge_dec 3 (3 * 2) [1, 4, 9, 9, 2, 3] [0, 0, 7, 7, 0, 0] 0 2 = some s) :=
  Merge_frame 3 2 0 2 [1, 4, 9, 9, 2, 3] [0, 0, 7, 7, 0, 0] (by decide) (by decide)
    (by decide) (by decide) (by decide) (by decide)

theorem mem_of_getElem?_some {α : Type} (l : List α) (t : Nat) (x : α)
    (h : l[t]? = some x) : x ∈ l := by
  obtain ⟨h1, h2⟩ := List.getElem?_eq_some.mp h
  rw [← h2]
  exact List.getElem_mem _

theorem countP_set_gain {α : Type} (p : α → Bool) (y : α) (hy : p y = true) :
    ∀ (l : List α) (t : Nat) (x : α), l[t]? = some x → p x = false →
      (l.set t y).countP p = l.countP p + 1 := by
  intro l
  induction l with
  | nil => intro t x h; simp at h
  | cons a l ih =>
    intro t x h hx
    cases t with
    | zero =>
      simp only [List.getElem?_cons_zero, Option.some.injEq] at h
      subst h
      simp [List.countP_cons, hy, hx]
    | succ t =>
      simp only [List.getElem?_cons_succ] at h
      simp only [List.set_cons_succ, List.countP_cons, ih t x h hx]
      omega

theorem countP_set_same {α : Type} (p : α → Bool) (y : α) (hy : p y = false) :
    ∀ (l : List α) (t : Nat) (x : α), l[t]? = some x → p x = false →
      (l.set t y).countP p = l.countP p := by
  intro l
  induction l with
  | nil => intro t x h; simp at h
  | cons a l ih =>
    intro t x h hx
    cases t with
    | zero =>
      simp only [List.getElem?_cons_zero, Option.some.injEq] at h
      subst h
      simp [List.countP_cons, hy, hx]
    | succ t =>
      simp only [List.getElem?_cons_succ] at h
      simp only [List.set_cons_succ, List.countP_cons, ih t x h hx]

/-- When all elements of a list but one satisfy `p` and the element at `t`
does not, every other element does. -/
theorem all_but_one {α : Type} (p : α → Bool) :
    ∀ (l : List α) (t : Nat) (x : α), l.countP p + 1 = l.length → l[t]? = some x →
      p x = false → ∀ (u : Nat) (v : α), u ≠ t → l[u]? = some v → p v = true := by
  intro l
  induction l with
  | nil => intro t x _ h; simp at h
  | cons a l ih =>
    intro t x hc h hx u v hut hv
    by_cases ha : p a = true
    · have hc2 : l.countP p + 1 = l.length := by
        simp only [List.countP_cons, ha, if_true, List.length_cons] at hc
        omega
      cases t with
      | zero =>
        simp only [List.getElem?_cons_zero, Option.some.injEq] at h
        subst h
        rw [ha] at hx
        cases hx
      | succ t =>
        simp only [List.getElem?_cons_succ] at h
        cases u with
        | zero =>
          simp only [List.getElem?_cons_zero, Option.some.injEq] at hv
          subst hv
          exact ha
        | succ u =>
          simp only [List.getElem?_cons_succ] at hv
          exact ih t x hc2 h hx u v (by omega) hv
    · have hc2 : l.countP p = l.length := by
        have e : (a :: l).countP p = l.countP p := by simp [List.countP_cons, ha]
        rw [e, List.length_cons] at hc
        omega
      have hall := List.countP_eq_length.mp hc2
      cases u with
      | zero =>
        cases t with
        | zero => exact absurd rfl hut
        | succ t =>
          simp only [List.getElem?_cons_succ] at h
          have := hall x (mem_of_getElem?_some _ _ _ h)
          rw [this] at hx
          cases hx
      | succ u =>
        simp only [List.getElem?_cons_succ] at hv
        exact hall v (mem_of_getElem?_some _ _ _ hv)

theorem mem_set_index {α : Type} (l : List α) (t : Nat) (y p : α) (h : p ∈ l.set t y) :
    p = y ∨ ∃ u, u ≠ t ∧ l[u]? = some p := by
  obtain ⟨u, hu, hpu⟩ := List.getElem_of_mem h
  rw [List.getElem_set] at hpu
  by_cases c : t = u
  · rw [if_pos c] at hpu
    left; exact hpu.symm
  · rw [if_neg c] at hpu
    right
    rw [List.length_set] at hu
    exact ⟨u, fun e => c e.symm, by rw [List.getElem?_eq_getElem hu, hpu]⟩

theorem Barrier.start_inv (thread_count : Nat) :
    Barrier.Inv thread_count (Barrier.start thread_count) := by
  left
  refine ⟨rfl, ?_, by simp [Barrier.start], ?_⟩
  · simp only [Barrier.start]
    rw [List.countP_eq_zero.mpr]
    intro p hp
    rw [List.eq_of_mem_replicate hp]
    decide
  · intro p hp
    left
    exact List.eq_of_mem_replicate hp

theorem Barrier.step_inv (thread_count : Nat) (b b1 : Barrier) (e : Event)
    (hI : Barrier.Inv thread_count b) (he : ∀ t, e ≠ Event.wake t)
    (h : b.step thread_count e = some b1) : Barrier.Inv thread_count b1 := by
  cases e with
  | lock t =>
    simp only [Barrier.step] at h
    split at h
    · rename_i hc
      simp only [Option.some.injEq] at h
      subst h
      rcases hI with ⟨h1, h2, h3, h4⟩ | ⟨h1, h2, h4⟩
      · left
        refine ⟨h1, ?_, by simpa using h3, ?_⟩
        · simp only []
          rw [countP_set_same _ _ (by decide) _ _ _ hc.1 (by decide)]
          exact h2
        · intro p hp
          rcases List.mem_or_eq_of_mem_set hp with h5 | h5
          · exact h4 p h5
          · right; left; exact h5
      · have := h4 _ (mem_of_getElem?_some _ _ _ hc.1)
        simp at this
    · cases h
  | arrive t =>
    simp only [Barrier.step] at h
    split at h
    · rename_i hc
      rcases hI with ⟨h1, h2, h3, h4⟩ | ⟨h1, h2, h4⟩
      · split at h
        · rename_i hlast
          simp only [Option.some.injEq] at h
          subst h
          right
          refine ⟨by simp [h1], rfl, ?_⟩
          intro p hp
          simp only [] at hp
          rcases mem_set_index _ _ _ _ hp with h5 | ⟨u, hut, h5⟩
          · right; left; exact h5
          · rw [List.getElem?_map] at h5
            cases hgu : b.place[u]? with
            | none => rw [hgu] at h5; cases h5
            | some q =>
              rw [hgu] at h5
              simp only [Option.map_some', Option.some.injEq] at h5
              have hw := all_but_one (fun p => decide (p = Place.waiting)) b.place t
                Place.locked (by rw [← h2, h3]; exact hlast) hc (by decide) u q hut hgu
              simp only [decide_eq_true_eq] at hw
              subst hw
              left
              rw [← h5]
              rfl
        · simp only [Option.some.injEq] at h
          subst h
          left
          refine ⟨h1, ?_, by simpa using h3, ?_⟩
          · simp only []
            rw [countP_set_gain _ _ (by decide) _ _ _ hc (by decide), h2]
          · intro p hp
            rcases List.mem_or_eq_of_mem_set hp with h5 | h5
            · exact h4 p h5
            · right; right; exact h5
      · have := h4 _ (mem_of_getElem?_some _ _ _ hc)
        simp at this
    · cases h
  | wake t => exact absurd rfl (he t)
  | resume t =>
    simp only [Barrier.step] at h
    split at h
    · rename_i hc
      simp only [Option.some.injEq] at h
      subst h
      rcases hI with ⟨h1, h2, h3, h4⟩ | ⟨h1, h2, h4⟩
      · have := h4 _ (mem_of_getElem?_some _ _ _ hc.1)
        simp at this
      · right
        refine ⟨h1, h2, ?_⟩
        intro p hp
        rcases List.mem_or_eq_of_mem_set hp with h5 | h5
        · exact h4 p h5
        · right; left; exact h5
    · cases h
  | unlock t =>
    simp only [Barrier.step] at h
    split at h
    · rename_i hc
      simp only [Option.some.injEq] at h
      subst h
      rcases hI with ⟨h1, h2, h3, h4⟩ | ⟨h1, h2, h4⟩
      · have := h4 _ (mem_of_getElem?_some _ _ _ hc)
        simp at this
      · right
        refine ⟨h1, h2, ?_⟩
        intro p hp
        rcases List.mem_or_eq_of_mem_set hp with h5 | h5
        · exact h4 p h5
        · right; right; exact h5
    · cases h

theorem Barrier.run_inv (thread_count : Nat) :
    ∀ (es : List Event) (b b1 : Barrier), Barrier.Inv thread_count b →
      (∀ e ∈ es, ∀ t, e ≠ Event.wake t) → Barrier.run thread_count b es = some b1 →
      Barrier.Inv thread_count b1 := by
  intro es
  induction es with
  | nil =>
    intro b b1 hI _ h
    simp only [Barrier.run, Option.some.injEq] at h
    subst h
    exact hI
  | cons e es ih =>
    intro b b1 hI he h
    rw [Barrier.run] at h
    split at h
    · cases h
    · rename_i b2 hs
      exact ih b2 b1
        (Barrier.step_inv thread_count b b2 e hI (he e (List.mem_cons_self _ _)) hs)
        (fun e1 h1 => he e1 (List.mem_cons_of_mem _ h1)) h

/-- C10: with `thread_count = 2`, thread 0 locks, increments the counter to 1
and blocks in `pthread_cond_wait`; a spurious wakeup lets the call return 0,
the loop ends, and thread 0 is past the barrier while thread 1 has not
arrived, the counter is still 1 and no thread has reset it or called
`Swap_list`. Without the wakeup thread 0 cannot resume, and the schedule in
which thread 1 arrives releases both threads after one `Swap_list`. In every
schedule without a spurious wakeup, for every `thread_count`, the counter is
reset and `Swap_list` called at most once, and a thread is unblocked or past
the barrier only after that reset, with the counter 0 and every thread
arrived. -/
theorem barrier_spurious_wakeup :
    Barrier.run 2 (Barrier.start 2)
        [Event.lock 0, Event.arrive 0, Event.wake 0, Event.resume 0, Event.unlock 0] =
      some
        { place := [Place.released, Place.merging], barrier_thread_count := 1,
          barrier_mutex := none, swaps := 0 } ∧
    Barrier.run 2 (Barrier.start 2) [Event.lock 0, Event.arrive 0, Event.resume 0] = none ∧
    Barrier.run 2 (Barrier.start 2)
        [Event.lock 0, Event.arrive 0, Event.lock 1, Event.arrive 1, Event.unlock 1,
          Event.resume 0, Event.unlock 0] =
      some
        { place := [Place.released, Place.released], barrier_thread_count := 0,
          barrier_mutex := none, swaps := 1 } ∧
    (∀ (thread_count : Nat) (es : List Event) (b : Barrier),
      (∀ e ∈ es, ∀ t, e ≠ Event.wake t) →
      Barrier.run thread_count (Barrier.start thread_count) es = some b →
      b.swaps ≤ 1 ∧
      ∀ t : Nat, (b.place[t]? = some Place.woken ∨ b.place[t]? = some Place.leaving ∨
          b.place[t]? = some Place.released) →
        b.swaps = 1 ∧ b.barrier_thread_count = 0 ∧
        ∀ p ∈ b.place, p ≠ Place.merging ∧ p ≠ Place.locked ∧ p ≠ Place.waiting) := by
  refine ⟨by decide, by decide, by decide, ?_⟩
  intro thread_count es b he h
  have hI := Barrier.run_inv thread_count es _ b (Barrier.start_inv thread_count) he h
  rcases hI with ⟨h1, h2, h3, h4⟩ | ⟨h1, h2, h4⟩
  · refine ⟨by omega, ?_⟩
    intro t ht
    exfalso
    rcases ht with ht | ht | ht <;>
    · have := h4 _ (mem_of_getElem?_some _ _ _ ht)
      simp at this
  · refine ⟨by omega, ?_⟩
    intro t _
    refine ⟨h1, h2, ?_⟩
    intro p hp
    rcases h4 p hp with h5 | h5 | h5 <;> subst h5 <;> decide

/-! ## The loop nest with its real body -/

end Bitonic
